import Mathlib

/-!
Verification of the graph-algorithm core of the repository (file `main.py`):
Prim minimum spanning tree, Bellman-Ford single-source shortest paths with
negative-cycle detection, Floyd-Warshall all-pairs shortest paths, and
successor-matrix path reconstruction.

The Python code is shallowly embedded: dictionaries become total functions
updated pointwise, `math.inf` becomes the top element of `WithTop ℤ`,
list-of-list matrices become functions `ℕ → ℕ → _` updated pointwise, and the
unguarded `while` loop of `reconstruct_path` is modelled with an explicit fuel
argument (the source loop has no bound; the fuel lets us state both its
terminating behaviour and its divergence on malformed input).
-/

set_option linter.unusedVariables false
set_option linter.unusedSectionVars false

namespace GraphAlgos

/-- Edge weights extended with the `math.inf` value used by the Python code. -/
abbrev Weight : Type := WithTop ℤ

/-- Pointwise update of a finite map modelled as a total function
(Python dict assignment `d[a] = x`). -/
def updF {V : Type} [DecidableEq V] {α : Type} (f : V → α) (a : V) (x : α) : V → α :=
  fun v => if v = a then x else f v

/-- Matrix entry update (Python assignment `m[a][b] = x` on a list of lists). -/
def updM {α : Type} (m : ℕ → ℕ → α) (a b : ℕ) (x : α) : ℕ → ℕ → α :=
  fun i j => if i = a ∧ j = b then x else m i j

section Defs

variable {V : Type} [DecidableEq V] [LinearOrder V]

/-- The weight of a list of edges (each edge is `(source, target, weight)`). -/
def WalkWeight (p : List (V × V × ℤ)) : ℤ :=
  (p.map (fun e => e.2.2)).sum

/-- The successive target vertices of a list of edges. -/
def walkTargets (p : List (V × V × ℤ)) : List V :=
  p.map (fun e => e.2.1)

/-- All vertices visited by a walk starting at `x`. -/
def walkVerts (x : V) (p : List (V × V × ℤ)) : List V :=
  x :: walkTargets p

/-- `IsWalkFrom edges x y p` means the edge list `p` is a chained walk through
the graph from `x` to `y`, using only edges of `edges`. -/
def IsWalkFrom (edges : List (V × V × ℤ)) : V → V → List (V × V × ℤ) → Prop
  | x, y, [] => x = y
  | x, y, e :: p => e ∈ edges ∧ e.1 = x ∧ IsWalkFrom edges e.2.1 y p

/-- A path is a walk that repeats no vertex. -/
def IsPathFrom (edges : List (V × V × ℤ)) (x y : V) (p : List (V × V × ℤ)) : Prop :=
  IsWalkFrom edges x y p ∧ (walkVerts x p).Nodup

/-- Reachability by some walk. -/
def Reaches (edges : List (V × V × ℤ)) (x y : V) : Prop :=
  ∃ p, IsWalkFrom edges x y p

/-- `d` is the minimum total weight over all paths from `x` to `y`
(`⊤` exactly when `y` is unreachable from `x`). -/
def IsMinPathDist (edges : List (V × V × ℤ)) (x y : V) (d : Weight) : Prop :=
  (∀ p, IsPathFrom edges x y p → d ≤ (WalkWeight p : Weight)) ∧
  (d ≠ ⊤ → ∃ p, IsPathFrom edges x y p ∧ (WalkWeight p : Weight) = d) ∧
  (d = ⊤ ↔ ¬ Reaches edges x y)

/-- The graph contains a negative-weight cycle (given as a nonempty closed
walk) reachable from `s`. -/
def HasNegCycleFrom (edges : List (V × V × ℤ)) (s : V) : Prop :=
  ∃ z c, Reaches edges s z ∧ IsWalkFrom edges z z c ∧ c ≠ [] ∧ WalkWeight c < 0

/-- The graph contains no negative-weight cycle at all: every nonempty closed
walk has nonnegative total weight. -/
def NoNegCycle (edges : List (V × V × ℤ)) : Prop :=
  ∀ z c, IsWalkFrom edges z z c → c ≠ [] → 0 ≤ WalkWeight c

/-- Position of a vertex in the fixed vertex order: the Python code builds
`pos = {v: i for i, v in enumerate(vertices)}`. -/
def posOf (vertices : List V) (v : V) : ℕ :=
  vertices.indexOf v

/-- The error raised by `bellman_ford` on a reachable negative cycle
(`ValueError("Grafo contém ciclo negativo.")` in the source). -/
inductive BFError : Type
  | negativeCycle : BFError
deriving DecidableEq

/-- State of the Bellman-Ford relaxation loop: the `dist` and `parent`
dictionaries and the per-pass `updated` flag. -/
structure BFState (V : Type) where
  dist : V → Weight
  parent : V → Option V
  updated : Bool

/-- One relaxation attempt for a single edge `(u, v, w)`:
`if dist[u] + w < dist[v]: dist[v] = dist[u] + w; parent[v] = u; updated = True`. -/
def bfStep (s : BFState V) (e : V × V × ℤ) : BFState V :=
  if s.dist e.1 + (e.2.2 : Weight) < s.dist e.2.1 then
    { dist := updF s.dist e.2.1 (s.dist e.1 + (e.2.2 : Weight)),
      parent := updF s.parent e.2.1 (some e.1),
      updated := true }
  else s

/-- One full pass over the edge list, with the `updated` flag reset first. -/
def bfPass (edges : List (V × V × ℤ)) (s : BFState V) : BFState V :=
  edges.foldl bfStep { dist := s.dist, parent := s.parent, updated := false }

/-- Up to `n` relaxation passes with early exit when a pass makes no update
(the `for _ in range(len(vertices) - 1): ... if not updated: break` loop). -/
def bfLoop (edges : List (V × V × ℤ)) : ℕ → BFState V → BFState V
  | 0, s => s
  | n + 1, s =>
    if (bfPass edges s).updated then bfLoop edges n (bfPass edges s) else bfPass edges s

/-- The initial Bellman-Ford state: `dist` is `inf` everywhere except
`dist[source] = 0`, `parent` is `none` everywhere. -/
def bfInit (source : V) : BFState V :=
  { dist := fun v => if v = source then 0 else ⊤,
    parent := fun _ => none,
    updated := false }

/-- The state after the relaxation passes of `bellman_ford`. -/
def bfFinal (vertices : List V) (edges : List (V × V × ℤ)) (source : V) : BFState V :=
  bfLoop edges (vertices.length - 1) (bfInit source)

/-- The `bellman_ford(vertices, edges, source)` function of the source:
initialise `dist` to `inf` except `dist[source] = 0`, run the relaxation
passes, then scan once more for a still-relaxable edge and fail in that case. -/
def bellman_ford (vertices : List V) (edges : List (V × V × ℤ)) (source : V) :
    Except BFError ((V → Weight) × (V → Option V)) :=
  if edges.any (fun e =>
      decide ((bfFinal vertices edges source).dist e.1 + (e.2.2 : Weight) <
        (bfFinal vertices edges source).dist e.2.1)) then
    Except.error BFError.negativeCycle
  else
    Except.ok ((bfFinal vertices edges source).dist, (bfFinal vertices edges source).parent)

/-- State of the Floyd-Warshall computation: the distance matrix and the
successor matrix. -/
structure FWState (V : Type) where
  dist : ℕ → ℕ → Weight
  nx : ℕ → ℕ → Option V

/-- One Floyd-Warshall relaxation:
`if dist[i][j] > dist[i][k] + dist[k][j]: dist[i][j] = ...; next[i][j] = next[i][k]`. -/
def fwUpdate (k i j : ℕ) (σ : FWState V) : FWState V :=
  if σ.dist i k + σ.dist k j < σ.dist i j then
    { dist := updM σ.dist i j (σ.dist i k + σ.dist k j),
      nx := updM σ.nx i j (σ.nx i k) }
  else σ

/-- The inner double loop of a Floyd-Warshall phase for intermediate `k`. -/
def fwPhase (n k : ℕ) (σ : FWState V) : FWState V :=
  (List.range n).foldl (fun σ i => (List.range n).foldl (fun σ j => fwUpdate k i j σ) σ) σ

/-- All `n` phases of the triple loop. -/
def fwRun (n : ℕ) (σ : FWState V) : FWState V :=
  (List.range n).foldl (fun σ k => fwPhase n k σ) σ

/-- The step performed for each vertex in the diagonal initialisation of
`floyd_warshall`. -/
def fwDiagStep (pos : V → ℕ) (σ : FWState V) (v : V) : FWState V :=
  { dist := updM σ.dist (pos v) (pos v) 0,
    nx := updM σ.nx (pos v) (pos v) (some v) }

/-- The step performed for each edge in the initialisation of
`floyd_warshall`. -/
def fwEdgeStep (pos : V → ℕ) (σ : FWState V) (e : V × V × ℤ) : FWState V :=
  { dist := updM σ.dist (pos e.1) (pos e.2.1)
      (min (σ.dist (pos e.1) (pos e.2.1)) ((e.2.2 : ℤ) : Weight)),
    nx := updM σ.nx (pos e.1) (pos e.2.1) (some e.2.1) }

/-- The initial matrices: `⊤`/`none` everywhere, then 0/`v` on the diagonal,
then for each edge the minimum direct weight and the direct successor. -/
def fwInit (vertices : List V) (edges : List (V × V × ℤ)) : FWState V :=
  edges.foldl (fwEdgeStep (posOf vertices))
    (vertices.foldl (fwDiagStep (posOf vertices))
      { dist := fun _ _ => ⊤, nx := fun _ _ => none })

/-- The `floyd_warshall(vertices, edges)` function of the source, returning
`(dist, pos, next_node)`. -/
def floyd_warshall (vertices : List V) (edges : List (V × V × ℤ)) :
    (ℕ → ℕ → Weight) × (V → ℕ) × (ℕ → ℕ → Option V) :=
  ((fwRun vertices.length (fwInit vertices edges)).dist, posOf vertices,
    (fwRun vertices.length (fwInit vertices edges)).nx)

/-- The `while u != v` walk of `reconstruct_path`, with explicit fuel: the
source loop is unguarded, so `none` means the walk did not finish within
`fuel` steps (on a malformed successor matrix it never finishes). -/
def reconstructLoop (pos : V → ℕ) (nx : ℕ → ℕ → Option V) (v : V) :
    ℕ → V → List V → Option (List V)
  | fuel, u, path =>
    if u = v then some path
    else
      match fuel with
      | 0 => none
      | fuel' + 1 =>
        match nx (pos u) (pos v) with
        | none => none
        | some u' => reconstructLoop pos nx v fuel' u' (path ++ [u'])

/-- The `reconstruct_path(u, v, vertices, pos, next_node)` function of the
source (the `vertices` argument is taken but unused, as in the code). -/
def reconstruct_path (u v : V) (vertices : List V) (pos : V → ℕ)
    (next_node : ℕ → ℕ → Option V) (fuel : ℕ) : Option (List V) :=
  if next_node (pos u) (pos v) = none then some []
  else reconstructLoop pos next_node v fuel u [u]

/-- Boolean version of `IsWalkFrom`, used to enumerate walks. -/
def isWalkFromB (edges : List (V × V × ℤ)) : V → V → List (V × V × ℤ) → Bool
  | x, y, [] => decide (x = y)
  | x, y, e :: p => decide (e ∈ edges) && decide (e.1 = x) && isWalkFromB edges e.2.1 y p

/-- All sequences of length at most `n` whose elements come from `edges`. -/
def seqsUpTo (edges : List (V × V × ℤ)) : ℕ → List (List (V × V × ℤ))
  | 0 => [[]]
  | n + 1 => [] :: edges.flatMap (fun e => (seqsUpTo edges n).map (fun p => e :: p))

/-- Minimum weight over all walks from `x` to `y` of length at most
`vertices.length` (which, in the absence of negative cycles, is the true
shortest-walk distance). -/
def deltaW (vertices : List V) (edges : List (V × V × ℤ)) (x y : V) : Weight :=
  (((seqsUpTo edges vertices.length).filter (fun p => isWalkFromB edges x y p)).map
    (fun p => ((WalkWeight p : ℤ) : Weight))).foldr min ⊤

/-- Minimum direct-edge weight from `u` to `v` (`⊤` when there is no edge). -/
def wmin (edges : List (V × V × ℤ)) (u v : V) : Weight :=
  edges.foldl
    (fun acc e => if e.1 = u ∧ e.2.1 = v then min acc ((e.2.2 : ℤ) : Weight) else acc) ⊤

/-- The adjacency map built at the start of `prim`: for each edge `(u, v, w)`
the code appends `(v, w)` to `adj[u]` and `(u, w)` to `adj[v]`. -/
def adjOf (edges : List (V × V × ℤ)) : V → List (V × ℤ) :=
  edges.foldl
    (fun f e =>
      let f1 := updF f e.1 (f e.1 ++ [(e.2.1, e.2.2)])
      updF f1 e.2.1 (f1 e.2.1 ++ [(e.1, e.2.2)]))
    (fun _ => [])

/-- The lexicographic order Python uses to compare `(weight, vertex)` heap
entries. -/
def pqLe (a b : ℤ × V) : Prop :=
  a.1 < b.1 ∨ (a.1 = b.1 ∧ a.2 ≤ b.2)

instance pqLe.decide (a b : ℤ × V) : Decidable (pqLe a b) := by
  unfold pqLe; infer_instance

/-- The minimum entry of the priority queue under the tuple order (the value
`heappop` returns; the heap layout itself is not observable). -/
def pqMin : List (ℤ × V) → Option (ℤ × V)
  | [] => none
  | e :: rest => some (rest.foldl (fun acc x => if pqLe acc x then acc else x) e)

/-- `heappop`: return the minimum entry and the remaining entries. -/
def popMin (pq : List (ℤ × V)) : Option ((ℤ × V) × List (ℤ × V)) :=
  match pqMin pq with
  | none => none
  | some m => some (m, pq.erase m)

/-- State of Prim's loop: `min_weight`, `parent`, the heap contents and the
set of tree vertices (kept as a list in insertion order). -/
structure PrimState (V : Type) where
  minw : V → Weight
  parent : V → Option V
  pq : List (ℤ × V)
  intree : List V

/-- The neighbour relaxation performed when `u` enters the tree:
`for v, w in adj[u]: if v not in in_tree and w < min_weight[v]: ...`. -/
def primRelax (adj : V → List (V × ℤ)) (u : V) (st : PrimState V) : PrimState V :=
  (adj u).foldl
    (fun st vw =>
      if vw.1 ∉ st.intree ∧ (vw.2 : Weight) < st.minw vw.1 then
        { st with
          minw := updF st.minw vw.1 ((vw.2 : ℤ) : Weight),
          parent := updF st.parent vw.1 (some u),
          pq := st.pq ++ [(vw.2, vw.1)] }
      else st)
    st

/-- The `while pq:` loop of `prim`, with fuel (each iteration pops one entry;
the fuel chosen in `prim` below provably drains the queue). -/
def primLoop (adj : V → List (V × ℤ)) : ℕ → PrimState V → PrimState V
  | 0, st => st
  | fuel + 1, st =>
    match popMin st.pq with
    | none => st
    | some (ku, pq') =>
      if ku.2 ∈ st.intree then primLoop adj fuel { st with pq := pq' }
      else
        primLoop adj fuel
          (primRelax adj ku.2 { st with pq := pq', intree := st.intree ++ [ku.2] })

/-- Result of `prim`: the Python function returns the bare empty list for an
empty vertex list and otherwise the pair `(mst_edges, total_weight)`. -/
inductive PrimResult (V : Type) : Type
  | nil : PrimResult V
  | res : List (V × V × Weight) → Weight → PrimResult V
deriving DecidableEq

/-- The `prim(vertices, edges)` function of the source. -/
def prim (vertices : List V) (edges : List (V × V × ℤ)) : PrimResult V :=
  match vertices with
  | [] => PrimResult.nil
  | root :: _ =>
    let adj := adjOf edges
    let st0 : PrimState V :=
      { minw := updF (fun _ => (⊤ : Weight)) root 0,
        parent := fun _ => none,
        pq := [(0, root)],
        intree := [] }
    let fin := primLoop adj (1 + 2 * edges.length) st0
    PrimResult.res
      (vertices.filterMap (fun v => (fin.parent v).map (fun p => (p, v, fin.minw v))))
      ((vertices.filterMap (fun v => (fin.parent v).map (fun _ => fin.minw v))).sum)

/-- Reverse orientation of a directed edge triple. -/
def swapE (e : V × V × ℤ) : V × V × ℤ :=
  (e.2.1, e.1, e.2.2)

/-- Both orientations of every edge of `T` (undirected use of an edge list). -/
def symCl (T : List (V × V × ℤ)) : List (V × V × ℤ) :=
  T ++ T.map swapE

/-- Membership of an edge in a list up to orientation. -/
def memU (e : V × V × ℤ) (T : List (V × V × ℤ)) : Prop :=
  e ∈ T ∨ swapE e ∈ T

/-- `T`, used undirectedly, connects every pair of vertices of the graph. -/
def ConnectsAll (vertices : List V) (T : List (V × V × ℤ)) : Prop :=
  ∀ u ∈ vertices, ∀ v ∈ vertices, Reaches (symCl T) u v

/-- A spanning tree of the graph, in the sense of the specification: a
selection of `|V| - 1` edge instances of the graph that connects all
vertices. -/
def IsSpanningTree (vertices : List V) (edges T : List (V × V × ℤ)) : Prop :=
  (∀ e ∈ T, e ∈ edges) ∧ T.length = vertices.length - 1 ∧ ConnectsAll vertices T

/-- `t` is the minimum total weight over all spanning trees of the graph. -/
def IsMinSpanningWeight (vertices : List V) (edges : List (V × V × ℤ)) (t : Weight) : Prop :=
  (∃ T, IsSpanningTree vertices edges T ∧ ((WalkWeight T : ℤ) : Weight) = t) ∧
  ∀ T, IsSpanningTree vertices edges T → t ≤ ((WalkWeight T : ℤ) : Weight)

/-- Soundness invariant of the Bellman-Ford state: every finite distance is
realised by an actual walk from the source, and a recorded parent implies a
finite distance. -/
def BFSound (edges : List (V × V × ℤ)) (source : V) (s : BFState V) : Prop :=
  (∀ v, s.dist v ≠ ⊤ →
    ∃ p, IsWalkFrom edges source v p ∧ ((WalkWeight p : ℤ) : Weight) = s.dist v) ∧
  (∀ v, s.parent v ≠ none → s.dist v ≠ ⊤)

/-- The state is a relaxation fixed point: no edge of the graph can still be
relaxed (exactly the condition of the final negative-cycle scan). -/
def BFFixed (edges : List (V × V × ℤ)) (s : BFState V) : Prop :=
  ∀ e ∈ edges, ¬ (s.dist e.1 + (e.2.2 : Weight) < s.dist e.2.1)

/-- Every nonempty closed walk based at a vertex reachable from `x` has
nonnegative weight (the hypothesis under which cycles can be cut out of
walks starting at `x`). -/
def NoNegFrom (edges : List (V × V × ℤ)) (x : V) : Prop :=
  ∀ z c, Reaches edges x z → IsWalkFrom edges z z c → c ≠ [] → 0 ≤ WalkWeight c

/-- The defined-successor / finite-distance correspondence of the
Floyd-Warshall matrices (the invariant behind claim C10). -/
def FWConsistent (σ : FWState V) : Prop :=
  ∀ i j, σ.nx i j = none ↔ σ.dist i j = ⊤

/-- The interior vertices of a walk (all visited vertices except the two
endpoints). -/
def Intermeds (p : List (V × V × ℤ)) : List V :=
  (walkTargets p).dropLast

/-- Soundness of the Floyd-Warshall distance matrix: every finite entry is
the weight of an actual walk between the corresponding vertices. -/
def FWSound (vertices : List V) (edges : List (V × V × ℤ)) (σ : FWState V) : Prop :=
  ∀ u ∈ vertices, ∀ v ∈ vertices,
    σ.dist (posOf vertices u) (posOf vertices v) ≠ ⊤ →
    ∃ p, IsWalkFrom edges u v p ∧
      ((WalkWeight p : ℤ) : Weight) = σ.dist (posOf vertices u) (posOf vertices v)

/-- All diagonal entries of the distance matrix are zero. -/
def FWDiagZero (vertices : List V) (σ : FWState V) : Prop :=
  ∀ u ∈ vertices, σ.dist (posOf vertices u) (posOf vertices u) = 0

/-- Upper-bound invariant after the phases for the first `m` intermediate
vertices: each entry is at most the weight of every walk whose interior
vertices lie among the first `m` vertices. -/
def FWUBound (vertices : List V) (edges : List (V × V × ℤ)) (m : ℕ) (σ : FWState V) : Prop :=
  ∀ u ∈ vertices, ∀ v ∈ vertices, ∀ p, IsWalkFrom edges u v p →
    (∀ z ∈ Intermeds p, z ∈ vertices.take m) →
    σ.dist (posOf vertices u) (posOf vertices v) ≤ ((WalkWeight p : ℤ) : Weight)

/-- The per-entry successor inequality of the Floyd-Warshall matrices: a
defined off-diagonal successor `h` of `(u, v)` is a real neighbour of `u`
(distinct from `u`) through whose own entry the distance factors. -/
def FWEntryC (vertices : List V) (edges : List (V × V × ℤ)) (σ : FWState V) : Prop :=
  ∀ u ∈ vertices, ∀ v ∈ vertices, ∀ h,
    σ.nx (posOf vertices u) (posOf vertices v) = some h → u ≠ v →
    h ∈ vertices ∧ h ≠ u ∧ wmin edges u h ≠ ⊤ ∧
      wmin edges u h + σ.dist (posOf vertices h) (posOf vertices v) ≤
        σ.dist (posOf vertices u) (posOf vertices v)

/-- Diagonal successors point to the vertex itself, and off-diagonal
successor entries written by the algorithm always exist only between graph
vertices. -/
def FWDiagNx (vertices : List V) (σ : FWState V) : Prop :=
  ∀ u ∈ vertices, σ.nx (posOf vertices u) (posOf vertices u) = some u

/-- The basic invariant bundle of the Floyd-Warshall state: consistency,
soundness and a zero diagonal. -/
def FWInv1 (vertices : List V) (edges : List (V × V × ℤ)) (σ : FWState V) : Prop :=
  FWConsistent σ ∧ FWSound vertices edges σ ∧ FWDiagZero vertices σ

/-- A single iteration of the neighbour loop of `prim` (the fold step of
`primRelax`), named so that the fold can be reasoned about stepwise. -/
def primRelaxStep (u : V) (st : PrimState V) (vw : V × ℤ) : PrimState V :=
  if vw.1 ∉ st.intree ∧ (vw.2 : Weight) < st.minw vw.1 then
    { st with
      minw := updF st.minw vw.1 ((vw.2 : ℤ) : Weight),
      parent := updF st.parent vw.1 (some u),
      pq := st.pq ++ [(vw.2, vw.1)] }
  else st

/-- The tree edges accumulated by Prim so far: for each tree vertex with a
recorded parent, the edge `(parent v, v, min_weight v)` (with the weight read
back as an integer; it is always finite for parented vertices). -/
def treeEdges (st : PrimState V) : List (V × V × ℤ) :=
  st.intree.filterMap (fun v => (st.parent v).map (fun p => (p, v, (st.minw v).untop' 0)))

/-- Size potential of the Prim loop: queue length plus the total adjacency
length of the vertices not yet in the tree. It strictly decreases at every
iteration. -/
def primPot (adj : V → List (V × ℤ)) (vertices : List V) (st : PrimState V) : ℕ :=
  st.pq.length +
    ((vertices.filter (fun v => decide (v ∉ st.intree))).map (fun v => (adj v).length)).sum

/-- The core loop invariant of `prim` (everything except the frontier bound):
tree membership bookkeeping, soundness of `parent`/`min_weight`, the heap
lower bound and witness entries, and connectivity of the accumulated tree. -/
structure PrimBase (vertices : List V) (edges : List (V × V × ℤ)) (root : V)
    (st : PrimState V) : Prop where
  rootIn : root ∈ st.intree
  nodup : st.intree.Nodup
  sub : ∀ v ∈ st.intree, v ∈ vertices
  rootPar : st.parent root = none
  rootMinw : st.minw root = 0
  treeSound : ∀ v ∈ st.intree, v ≠ root →
    ∃ p w, st.parent v = some p ∧ p ∈ st.intree ∧ (p, v, w) ∈ edges ∧
      st.minw v = ((w : ℤ) : Weight)
  outSound : ∀ v, v ∉ st.intree → v ≠ root →
    (st.minw v = ⊤ ∧ st.parent v = none) ∨
    (∃ p w, st.parent v = some p ∧ p ∈ st.intree ∧ (p, v, w) ∈ edges ∧
      st.minw v = ((w : ℤ) : Weight))
  pqBound : ∀ kv ∈ st.pq, kv.2 ∈ vertices ∧ st.minw kv.2 ≤ ((kv.1 : ℤ) : Weight)
  pqWitness : ∀ v, v ∉ st.intree → st.minw v ≠ ⊤ →
    ∃ w : ℤ, st.minw v = ((w : ℤ) : Weight) ∧ (w, v) ∈ st.pq
  treeConn : ∀ v ∈ st.intree, Reaches (symCl (treeEdges st)) v root

/-- The frontier bound: for every non-tree vertex, `min_weight` is at most
the weight of every graph edge crossing into it from a tree vertex outside
the exclusion list. -/
def PrimFrontier (edges : List (V × V × ℤ)) (st : PrimState V) (excl : List V) : Prop :=
  ∀ v, v ∉ st.intree → ∀ x ∈ st.intree, x ∉ excl → ∀ w : ℤ, (x, v, w) ∈ edges →
    st.minw v ≤ ((w : ℤ) : Weight)

/-- The full Prim loop invariant. -/
def PrimInv (vertices : List V) (edges : List (V × V × ℤ)) (root : V)
    (st : PrimState V) : Prop :=
  PrimBase vertices edges root st ∧ PrimFrontier edges st []

/-- The exchange invariant: every spanning tree can be improved to one that
extends the accumulated Prim tree without increasing the total weight. -/
def PrimXInv (vertices : List V) (edges : List (V × V × ℤ)) (st : PrimState V) : Prop :=
  ∀ T, IsSpanningTree vertices edges T →
    ∃ R, IsSpanningTree vertices edges (treeEdges st ++ R) ∧
      WalkWeight (treeEdges st ++ R) ≤ WalkWeight T

/-- `NxTrail σ pos b x l`: starting at `x`, the successor entries of column
`b` successively visit the vertices of `l`. -/
def NxTrail (σ : FWState V) (pos : V → ℕ) (b : ℕ) : V → List V → Prop
  | _, [] => True
  | x, y :: l => σ.nx (pos x) b = some y ∧ NxTrail σ pos b y l

/-- Total weight of a successor chain: the sum of the minimum direct-edge
weights along consecutive chain vertices. -/
def chainWeight (edges : List (V × V × ℤ)) : V → List V → Weight
  | _, [] => 0
  | x, y :: l => wmin edges x y + chainWeight edges y l

/-- No cycle among the successor entries of any column `b`, away from the
row of `b` itself. -/
def NoNxCycle (vertices : List V) (σ : FWState V) : Prop :=
  ∀ (b : ℕ) (x : V) (l : List V),
    x ∈ vertices → (∀ y ∈ l, y ∈ vertices) →
    posOf vertices x ≠ b → (∀ y ∈ l, posOf vertices y ≠ b) →
    (x :: l).Nodup →
    ¬ NxTrail σ (posOf vertices) b x (l ++ [x])

end Defs

section Theorems

variable {V : Type} [DecidableEq V] [LinearOrder V]

lemma walkWeight_nil : WalkWeight ([] : List (V × V × ℤ)) = 0 := rfl

lemma walkWeight_cons (e : V × V × ℤ) (p : List (V × V × ℤ)) :
    WalkWeight (e :: p) = e.2.2 + WalkWeight p := by
  simp [WalkWeight]

lemma walkWeight_append (a b : List (V × V × ℤ)) :
    WalkWeight (a ++ b) = WalkWeight a + WalkWeight b := by
  simp [WalkWeight]

lemma IsWalkFrom.append {edges : List (V × V × ℤ)} {x z y : V} {a c : List (V × V × ℤ)}
    (ha : IsWalkFrom edges x z a) (hc : IsWalkFrom edges z y c) :
    IsWalkFrom edges x y (a ++ c) := by
  induction a generalizing x with
  | nil =>
    have hxz : x = z := ha
    simpa [hxz] using hc
  | cons e p ih =>
    obtain ⟨he, hx, hw⟩ := ha
    exact ⟨he, hx, ih hw⟩

lemma reaches_self {edges : List (V × V × ℤ)} {x : V} : Reaches edges x x :=
  ⟨[], rfl⟩

lemma Reaches.trans {edges : List (V × V × ℤ)} {x y z : V}
    (h1 : Reaches edges x y) (h2 : Reaches edges y z) : Reaches edges x z := by
  obtain ⟨a, ha⟩ := h1
  obtain ⟨b, hb⟩ := h2
  exact ⟨a ++ b, ha.append hb⟩

lemma walkTargets_subset {edges : List (V × V × ℤ)} {vertices : List V}
    (hend : ∀ e ∈ edges, e.1 ∈ vertices ∧ e.2.1 ∈ vertices) :
    ∀ {x y : V} {p}, IsWalkFrom edges x y p → ∀ v ∈ walkTargets p, v ∈ vertices := by
  intro x y p
  induction p generalizing x with
  | nil => intro _ v hv; simp [walkTargets] at hv
  | cons e q ih =>
    intro hw v hv
    obtain ⟨he, _, hw'⟩ := hw
    rcases (by simpa [walkTargets] using hv : v = e.2.1 ∨ v ∈ walkTargets q) with h | h
    · exact h ▸ (hend e he).2
    · exact ih hw' v h

lemma isWalkFrom_concat {edges : List (V × V × ℤ)} {x y : V} {q : List (V × V × ℤ)}
    {e : V × V × ℤ} :
    IsWalkFrom edges x y (q ++ [e]) ↔
      IsWalkFrom edges x e.1 q ∧ e ∈ edges ∧ e.2.1 = y := by
  induction q generalizing x with
  | nil =>
    constructor
    · rintro ⟨he, hx, hy⟩
      exact ⟨hx.symm, he, hy⟩
    · rintro ⟨hx, he, hy⟩
      exact ⟨he, hx.symm, hy⟩
  | cons f p ih =>
    constructor
    · rintro ⟨hf, hx, hw⟩
      obtain ⟨h1, h2, h3⟩ := ih.mp hw
      exact ⟨⟨hf, hx, h1⟩, h2, h3⟩
    · rintro ⟨⟨hf, hx, h1⟩, h2, h3⟩
      exact ⟨hf, hx, ih.mpr ⟨h1, h2, h3⟩⟩

lemma walk_split_at_target {edges : List (V × V × ℤ)} {x y v : V} {p : List (V × V × ℤ)}
    (hv : v ∈ walkTargets p) (hw : IsWalkFrom edges x y p) :
    ∃ b c, p = b ++ c ∧ b ≠ [] ∧ IsWalkFrom edges x v b ∧ IsWalkFrom edges v y c := by
  induction p generalizing x with
  | nil => simp [walkTargets] at hv
  | cons e q ih =>
    obtain ⟨he, hx, hw'⟩ := hw
    rcases (by simpa [walkTargets] using hv : v = e.2.1 ∨ v ∈ walkTargets q) with h | h
    · exact ⟨[e], q, rfl, by simp, ⟨he, hx, h.symm⟩, h ▸ hw'⟩
    · obtain ⟨b, c, rfl, hb, hwb, hwc⟩ := ih h hw'
      exact ⟨e :: b, c, rfl, by simp, ⟨he, hx, hwb⟩, hwc⟩

lemma walk_cut {edges : List (V × V × ℤ)} {x y : V} {p : List (V × V × ℤ)}
    (hnd : ¬ (walkVerts x p).Nodup) (hw : IsWalkFrom edges x y p) :
    ∃ a b c z, p = a ++ b ++ c ∧ b ≠ [] ∧
      IsWalkFrom edges x z a ∧ IsWalkFrom edges z z b ∧ IsWalkFrom edges z y c := by
  induction p generalizing x with
  | nil => simp [walkVerts, walkTargets] at hnd
  | cons e q ih =>
    rw [walkVerts, List.nodup_cons] at hnd
    rcases not_and_or.mp hnd with h | h
    · have hx : x ∈ walkTargets (e :: q) := not_not.mp h
      obtain ⟨b, c, heq, hb, hwb, hwc⟩ := walk_split_at_target hx hw
      exact ⟨[], b, c, x, by simpa using heq, hb, rfl, hwb, hwc⟩
    · obtain ⟨he, hx, hw'⟩ := hw
      have : ¬ (walkVerts e.2.1 q).Nodup := by
        simpa [walkVerts, walkTargets] using h
      obtain ⟨a, b, c, z, heq, hb, hwa, hwb, hwc⟩ := ih this hw'
      exact ⟨e :: a, b, c, z, by simp [heq], hb, ⟨he, hx, hwa⟩, hwb, hwc⟩

lemma walk_to_path_aux {edges : List (V × V × ℤ)} {x : V} (hnn : NoNegFrom edges x) :
    ∀ n {y : V} {p : List (V × V × ℤ)}, p.length ≤ n → IsWalkFrom edges x y p →
      ∃ q, IsPathFrom edges x y q ∧ WalkWeight q ≤ WalkWeight p := by
  intro n
  induction n with
  | zero =>
    intro y p hlen hw
    have hp : p = [] := List.length_eq_zero.mp (Nat.le_zero.mp hlen)
    subst hp
    exact ⟨[], ⟨hw, by simp [walkVerts, walkTargets]⟩, le_refl _⟩
  | succ n ih =>
    intro y p hlen hw
    by_cases hnd : (walkVerts x p).Nodup
    · exact ⟨p, ⟨hw, hnd⟩, le_refl _⟩
    · obtain ⟨a, b, c, z, rfl, hb, hwa, hwb, hwc⟩ := walk_cut hnd hw
      have hb0 : 0 ≤ WalkWeight b := hnn z b ⟨a, hwa⟩ hwb hb
      have hw' : IsWalkFrom edges x y (a ++ c) := hwa.append hwc
      have hlen' : (a ++ c).length ≤ n := by
        have hb1 : 1 ≤ b.length := by
          cases b with
          | nil => exact absurd rfl hb
          | cons _ _ => simp
        simp only [List.length_append] at hlen ⊢
        omega
      obtain ⟨q, hq, hqw⟩ := ih hlen' hw'
      refine ⟨q, hq, ?_⟩
      have hweq : WalkWeight (a ++ b ++ c) = WalkWeight (a ++ c) + WalkWeight b := by
        simp [walkWeight_append]; ring
      have : WalkWeight (a ++ c) ≤ WalkWeight (a ++ b ++ c) := by
        rw [hweq]; linarith
      linarith

lemma walk_to_path {edges : List (V × V × ℤ)} {x y : V} {p : List (V × V × ℤ)}
    (hnn : NoNegFrom edges x) (hw : IsWalkFrom edges x y p) :
    ∃ q, IsPathFrom edges x y q ∧ WalkWeight q ≤ WalkWeight p :=
  walk_to_path_aux hnn p.length (le_refl _) hw

lemma noNegFrom_of_not_hasNegCycle {edges : List (V × V × ℤ)} {s : V}
    (h : ¬ HasNegCycleFrom edges s) : NoNegFrom edges s := by
  intro z c hz hc hne
  by_contra hlt
  exact h ⟨z, c, hz, hc, hne, by omega⟩

lemma path_length_le {edges : List (V × V × ℤ)} {vertices : List V} {x y : V}
    {p : List (V × V × ℤ)}
    (hend : ∀ e ∈ edges, e.1 ∈ vertices ∧ e.2.1 ∈ vertices)
    (hx : x ∈ vertices) (hp : IsPathFrom edges x y p) :
    p.length ≤ vertices.length - 1 := by
  obtain ⟨hw, hnd⟩ := hp
  have hsub : (walkVerts x p) ⊆ vertices := by
    intro v hv
    rcases (by simpa [walkVerts] using hv : v = x ∨ v ∈ walkTargets p) with h | h
    · exact h ▸ hx
    · exact walkTargets_subset hend hw v h
  have hle : (walkVerts x p).length ≤ vertices.length :=
    (List.subperm_of_subset hnd hsub).length_le
  have : (walkVerts x p).length = p.length + 1 := by
    simp [walkVerts, walkTargets]
  omega

lemma ne_top_of_lt' {x y : Weight} (h : x < y) : x ≠ ⊤ :=
  ne_top_of_lt h

lemma nonneg_of_le_add_right {a c : Weight} (ha : a ≠ ⊤) (h : a ≤ a + c) : 0 ≤ c := by
  lift a to ℤ using ha
  rcases eq_or_ne c ⊤ with rfl | hc
  · exact le_top
  · lift c to ℤ using hc
    rw [← WithTop.coe_add, WithTop.coe_le_coe] at h
    exact_mod_cast (by omega : (0 : ℤ) ≤ c)

lemma bfStep_dist_le (s : BFState V) (e : V × V × ℤ) (v : V) :
    (bfStep s e).dist v ≤ s.dist v := by
  unfold bfStep
  split
  · next h =>
    simp only [updF]
    split
    · next hv => exact hv ▸ le_of_lt h
    · exact le_refl _
  · exact le_refl _

lemma bfFold_dist_le (l : List (V × V × ℤ)) (s : BFState V) (v : V) :
    (l.foldl bfStep s).dist v ≤ s.dist v := by
  induction l generalizing s with
  | nil => exact le_refl _
  | cons e l ih => exact le_trans (ih (bfStep s e)) (bfStep_dist_le s e v)

lemma bfPass_dist_le (edges : List (V × V × ℤ)) (s : BFState V) (v : V) :
    (bfPass edges s).dist v ≤ s.dist v :=
  bfFold_dist_le edges _ v

lemma bfStep_parent_dist (s : BFState V) (e : V × V × ℤ)
    (h : ∀ v, s.parent v ≠ none → s.dist v ≠ ⊤) :
    ∀ v, (bfStep s e).parent v ≠ none → (bfStep s e).dist v ≠ ⊤ := by
  intro v
  unfold bfStep
  split
  · next hlt =>
    simp only [updF]
    split
    · next hv => intro _; exact ne_top_of_lt' hlt
    · exact h v
  · exact h v

lemma walkWeight_concat (q : List (V × V × ℤ)) (e : V × V × ℤ) :
    WalkWeight (q ++ [e]) = WalkWeight q + e.2.2 := by
  simp [WalkWeight]

lemma bfStep_of_nofire {s : BFState V} {e : V × V × ℤ}
    (h : ¬ (s.dist e.1 + (e.2.2 : Weight) < s.dist e.2.1)) : bfStep s e = s := by
  unfold bfStep
  simp [h]

lemma bfStep_sound {edges : List (V × V × ℤ)} {source : V} {s : BFState V}
    {e : V × V × ℤ} (he : e ∈ edges) (hs : BFSound edges source s) :
    BFSound edges source (bfStep s e) := by
  obtain ⟨h1, h2⟩ := hs
  by_cases hlt : s.dist e.1 + (e.2.2 : Weight) < s.dist e.2.1
  · constructor
    · intro v hv
      simp only [bfStep, if_pos hlt] at hv ⊢
      by_cases hveq : v = e.2.1
      · subst hveq
        have hu : s.dist e.1 ≠ ⊤ := by
          intro h
          rw [h] at hlt
          simp [top_add] at hlt
        obtain ⟨p, hp, hpw⟩ := h1 e.1 hu
        refine ⟨p ++ [e], isWalkFrom_concat.mpr ⟨hp, he, rfl⟩, ?_⟩
        rw [walkWeight_concat]
        push_cast
        rw [hpw]
        simp [updF]
      · obtain ⟨p, hp, hpw⟩ := h1 v (by simpa [updF, hveq] using hv)
        exact ⟨p, hp, by simp [updF, hveq, hpw]⟩
    · intro v hv
      simp only [bfStep, if_pos hlt] at hv ⊢
      by_cases hveq : v = e.2.1
      · subst hveq
        simp only [updF, if_pos rfl]
        exact ne_top_of_lt' hlt
      · simp only [updF, if_neg hveq] at hv ⊢
        exact h2 v hv
  · rw [bfStep_of_nofire hlt]
    exact ⟨h1, h2⟩

lemma bfFold_sound {edges : List (V × V × ℤ)} {source : V} {l : List (V × V × ℤ)}
    (hl : ∀ e ∈ l, e ∈ edges) {s : BFState V} (hs : BFSound edges source s) :
    BFSound edges source (l.foldl bfStep s) := by
  induction l generalizing s with
  | nil => exact hs
  | cons e l ih =>
    exact ih (fun f hf => hl f (List.mem_cons_of_mem e hf))
      (bfStep_sound (hl e (List.mem_cons_self e l)) hs)

lemma bfPass_sound {edges : List (V × V × ℤ)} {source : V} {s : BFState V}
    (hs : BFSound edges source s) : BFSound edges source (bfPass edges s) := by
  unfold bfPass
  exact bfFold_sound (fun _ h => h) ⟨hs.1, fun v h => hs.2 v h⟩

lemma bfStep_dist_ub (s : BFState V) (e : V × V × ℤ) :
    (bfStep s e).dist e.2.1 ≤ s.dist e.1 + (e.2.2 : Weight) := by
  unfold bfStep
  split
  · next h => simp [updF]
  · next h => exact not_lt.mp h

lemma bfFold_dist_ub (l : List (V × V × ℤ)) (s : BFState V) :
    ∀ e ∈ l, (l.foldl bfStep s).dist e.2.1 ≤ s.dist e.1 + (e.2.2 : Weight) := by
  induction l generalizing s with
  | nil => intro e he; simp at he
  | cons f l ih =>
    intro e he
    rcases List.mem_cons.mp he with rfl | he
    · calc (l.foldl bfStep (bfStep s e)).dist e.2.1
          ≤ (bfStep s e).dist e.2.1 := bfFold_dist_le l _ _
        _ ≤ s.dist e.1 + (e.2.2 : Weight) := bfStep_dist_ub s e
    · calc (l.foldl bfStep (bfStep s f)).dist e.2.1
          ≤ (bfStep s f).dist e.1 + (e.2.2 : Weight) := ih (bfStep s f) e he
        _ ≤ s.dist e.1 + (e.2.2 : Weight) :=
            add_le_add_right (bfStep_dist_le s f e.1) _

lemma bfStep_updated_mono {s : BFState V} {e : V × V × ℤ}
    (h : (bfStep s e).updated = false) : s.updated = false := by
  unfold bfStep at h
  split at h
  · simp at h
  · exact h

lemma bfFold_updated_mono {l : List (V × V × ℤ)} {s : BFState V}
    (h : (l.foldl bfStep s).updated = false) : s.updated = false := by
  induction l generalizing s with
  | nil => exact h
  | cons e l ih => exact bfStep_updated_mono (ih h)

lemma bfFold_noupdate {l : List (V × V × ℤ)} {s : BFState V}
    (h : (l.foldl bfStep s).updated = false) :
    l.foldl bfStep s = s ∧ ∀ e ∈ l, ¬ (s.dist e.1 + (e.2.2 : Weight) < s.dist e.2.1) := by
  induction l generalizing s with
  | nil => exact ⟨rfl, by simp⟩
  | cons e l ih =>
    have hstep : (bfStep s e).updated = false := bfFold_updated_mono h
    have hnofire : ¬ (s.dist e.1 + (e.2.2 : Weight) < s.dist e.2.1) := by
      intro hlt
      unfold bfStep at hstep
      simp [hlt] at hstep
    have heq : bfStep s e = s := bfStep_of_nofire hnofire
    have h' : (List.foldl bfStep (bfStep s e) l).updated = false := h
    rw [heq] at h'
    obtain ⟨h1, h2⟩ := ih h'
    refine ⟨?_, ?_⟩
    · calc List.foldl bfStep s (e :: l) = List.foldl bfStep (bfStep s e) l := rfl
        _ = List.foldl bfStep s l := by rw [heq]
        _ = s := h1
    intro f hf
    rcases List.mem_cons.mp hf with rfl | hf
    · exact hnofire
    · exact h2 f hf

lemma bfPass_noupdate {edges : List (V × V × ℤ)} {s : BFState V}
    (h : (bfPass edges s).updated = false) :
    (bfPass edges s).dist = s.dist ∧ (bfPass edges s).parent = s.parent ∧
      BFFixed edges (bfPass edges s) := by
  unfold bfPass at h ⊢
  obtain ⟨h1, h2⟩ := bfFold_noupdate h
  rw [h1]
  exact ⟨rfl, rfl, fun e he => h2 e he⟩

lemma bfLoop_dist_le (edges : List (V × V × ℤ)) (n : ℕ) (s : BFState V) (v : V) :
    (bfLoop edges n s).dist v ≤ s.dist v := by
  induction n generalizing s with
  | zero => exact le_refl _
  | succ n ih =>
    unfold bfLoop
    split
    · exact le_trans (ih (bfPass edges s)) (bfPass_dist_le edges s v)
    · exact bfPass_dist_le edges s v

lemma bfLoop_sound {edges : List (V × V × ℤ)} {source : V} (n : ℕ) {s : BFState V}
    (hs : BFSound edges source s) : BFSound edges source (bfLoop edges n s) := by
  induction n generalizing s with
  | zero => exact hs
  | succ n ih =>
    unfold bfLoop
    split
    · exact ih (bfPass_sound hs)
    · exact bfPass_sound hs

lemma bfLoop_cases (edges : List (V × V × ℤ)) (n : ℕ) (s : BFState V) :
    bfLoop edges n s = (bfPass edges)^[n] s ∨ BFFixed edges (bfLoop edges n s) := by
  induction n generalizing s with
  | zero => exact Or.inl rfl
  | succ n ih =>
    unfold bfLoop
    split
    · rcases ih (bfPass edges s) with h | h
      · exact Or.inl (by rw [h, Function.iterate_succ_apply])
      · exact Or.inr h
    · next hupd =>
      exact Or.inr (bfPass_noupdate (Bool.not_eq_true _ ▸ (by simpa using hupd))).2.2

lemma bfIter_dist_le (edges : List (V × V × ℤ)) (k : ℕ) (s : BFState V) (v : V) :
    ((bfPass edges)^[k] s).dist v ≤ s.dist v := by
  induction k generalizing s with
  | zero => exact le_refl _
  | succ k ih =>
    rw [Function.iterate_succ_apply]
    exact le_trans (ih (bfPass edges s)) (bfPass_dist_le edges s v)

lemma bfIter_walk_ub (edges : List (V × V × ℤ)) {source : V} :
    ∀ (k : ℕ) (s : BFState V), s.dist source ≤ 0 →
      ∀ {x : V} {p : List (V × V × ℤ)}, IsWalkFrom edges source x p → p.length ≤ k →
        ((bfPass edges)^[k] s).dist x ≤ ((WalkWeight p : ℤ) : Weight) := by
  intro k
  induction k with
  | zero =>
    intro s hs x p hw hlen
    have hp : p = [] := List.length_eq_zero.mp (Nat.le_zero.mp hlen)
    subst hp
    have hx : source = x := hw
    subst hx
    simpa [walkWeight_nil] using hs
  | succ k ih =>
    intro s hs x p hw hlen
    rcases p.eq_nil_or_concat with rfl | ⟨q, e, rfl⟩
    · have hx : source = x := hw
      subst hx
      calc ((bfPass edges)^[k + 1] s).dist source ≤ s.dist source :=
            bfIter_dist_le edges _ s source
        _ ≤ 0 := hs
        _ = ((WalkWeight ([] : List (V × V × ℤ)) : ℤ) : Weight) := by
            simp [walkWeight_nil]
    · rw [List.concat_eq_append] at hw hlen ⊢
      obtain ⟨hq, he, hxy⟩ := isWalkFrom_concat.mp hw
      have hlen' : q.length ≤ k := by
        simp only [List.length_append, List.length_cons, List.length_nil] at hlen
        omega
      have hq' : ((bfPass edges)^[k] s).dist e.1 ≤ ((WalkWeight q : ℤ) : Weight) :=
        ih s hs hq hlen'
      have hub : (bfPass edges ((bfPass edges)^[k] s)).dist e.2.1
          ≤ ((bfPass edges)^[k] s).dist e.1 + (e.2.2 : Weight) :=
        bfFold_dist_ub edges _ e he
      rw [Function.iterate_succ_apply']
      subst hxy
      calc (bfPass edges ((bfPass edges)^[k] s)).dist e.2.1
          ≤ ((bfPass edges)^[k] s).dist e.1 + (e.2.2 : Weight) := hub
        _ ≤ ((WalkWeight q : ℤ) : Weight) + (e.2.2 : Weight) := add_le_add_right hq' _
        _ = ((WalkWeight (q ++ [e]) : ℤ) : Weight) := by
            rw [walkWeight_concat]
            push_cast
            rfl

lemma bfFixed_walk_bound {edges : List (V × V × ℤ)} {s : BFState V}
    (hf : BFFixed edges s) :
    ∀ {p : List (V × V × ℤ)} {x y : V}, IsWalkFrom edges x y p →
      s.dist y ≤ s.dist x + ((WalkWeight p : ℤ) : Weight) := by
  intro p
  induction p with
  | nil =>
    intro x y hw
    have : x = y := hw
    subst this
    simp [walkWeight_nil]
  | cons e q ih =>
    intro x y hw
    obtain ⟨he, hx, hw'⟩ := hw
    have h1 : s.dist y ≤ s.dist e.2.1 + ((WalkWeight q : ℤ) : Weight) := ih hw'
    have h2 : s.dist e.2.1 ≤ s.dist e.1 + (e.2.2 : Weight) := not_lt.mp (hf e he)
    calc s.dist y ≤ s.dist e.2.1 + ((WalkWeight q : ℤ) : Weight) := h1
      _ ≤ (s.dist e.1 + (e.2.2 : Weight)) + ((WalkWeight q : ℤ) : Weight) :=
          add_le_add_right h2 _
      _ = s.dist x + ((WalkWeight (e :: q) : ℤ) : Weight) := by
          rw [hx, walkWeight_cons]
          push_cast
          rw [add_assoc]

lemma bfInit_sound (edges : List (V × V × ℤ)) (source : V) :
    BFSound edges source (bfInit source) := by
  constructor
  · intro v hv
    by_cases h : v = source
    · subst h
      exact ⟨[], rfl, by simp [walkWeight_nil, bfInit]⟩
    · exact absurd (by simp [bfInit, h]) hv
  · intro v hv
    exact absurd rfl hv

lemma bfFinal_sound (vertices : List V) (edges : List (V × V × ℤ)) (source : V) :
    BFSound edges source (bfFinal vertices edges source) :=
  bfLoop_sound _ (bfInit_sound edges source)

lemma bfFinal_dist_source_le (vertices : List V) (edges : List (V × V × ℤ)) (source : V) :
    (bfFinal vertices edges source).dist source ≤ 0 := by
  have := bfLoop_dist_le edges (vertices.length - 1) (bfInit source) source
  simpa [bfInit, bfFinal] using this

lemma bfFinal_dist_source_ne_top (vertices : List V) (edges : List (V × V × ℤ)) (source : V) :
    (bfFinal vertices edges source).dist source ≠ ⊤ := by
  intro h
  have := bfFinal_dist_source_le vertices edges source
  rw [h] at this
  exact absurd (top_le_iff.mp this) (by simp)

lemma bfFinal_dist_source_eq (vertices : List V) (edges : List (V × V × ℤ)) {source : V}
    (hnn : NoNegFrom edges source) :
    (bfFinal vertices edges source).dist source = 0 := by
  have hle := bfFinal_dist_source_le vertices edges source
  obtain ⟨p, hp, hpw⟩ :=
    (bfFinal_sound vertices edges source).1 source (bfFinal_dist_source_ne_top vertices edges source)
  rcases eq_or_ne p [] with rfl | hne
  · rw [← hpw, walkWeight_nil]
    rfl
  · have h0 : 0 ≤ WalkWeight p := hnn source p reaches_self hp hne
    have : (0 : Weight) ≤ (bfFinal vertices edges source).dist source := by
      rw [← hpw]
      exact_mod_cast h0
    exact le_antisymm hle this

lemma bf_fixed_of_neg_fails {vertices : List V} {edges : List (V × V × ℤ)} {source : V}
    (hfix : BFFixed edges (bfFinal vertices edges source))
    (hneg : HasNegCycleFrom edges source) : False := by
  obtain ⟨z, c, ⟨p, hp⟩, hc, hcne, hcw⟩ := hneg
  set s := bfFinal vertices edges source with hs
  have hsrc : s.dist source ≠ ⊤ := bfFinal_dist_source_ne_top vertices edges source
  have hz : s.dist z ≤ s.dist source + ((WalkWeight p : ℤ) : Weight) :=
    bfFixed_walk_bound hfix hp
  have hzne : s.dist z ≠ ⊤ := by
    intro h
    rw [h] at hz
    exact WithTop.add_ne_top.mpr ⟨hsrc, WithTop.coe_ne_top⟩ (top_le_iff.mp hz)
  have hcyc : s.dist z ≤ s.dist z + ((WalkWeight c : ℤ) : Weight) :=
    bfFixed_walk_bound hfix hc
  have h0 : (0 : Weight) ≤ ((WalkWeight c : ℤ) : Weight) :=
    nonneg_of_le_add_right hzne hcyc
  have : (0 : ℤ) ≤ WalkWeight c := by exact_mod_cast h0
  omega

lemma bf_fixed_of_no_neg {vertices : List V} {edges : List (V × V × ℤ)} {source : V}
    (hsrc : source ∈ vertices)
    (hend : ∀ e ∈ edges, e.1 ∈ vertices ∧ e.2.1 ∈ vertices)
    (hnn : ¬ HasNegCycleFrom edges source) :
    BFFixed edges (bfFinal vertices edges source) := by
  have hnnf : NoNegFrom edges source := noNegFrom_of_not_hasNegCycle hnn
  rcases bfLoop_cases edges (vertices.length - 1) (bfInit source) with hit | hfix
  · intro e he hlt
    set s := bfFinal vertices edges source with hs
    have hu : s.dist e.1 ≠ ⊤ := by
      intro h
      rw [h] at hlt
      simp [top_add] at hlt
    obtain ⟨p, hp, hpw⟩ := (bfFinal_sound vertices edges source).1 e.1 hu
    have hwalk : IsWalkFrom edges source e.2.1 (p ++ [e]) :=
      isWalkFrom_concat.mpr ⟨hp, he, rfl⟩
    obtain ⟨q, hq, hqw⟩ := walk_to_path hnnf hwalk
    have hlen : q.length ≤ vertices.length - 1 := path_length_le hend hsrc hq
    have hub : s.dist e.2.1 ≤ ((WalkWeight q : ℤ) : Weight) := by
      have := bfIter_walk_ub edges (vertices.length - 1) (bfInit source)
        (by simp [bfInit]) hq.1 hlen
      rw [hs, bfFinal, hit]
      exact this
    have hqle : ((WalkWeight q : ℤ) : Weight) ≤ s.dist e.1 + (e.2.2 : Weight) := by
      have h1 : WalkWeight q ≤ WalkWeight (p ++ [e]) := hqw
      have h2 : WalkWeight (p ++ [e]) = WalkWeight p + e.2.2 := walkWeight_concat p e
      calc ((WalkWeight q : ℤ) : Weight) ≤ ((WalkWeight p + e.2.2 : ℤ) : Weight) := by
            exact_mod_cast h2 ▸ h1
        _ = ((WalkWeight p : ℤ) : Weight) + (e.2.2 : Weight) := by push_cast; rfl
        _ = s.dist e.1 + (e.2.2 : Weight) := by rw [hpw]
    exact absurd hlt (not_lt.mpr (le_trans hub hqle))
  · exact hfix

lemma bellman_ford_eq_error_iff_any {vertices : List V} {edges : List (V × V × ℤ)}
    {source : V} :
    bellman_ford vertices edges source = Except.error BFError.negativeCycle ↔
      ¬ BFFixed edges (bfFinal vertices edges source) := by
  unfold bellman_ford BFFixed
  split
  · next h =>
    simp only [true_iff, List.any_eq_true] at h ⊢
    obtain ⟨e, he, hfire⟩ := h
    intro hall
    exact hall e he (of_decide_eq_true hfire)
  · next h =>
    simp only [List.any_eq_true, not_exists] at h
    constructor
    · intro hcon
      exact absurd hcon (by simp)
    · intro hnf
      exfalso
      apply hnf
      intro e he hlt
      exact h e ⟨he, decide_eq_true hlt⟩

lemma bellman_ford_ok_iff {vertices : List V} {edges : List (V × V × ℤ)} {source : V} :
    (¬ BFFixed edges (bfFinal vertices edges source) →
      bellman_ford vertices edges source = Except.error BFError.negativeCycle) ∧
    (BFFixed edges (bfFinal vertices edges source) →
      bellman_ford vertices edges source =
        Except.ok ((bfFinal vertices edges source).dist, (bfFinal vertices edges source).parent)) := by
  constructor
  · intro h
    exact bellman_ford_eq_error_iff_any.mpr h
  · intro h
    unfold bellman_ford
    split
    · next hany =>
      exfalso
      simp only [List.any_eq_true] at hany
      obtain ⟨e, he, hfire⟩ := hany
      exact h e he (of_decide_eq_true hfire)
    · rfl

lemma bf_characterization {vertices : List V} {edges : List (V × V × ℤ)} {source : V}
    (hsrc : source ∈ vertices)
    (hend : ∀ e ∈ edges, e.1 ∈ vertices ∧ e.2.1 ∈ vertices)
    (hnn : ¬ HasNegCycleFrom edges source) :
    bellman_ford vertices edges source =
      Except.ok ((bfFinal vertices edges source).dist, (bfFinal vertices edges source).parent) ∧
    (bfFinal vertices edges source).dist source = 0 ∧
    ∀ v : V, IsMinPathDist edges source v ((bfFinal vertices edges source).dist v) ∧
      (¬ Reaches edges source v → (bfFinal vertices edges source).parent v = none) := by
  have hnnf : NoNegFrom edges source := noNegFrom_of_not_hasNegCycle hnn
  have hfix : BFFixed edges (bfFinal vertices edges source) := bf_fixed_of_no_neg hsrc hend hnn
  have hok := bellman_ford_ok_iff.2 hfix
  have hsrc0 := bfFinal_dist_source_eq vertices edges hnnf
  refine ⟨hok, hsrc0, ?_⟩
  intro v
  have hupper : ∀ p, IsWalkFrom edges source v p →
      (bfFinal vertices edges source).dist v ≤ ((WalkWeight p : ℤ) : Weight) := by
    intro p hp
    have := bfFixed_walk_bound hfix hp
    rwa [hsrc0, zero_add] at this
  constructor
  · refine ⟨fun q hq => hupper q hq.1, ?_, ?_⟩
    · intro hne
      obtain ⟨p, hp, hpw⟩ := (bfFinal_sound vertices edges source).1 v hne
      obtain ⟨q, hq, hqw⟩ := walk_to_path hnnf hp
      refine ⟨q, hq, le_antisymm ?_ (hupper q hq.1)⟩
      rw [← hpw]
      exact_mod_cast hqw
    · constructor
      · intro htop hreach
        obtain ⟨p, hp⟩ := hreach
        have := hupper p hp
        rw [htop] at this
        exact WithTop.coe_ne_top (top_le_iff.mp this)
      · intro hnr
        by_contra hne
        obtain ⟨p, hp, _⟩ := (bfFinal_sound vertices edges source).1 v hne
        exact hnr ⟨p, hp⟩
  · intro hnr
    by_contra hpar
    have hne := (bfFinal_sound vertices edges source).2 v hpar
    obtain ⟨p, hp, _⟩ := (bfFinal_sound vertices edges source).1 v hne
    exact hnr ⟨p, hp⟩

lemma bf_error_iff {vertices : List V} {edges : List (V × V × ℤ)} {source : V}
    (hsrc : source ∈ vertices)
    (hend : ∀ e ∈ edges, e.1 ∈ vertices ∧ e.2.1 ∈ vertices) :
    bellman_ford vertices edges source = Except.error BFError.negativeCycle ↔
      HasNegCycleFrom edges source := by
  rw [bellman_ford_eq_error_iff_any]
  constructor
  · intro hnf
    by_contra hneg
    exact hnf (bf_fixed_of_no_neg hsrc hend hneg)
  · intro hneg hfix
    exact bf_fixed_of_neg_fails hfix hneg

lemma walkWeight_nonneg {edges : List (V × V × ℤ)} (h : ∀ e ∈ edges, 0 ≤ e.2.2) :
    ∀ {x y : V} {c : List (V × V × ℤ)}, IsWalkFrom edges x y c → 0 ≤ WalkWeight c := by
  intro x y c
  induction c generalizing x with
  | nil => intro _; simp [walkWeight_nil]
  | cons e q ih =>
    intro hw
    obtain ⟨he, _, hw'⟩ := hw
    have h1 : 0 ≤ e.2.2 := h e he
    have h2 : 0 ≤ WalkWeight q := ih hw'
    rw [walkWeight_cons]
    omega

lemma not_hasNegCycleFrom_of_nonneg {edges : List (V × V × ℤ)} {s : V}
    (h : ∀ e ∈ edges, 0 ≤ e.2.2) : ¬ HasNegCycleFrom edges s := by
  rintro ⟨z, c, _, hc, _, hcw⟩
  have := walkWeight_nonneg h hc
  omega

lemma noNegCycle_imp_not_from {edges : List (V × V × ℤ)} (h : NoNegCycle edges) (s : V) :
    ¬ HasNegCycleFrom edges s := by
  rintro ⟨z, c, _, hc, hne, hcw⟩
  have := h z c hc hne
  omega

/-- C2: for every graph with no negative-weight cycle reachable from the
source and a source belonging to the graph, `bellman_ford` returns a result
whose `dist` map gives, for every vertex, the minimum total weight over all
paths from the source (0 at the source, `⊤` exactly for the unreachable
vertices, whose parent is `none`). -/
theorem bellman_ford_shortest_paths {vertices : List V} {edges : List (V × V × ℤ)}
    {source : V}
    (hsrc : source ∈ vertices)
    (hend : ∀ e ∈ edges, e.1 ∈ vertices ∧ e.2.1 ∈ vertices)
    (hneg : ¬ HasNegCycleFrom edges source) :
    ∃ d par, bellman_ford vertices edges source = Except.ok (d, par) ∧
      d source = 0 ∧
      ∀ v : V, IsMinPathDist edges source v (d v) ∧
        (¬ Reaches edges source v → par v = none) := by
  obtain ⟨hok, h0, hall⟩ := bf_characterization hsrc hend hneg
  exact ⟨_, _, hok, h0, hall⟩

/-- Witness for C2 on the concrete scenario of the specification:
vertices `{A, B, C}`, undirected edges `A-B(1)`, `B-C(2)`, `A-C(4)`,
source `A`. -/
theorem bellman_ford_shortest_paths_witness :
    ("A" ∈ ["A", "B", "C"]) ∧
    (∀ e ∈ ([("A", "B", 1), ("B", "A", 1), ("B", "C", 2), ("C", "B", 2),
        ("A", "C", 4), ("C", "A", 4)] : List (String × String × ℤ)),
      e.1 ∈ ["A", "B", "C"] ∧ e.2.1 ∈ ["A", "B", "C"]) ∧
    (∃ d par, bellman_ford ["A", "B", "C"]
        [("A", "B", 1), ("B", "A", 1), ("B", "C", 2), ("C", "B", 2),
          ("A", "C", 4), ("C", "A", 4)] "A" = Except.ok (d, par) ∧
      d "A" = 0 ∧
      ∀ v : String, IsMinPathDist [("A", "B", 1), ("B", "A", 1), ("B", "C", 2),
          ("C", "B", 2), ("A", "C", 4), ("C", "A", 4)] "A" v (d v) ∧
        (¬ Reaches [("A", "B", 1), ("B", "A", 1), ("B", "C", 2), ("C", "B", 2),
            ("A", "C", 4), ("C", "A", 4)] "A" v → par v = none)) :=
  ⟨by decide, by decide,
    bellman_ford_shortest_paths (by decide) (by decide)
      (not_hasNegCycleFrom_of_nonneg (by decide))⟩

/-- C3: `bellman_ford` fails with the negative-cycle error exactly when the
graph contains a negative-weight cycle reachable from the source. -/
theorem bellman_ford_error_iff_negcycle {vertices : List V} {edges : List (V × V × ℤ)}
    {source : V}
    (hsrc : source ∈ vertices)
    (hend : ∀ e ∈ edges, e.1 ∈ vertices ∧ e.2.1 ∈ vertices) :
    bellman_ford vertices edges source = Except.error BFError.negativeCycle ↔
      HasNegCycleFrom edges source :=
  bf_error_iff hsrc hend

/-- Witness for C3 on the directed negative-cycle scenario of the
specification: edges `A→B(1)`, `B→C(-3)`, `C→A(1)`, source `A`. -/
theorem bellman_ford_error_iff_negcycle_witness :
    ("A" ∈ ["A", "B", "C"]) ∧
    (∀ e ∈ ([("A", "B", 1), ("B", "C", -3), ("C", "A", 1)] : List (String × String × ℤ)),
      e.1 ∈ ["A", "B", "C"] ∧ e.2.1 ∈ ["A", "B", "C"]) ∧
    (bellman_ford ["A", "B", "C"] [("A", "B", 1), ("B", "C", -3), ("C", "A", 1)] "A"
        = Except.error BFError.negativeCycle ↔
      HasNegCycleFrom [("A", "B", 1), ("B", "C", -3), ("C", "A", 1)] "A") :=
  ⟨by decide, by decide, bellman_ford_error_iff_negcycle (by decide) (by decide)⟩

lemma bfFold_id_of_nofire {l : List (V × V × ℤ)} {s : BFState V}
    (h : ∀ e ∈ l, ¬ (s.dist e.1 + (e.2.2 : Weight) < s.dist e.2.1)) :
    l.foldl bfStep s = s := by
  induction l with
  | nil => rfl
  | cons e l ih =>
    have heq : bfStep s e = s := bfStep_of_nofire (h e (List.mem_cons_self e l))
    calc List.foldl bfStep s (e :: l) = List.foldl bfStep (bfStep s e) l := rfl
      _ = List.foldl bfStep s l := by rw [heq]
      _ = s := ih (fun f hf => h f (List.mem_cons_of_mem e hf))

lemma bfLoop_of_nofire {edges : List (V × V × ℤ)} {s : BFState V}
    (h : ∀ e ∈ edges, ¬ (s.dist e.1 + (e.2.2 : Weight) < s.dist e.2.1)) (n : ℕ) :
    (bfLoop edges n s).dist = s.dist ∧ (bfLoop edges n s).parent = s.parent := by
  have hpass : bfPass edges s =
      { dist := s.dist, parent := s.parent, updated := false } := by
    unfold bfPass
    exact bfFold_id_of_nofire h
  cases n with
  | zero => exact ⟨rfl, rfl⟩
  | succ n =>
    unfold bfLoop
    rw [hpass]
    simp

/-- Amended C9: `bellman_ford` performs no validation of the source label.
Called with a source that is not a vertex of the graph (and edges between
graph vertices), it returns a normal result in which the source has distance
0, every graph vertex keeps distance `⊤`, and every parent is `none` — it
does not fail. -/
theorem bellman_ford_unknown_source_ok {vertices : List V} {edges : List (V × V × ℤ)}
    {source : V}
    (hsrc : source ∉ vertices)
    (hend : ∀ e ∈ edges, e.1 ∈ vertices ∧ e.2.1 ∈ vertices) :
    bellman_ford vertices edges source =
      Except.ok (fun v => if v = source then 0 else ⊤, fun _ => none) := by
  have hnofire : ∀ e ∈ edges,
      ¬ ((bfInit source).dist e.1 + (e.2.2 : Weight) <
        (bfInit source).dist e.2.1) := by
    intro e he
    have h1 : e.1 ≠ source := fun h => hsrc (h ▸ (hend e he).1)
    simp [bfInit, h1, top_add]
  have hfin := bfLoop_of_nofire hnofire (vertices.length - 1)
  have hfix : BFFixed edges (bfFinal vertices edges source) := by
    intro e he
    unfold bfFinal
    rw [hfin.1]
    exact hnofire e he
  have hok := bellman_ford_ok_iff.2 hfix
  rw [hok]
  unfold bfFinal
  rw [hfin.1, hfin.2]
  rfl

/-- Counterexample to C9 as stated: with source `C` absent from the graph
`{A, B}`, `bellman_ford` returns a result instead of failing. -/
theorem bellman_ford_unknown_source_cex :
    ∃ r, bellman_ford ["A", "B"] [("A", "B", 2)] "C" = Except.ok r :=
  ⟨_, rfl⟩

/-- Witness for the amended C9 at a concrete input. -/
theorem bellman_ford_unknown_source_ok_witness :
    ("C" ∉ ["A", "B"]) ∧
    (∀ e ∈ ([("A", "B", 2)] : List (String × String × ℤ)),
      e.1 ∈ ["A", "B"] ∧ e.2.1 ∈ ["A", "B"]) ∧
    bellman_ford ["A", "B"] [("A", "B", 2)] "C" =
      Except.ok (fun v => if v = "C" then 0 else ⊤, fun _ => none) :=
  ⟨by decide, by decide, bellman_ford_unknown_source_ok (by decide) (by decide)⟩

lemma updM_self {α : Type} (m : ℕ → ℕ → α) (a b : ℕ) (x : α) :
    updM m a b x a b = x := by
  simp [updM]

lemma updM_other {α : Type} (m : ℕ → ℕ → α) (a b : ℕ) (x : α) {i j : ℕ}
    (h : ¬ (i = a ∧ j = b)) : updM m a b x i j = m i j := by
  simp only [updM, if_neg h]

lemma fwDiagStep_consistent {pos : V → ℕ} {σ : FWState V} (h : FWConsistent σ) (v : V) :
    FWConsistent (fwDiagStep pos σ v) := by
  intro i j
  unfold fwDiagStep updM
  by_cases hij : i = pos v ∧ j = pos v
  · simp [hij]
  · simp only [if_neg hij]
    exact h i j

lemma fwEdgeStep_consistent {pos : V → ℕ} {σ : FWState V} (h : FWConsistent σ)
    (e : V × V × ℤ) : FWConsistent (fwEdgeStep pos σ e) := by
  intro i j
  unfold fwEdgeStep updM
  by_cases hij : i = pos e.1 ∧ j = pos e.2.1
  · simp only [if_pos hij]
    constructor
    · intro hc; exact absurd hc (by simp)
    · intro hc
      exact absurd hc (by simp [min_eq_top])
  · simp only [if_neg hij]
    exact h i j

lemma fwUpdate_consistent {σ : FWState V} (h : FWConsistent σ) (k i j : ℕ) :
    FWConsistent (fwUpdate k i j σ) := by
  unfold fwUpdate
  split
  · next hlt =>
    intro a b
    unfold updM
    by_cases hab : a = i ∧ b = j
    · simp only [if_pos hab]
      have hsum : σ.dist i k + σ.dist k j ≠ ⊤ := ne_top_of_lt' hlt
      have hik : σ.dist i k ≠ ⊤ := (WithTop.add_ne_top.mp hsum).1
      have hnx : σ.nx i k ≠ none := fun hc => hik ((h i k).mp hc)
      constructor
      · intro hc; exact absurd hc hnx
      · intro hc; exact absurd hc hsum
    · simp only [if_neg hab]
      exact h a b
  · exact h

lemma fwInnerFold_consistent {σ : FWState V} (h : FWConsistent σ) (k i : ℕ)
    (l : List ℕ) : FWConsistent (l.foldl (fun σ j => fwUpdate k i j σ) σ) := by
  induction l generalizing σ with
  | nil => exact h
  | cons j l ih => exact ih (fwUpdate_consistent h k i j)

lemma fwRowFold_consistent {σ : FWState V} (h : FWConsistent σ) (k : ℕ)
    (l1 l2 : List ℕ) :
    FWConsistent (l1.foldl (fun σ i => l2.foldl (fun σ j => fwUpdate k i j σ) σ) σ) := by
  induction l1 generalizing σ with
  | nil => exact h
  | cons i l1 ih => exact ih (fwInnerFold_consistent h k i l2)

lemma fwPhase_consistent {σ : FWState V} (h : FWConsistent σ) (n k : ℕ) :
    FWConsistent (fwPhase n k σ) :=
  fwRowFold_consistent h k _ _

lemma fwRun_consistent {σ : FWState V} (h : FWConsistent σ) (n : ℕ) :
    FWConsistent (fwRun n σ) := by
  unfold fwRun
  generalize List.range n = l
  induction l generalizing σ with
  | nil => exact h
  | cons k l ih => exact ih (fwPhase_consistent h n k)

lemma fwInit_consistent (vertices : List V) (edges : List (V × V × ℤ)) :
    FWConsistent (fwInit vertices edges) := by
  unfold fwInit
  have hbase : FWConsistent
      ({ dist := fun _ _ => ⊤, nx := fun _ _ => none } : FWState V) := by
    intro i j; simp
  have hdiag : ∀ (l : List V) (σ : FWState V), FWConsistent σ →
      FWConsistent (l.foldl (fwDiagStep (posOf vertices)) σ) := by
    intro l
    induction l with
    | nil => intro σ h; exact h
    | cons v l ih => intro σ h; exact ih _ (fwDiagStep_consistent h v)
  have hedge : ∀ (l : List (V × V × ℤ)) (σ : FWState V), FWConsistent σ →
      FWConsistent (l.foldl (fwEdgeStep (posOf vertices)) σ) := by
    intro l
    induction l with
    | nil => intro σ h; exact h
    | cons e l ih => intro σ h; exact ih _ (fwEdgeStep_consistent h e)
  exact hedge _ _ (hdiag _ _ hbase)

lemma fw_consistent (vertices : List V) (edges : List (V × V × ℤ)) :
    FWConsistent (fwRun vertices.length (fwInit vertices edges)) :=
  fwRun_consistent (fwInit_consistent vertices edges) _

lemma fwUpdate_dist_le (k i j : ℕ) (σ : FWState V) (a b : ℕ) :
    (fwUpdate k i j σ).dist a b ≤ σ.dist a b := by
  unfold fwUpdate
  split
  · next hlt =>
    unfold updM
    by_cases hab : a = i ∧ b = j
    · simp only [if_pos hab]
      obtain ⟨rfl, rfl⟩ := hab
      exact le_of_lt hlt
    · simp only [if_neg hab]
      exact le_refl _
  · exact le_refl _

lemma fwInnerFold_dist_le (k i : ℕ) (l : List ℕ) (σ : FWState V) (a b : ℕ) :
    (l.foldl (fun σ j => fwUpdate k i j σ) σ).dist a b ≤ σ.dist a b := by
  induction l generalizing σ with
  | nil => exact le_refl _
  | cons j l ih => exact le_trans (ih _) (fwUpdate_dist_le k i j σ a b)

lemma fwRowFold_dist_le (k : ℕ) (l1 l2 : List ℕ) (σ : FWState V) (a b : ℕ) :
    (l1.foldl (fun σ i => l2.foldl (fun σ j => fwUpdate k i j σ) σ) σ).dist a b
      ≤ σ.dist a b := by
  induction l1 generalizing σ with
  | nil => exact le_refl _
  | cons i l1 ih => exact le_trans (ih _) (fwInnerFold_dist_le k i l2 σ a b)

lemma fwPhase_dist_le (n k : ℕ) (σ : FWState V) (a b : ℕ) :
    (fwPhase n k σ).dist a b ≤ σ.dist a b :=
  fwRowFold_dist_le k _ _ σ a b

lemma fwRun_dist_le (n : ℕ) (σ : FWState V) (a b : ℕ) :
    (fwRun n σ).dist a b ≤ σ.dist a b := by
  unfold fwRun
  generalize List.range n = l
  induction l generalizing σ with
  | nil => exact le_refl _
  | cons k l ih => exact le_trans (ih _) (fwPhase_dist_le n k σ a b)

lemma fwEdgeStep_dist_le {pos : V → ℕ} (σ : FWState V) (e : V × V × ℤ) (a b : ℕ) :
    (fwEdgeStep pos σ e).dist a b ≤ σ.dist a b := by
  unfold fwEdgeStep updM
  by_cases hab : a = pos e.1 ∧ b = pos e.2.1
  · simp only [if_pos hab]
    obtain ⟨rfl, rfl⟩ := hab
    exact min_le_left _ _
  · simp only [if_neg hab]
    exact le_refl _

lemma fwEdgeFold_dist_le {pos : V → ℕ} (l : List (V × V × ℤ)) (σ : FWState V) (a b : ℕ) :
    (l.foldl (fwEdgeStep pos) σ).dist a b ≤ σ.dist a b := by
  induction l generalizing σ with
  | nil => exact le_refl _
  | cons e l ih => exact le_trans (ih _) (fwEdgeStep_dist_le σ e a b)

lemma fwDiagFold_keep_zero {pos : V → ℕ} (l : List V) (σ : FWState V) {v : V}
    (h : σ.dist (pos v) (pos v) = 0) :
    (l.foldl (fwDiagStep pos) σ).dist (pos v) (pos v) = 0 := by
  induction l generalizing σ with
  | nil => exact h
  | cons w l ih =>
    have hstep : (fwDiagStep pos σ w).dist (pos v) (pos v) = 0 := by
      unfold fwDiagStep
      by_cases hw : pos v = pos w ∧ pos v = pos w
      · simp only [updM, if_pos hw]
      · simp only [updM, if_neg hw]
        exact h
    exact ih _ hstep

lemma fwDiagFold_diag_zero {pos : V → ℕ} (l : List V) (σ : FWState V) :
    ∀ v ∈ l, (l.foldl (fwDiagStep pos) σ).dist (pos v) (pos v) = 0 := by
  induction l generalizing σ with
  | nil => intro v hv; simp at hv
  | cons u l ih =>
    intro v hv
    rcases List.mem_cons.mp hv with rfl | hv
    · have hstep : (fwDiagStep pos σ v).dist (pos v) (pos v) = 0 := by
        unfold fwDiagStep
        exact updM_self _ _ _ _
      exact fwDiagFold_keep_zero l _ hstep
    · exact ih _ v hv

lemma fw_diag_le_zero (vertices : List V) (edges : List (V × V × ℤ)) {v : V}
    (hv : v ∈ vertices) :
    (fwRun vertices.length (fwInit vertices edges)).dist
      (posOf vertices v) (posOf vertices v) ≤ 0 := by
  refine le_trans (fwRun_dist_le _ _ _ _) ?_
  unfold fwInit
  refine le_trans (fwEdgeFold_dist_le _ _ _ _) ?_
  rw [fwDiagFold_diag_zero vertices _ v hv]

/-- C10: for every graph, the two Floyd-Warshall matrices satisfy, at every
index pair, that the successor entry is defined exactly when the distance
entry is finite; in particular every diagonal entry of the successor matrix
is defined. -/
theorem floyd_warshall_next_defined_iff_finite (vertices : List V)
    (edges : List (V × V × ℤ)) :
    (∀ i j : ℕ, (floyd_warshall vertices edges).2.2 i j ≠ none ↔
      (floyd_warshall vertices edges).1 i j < ⊤) ∧
    (∀ v ∈ vertices, (floyd_warshall vertices edges).2.2
      (posOf vertices v) (posOf vertices v) ≠ none) := by
  have hcons := fw_consistent vertices edges
  constructor
  · intro i j
    rw [lt_top_iff_ne_top]
    exact not_congr (hcons i j)
  · intro v hv
    intro hc
    have := (hcons _ _).mp hc
    have hle := fw_diag_le_zero vertices edges hv
    rw [this] at hle
    exact WithTop.coe_ne_top (top_le_iff.mp hle)

/-- Witness for C10 at a concrete graph. -/
theorem floyd_warshall_next_defined_iff_finite_witness :
    ("A" ∈ ["A", "B"]) ∧
    (floyd_warshall ["A", "B"] ([("A", "B", 1)] : List (String × String × ℤ))).2.2
      (posOf ["A", "B"] "A") (posOf ["A", "B"] "A") ≠ none :=
  ⟨by decide,
    (floyd_warshall_next_defined_iff_finite ["A", "B"] [("A", "B", 1)]).2 "A" (by decide)⟩

lemma reconstructLoop_self (pos : V → ℕ) (nx : ℕ → ℕ → Option V) (v : V) (fuel : ℕ)
    (path : List V) : reconstructLoop pos nx v fuel v path = some path := by
  rw [reconstructLoop.eq_def]
  simp

/-- C6: on the matrices produced by `floyd_warshall` (for any graph),
`reconstruct_path u u` returns `[u]` for every graph vertex `u`, and
`reconstruct_path u v` returns the empty sequence whenever the distance entry
is `⊤`. -/
theorem reconstruct_path_diag_and_empty (vertices : List V) (edges : List (V × V × ℤ)) :
    (∀ u ∈ vertices, ∀ fuel : ℕ,
      reconstruct_path u u vertices (floyd_warshall vertices edges).2.1
        (floyd_warshall vertices edges).2.2 fuel = some [u]) ∧
    (∀ (u v : V) (fuel : ℕ),
      (floyd_warshall vertices edges).1 (posOf vertices u) (posOf vertices v) = ⊤ →
      reconstruct_path u v vertices (floyd_warshall vertices edges).2.1
        (floyd_warshall vertices edges).2.2 fuel = some []) := by
  have hcons := fw_consistent vertices edges
  constructor
  · intro u hu fuel
    have hnx : (fwRun vertices.length (fwInit vertices edges)).nx
        (posOf vertices u) (posOf vertices u) ≠ none := by
      intro hc
      have h1 := (hcons _ _).mp hc
      have h2 := fw_diag_le_zero vertices edges hu
      rw [h1] at h2
      exact WithTop.coe_ne_top (top_le_iff.mp h2)
    simp only [floyd_warshall]
    unfold reconstruct_path
    rw [if_neg hnx]
    exact reconstructLoop_self _ _ _ _ _
  · intro u v fuel htop
    simp only [floyd_warshall] at htop ⊢
    have hnx : (fwRun vertices.length (fwInit vertices edges)).nx
        (posOf vertices u) (posOf vertices v) = none := (hcons _ _).mpr htop
    unfold reconstruct_path
    rw [if_pos hnx]

/-- Witness for C6 at a concrete graph. -/
theorem reconstruct_path_diag_and_empty_witness :
    ("A" ∈ ["A", "B"]) ∧
    reconstruct_path "A" "A" ["A", "B"]
      (floyd_warshall ["A", "B"] ([("A", "B", 1)] : List (String × String × ℤ))).2.1
      (floyd_warshall ["A", "B"] [("A", "B", 1)]).2.2 5 = some ["A"] :=
  ⟨by decide,
    (reconstruct_path_diag_and_empty ["A", "B"] [("A", "B", 1)]).1 "A" (by decide) 5⟩

/-- C7 (the code as written): on a malformed successor matrix containing a
cycle, the `while u != v` walk of `reconstruct_path` never terminates — for
every amount of fuel the walk is still unfinished, for the matrix over
`{A, B}` whose entry `(0, 1)` points back to `A`. The specification instead
requires termination within `n` steps with a fail-fast on such input. -/
theorem reconstruct_path_diverges_on_cycle :
    ∀ fuel : ℕ, reconstruct_path "A" "B" ["A", "B"] (posOf ["A", "B"])
      (fun i j => if i = 0 ∧ j = 1 then some "A" else none) fuel = none := by
  have key : ∀ (fuel : ℕ) (path : List String),
      reconstructLoop (posOf ["A", "B"])
        (fun i j => if i = 0 ∧ j = 1 then some "A" else none) "B" fuel "A" path = none := by
    intro fuel
    induction fuel with
    | zero => intro path; rfl
    | succ n ih => intro path; exact ih (path ++ ["A"])
  intro fuel
  exact key fuel ["A"]

/-- Amended C8: `prim` performs no `UnsupportedGraphTypeError`-style
validation; that error class does not exist in the code. On an empty vertex
list it returns the bare empty list (a result, not an error), and on any
nonempty vertex list whose edge list joins graph vertices — including a
one-directional, i.e. directed, edge list, which it symmetrises itself —
it returns a computed `(mst_edges, total_weight)` result. Directed graphs
are excluded only by the caller (`main` runs Prim solely for undirected
inputs). The endpoint hypothesis marks the domain on which the embedding of
the `min_weight` dict as a total function is exact: an edge endpoint absent
from the vertex list would instead make the Python raise a `KeyError` at the
`min_weight` comparison — still not an `UnsupportedGraphTypeError`. -/
theorem prim_no_validation :
    (∀ edges : List (V × V × ℤ), prim ([] : List V) edges = PrimResult.nil) ∧
    (∀ (vertices : List V) (edges : List (V × V × ℤ)), vertices ≠ [] →
      (∀ e ∈ edges, e.1 ∈ vertices ∧ e.2.1 ∈ vertices) →
      ∃ es t, prim vertices edges = PrimResult.res es t) := by
  constructor
  · intro edges
    rfl
  · intro vertices edges hne _
    match vertices with
    | [] => exact absurd rfl hne
    | root :: vs => exact ⟨_, _, rfl⟩

/-- Counterexample to C8 as stated: `prim` returns results instead of
raising `UnsupportedGraphTypeError` both on the empty graph and on a
directed (one-directional) edge list joining graph vertices. -/
theorem prim_no_validation_cex :
    prim ([] : List String) [] = PrimResult.nil ∧
    prim ["A", "B"] [("A", "B", 1)] = PrimResult.res [("A", "B", (1 : Weight))] 1 :=
  ⟨rfl, by rfl⟩

/-- Witness for the amended C8, on a nonempty vertex list with a directed
edge list joining graph vertices. -/
theorem prim_no_validation_witness :
    (["A", "B"] ≠ ([] : List String)) ∧
    (∀ e ∈ [(("A" : String), ("B" : String), (1 : ℤ))],
      e.1 ∈ ["A", "B"] ∧ e.2.1 ∈ ["A", "B"]) ∧
    (∃ es t, prim ["A", "B"] [(("A" : String), ("B" : String), (1 : ℤ))]
      = PrimResult.res es t) :=
  ⟨by decide, by decide,
    prim_no_validation.2 ["A", "B"] [("A", "B", 1)] (by decide) (by decide)⟩

lemma pos_lt_length {vertices : List V} {u : V} (hu : u ∈ vertices) :
    posOf vertices u < vertices.length :=
  List.indexOf_lt_length.mpr hu

lemma pos_inj {vertices : List V} {u v : V} (hu : u ∈ vertices) (hv : v ∈ vertices)
    (h : posOf vertices u = posOf vertices v) : u = v :=
  (List.indexOf_inj hu hv).mp h

lemma pos_get {vertices : List V} (hnd : vertices.Nodup) (i : Fin vertices.length) :
    posOf vertices (vertices.get i) = i :=
  List.get_indexOf hnd i

lemma walk_elems_mem {edges : List (V × V × ℤ)} :
    ∀ {x y : V} {p : List (V × V × ℤ)}, IsWalkFrom edges x y p → ∀ e ∈ p, e ∈ edges := by
  intro x y p
  induction p generalizing x with
  | nil => intro _ e he; simp at he
  | cons f q ih =>
    intro hw e he
    obtain ⟨hf, _, hw'⟩ := hw
    rcases List.mem_cons.mp he with rfl | he
    · exact hf
    · exact ih hw' e he

lemma mem_seqsUpTo {edges : List (V × V × ℤ)} :
    ∀ {n : ℕ} {p : List (V × V × ℤ)}, p.length ≤ n → (∀ e ∈ p, e ∈ edges) →
      p ∈ seqsUpTo edges n := by
  intro n
  induction n with
  | zero =>
    intro p hlen _
    have : p = [] := List.length_eq_zero.mp (Nat.le_zero.mp hlen)
    subst this
    simp [seqsUpTo]
  | succ n ih =>
    intro p hlen hmem
    cases p with
    | nil => simp [seqsUpTo]
    | cons e q =>
      have he : e ∈ edges := hmem e (List.mem_cons_self e q)
      have hq : q ∈ seqsUpTo edges n :=
        ih (by simpa using Nat.succ_le_succ_iff.mp hlen)
          (fun f hf => hmem f (List.mem_cons_of_mem e hf))
      simp only [seqsUpTo, List.mem_cons, List.mem_flatMap, List.mem_map]
      exact Or.inr ⟨e, he, q, hq, rfl⟩

lemma isWalkFromB_iff {edges : List (V × V × ℤ)} :
    ∀ {x y : V} {p : List (V × V × ℤ)},
      isWalkFromB edges x y p = true ↔ IsWalkFrom edges x y p := by
  intro x y p
  induction p generalizing x with
  | nil => simp [isWalkFromB, IsWalkFrom]
  | cons e q ih =>
    simp only [isWalkFromB, IsWalkFrom, Bool.and_eq_true, decide_eq_true_eq]
    rw [ih]
    tauto

lemma foldrMin_le {l : List Weight} {a : Weight} (ha : a ∈ l) : l.foldr min ⊤ ≤ a := by
  induction l with
  | nil => simp at ha
  | cons b l ih =>
    rcases List.mem_cons.mp ha with rfl | ha
    · exact min_le_left _ _
    · exact le_trans (min_le_right _ _) (ih ha)

lemma foldrMin_mem (l : List Weight) : l.foldr min ⊤ = ⊤ ∨ l.foldr min ⊤ ∈ l := by
  induction l with
  | nil => exact Or.inl rfl
  | cons b l ih =>
    simp only [List.foldr_cons]
    rcases le_total b (l.foldr min ⊤) with h | h
    · rw [min_eq_left h]
      exact Or.inr (List.mem_cons_self _ _)
    · rw [min_eq_right h]
      rcases ih with h2 | h2
      · exact Or.inl h2
      · exact Or.inr (List.mem_cons_of_mem _ h2)

lemma noNegFrom_of_noNegCycle {edges : List (V × V × ℤ)} (h : NoNegCycle edges) (x : V) :
    NoNegFrom edges x :=
  fun z c _ hc hne => h z c hc hne

lemma deltaW_le_walk {vertices : List V} {edges : List (V × V × ℤ)} {x y : V}
    (hnn : NoNegCycle edges)
    (hend : ∀ e ∈ edges, e.1 ∈ vertices ∧ e.2.1 ∈ vertices)
    (hx : x ∈ vertices) {p : List (V × V × ℤ)} (hp : IsWalkFrom edges x y p) :
    deltaW vertices edges x y ≤ ((WalkWeight p : ℤ) : Weight) := by
  obtain ⟨q, hq, hqw⟩ := walk_to_path (noNegFrom_of_noNegCycle hnn x) hp
  have hlen : q.length ≤ vertices.length := by
    have := path_length_le hend hx hq
    omega
  have hqmem : q ∈ seqsUpTo edges vertices.length :=
    mem_seqsUpTo hlen (walk_elems_mem hq.1)
  have hqf : q ∈ (seqsUpTo edges vertices.length).filter
      (fun p => isWalkFromB edges x y p) :=
    List.mem_filter.mpr ⟨hqmem, isWalkFromB_iff.mpr hq.1⟩
  have hmem2 : ((WalkWeight q : ℤ) : Weight) ∈
      (((seqsUpTo edges vertices.length).filter (fun p => isWalkFromB edges x y p)).map
        (fun p => ((WalkWeight p : ℤ) : Weight))) :=
    List.mem_map.mpr ⟨q, hqf, rfl⟩
  calc deltaW vertices edges x y ≤ ((WalkWeight q : ℤ) : Weight) := foldrMin_le hmem2
    _ ≤ ((WalkWeight p : ℤ) : Weight) := by exact_mod_cast hqw

lemma deltaW_attained {vertices : List V} {edges : List (V × V × ℤ)} {x y : V}
    (hne : deltaW vertices edges x y ≠ ⊤) :
    ∃ p, IsWalkFrom edges x y p ∧
      ((WalkWeight p : ℤ) : Weight) = deltaW vertices edges x y := by
  rcases foldrMin_mem (((seqsUpTo edges vertices.length).filter
      (fun p => isWalkFromB edges x y p)).map (fun p => ((WalkWeight p : ℤ) : Weight)))
    with h | h
  · exact absurd h hne
  · obtain ⟨q, hqf, hqe⟩ := List.mem_map.mp h
    exact ⟨q, isWalkFromB_iff.mp (List.mem_filter.mp hqf).2, hqe⟩

lemma deltaW_top_iff {vertices : List V} {edges : List (V × V × ℤ)} {x y : V}
    (hnn : NoNegCycle edges)
    (hend : ∀ e ∈ edges, e.1 ∈ vertices ∧ e.2.1 ∈ vertices)
    (hx : x ∈ vertices) :
    deltaW vertices edges x y = ⊤ ↔ ¬ Reaches edges x y := by
  constructor
  · rintro htop ⟨p, hp⟩
    have := deltaW_le_walk hnn hend hx hp
    rw [htop] at this
    exact WithTop.coe_ne_top (top_le_iff.mp this)
  · intro hnr
    by_contra hne
    obtain ⟨p, hp, _⟩ := deltaW_attained hne
    exact hnr ⟨p, hp⟩

lemma deltaW_isMinPathDist {vertices : List V} {edges : List (V × V × ℤ)} {x y : V}
    (hnn : NoNegCycle edges)
    (hend : ∀ e ∈ edges, e.1 ∈ vertices ∧ e.2.1 ∈ vertices)
    (hx : x ∈ vertices) :
    IsMinPathDist edges x y (deltaW vertices edges x y) := by
  refine ⟨fun p hp => deltaW_le_walk hnn hend hx hp.1, ?_, deltaW_top_iff hnn hend hx⟩
  intro hne
  obtain ⟨p, hp, hpw⟩ := deltaW_attained hne
  obtain ⟨q, hq, hqw⟩ := walk_to_path (noNegFrom_of_noNegCycle hnn x) hp
  refine ⟨q, hq, le_antisymm ?_ (deltaW_le_walk hnn hend hx hq.1)⟩
  rw [← hpw]
  exact_mod_cast hqw

lemma isMinPathDist_unique {edges : List (V × V × ℤ)} {x y : V} {d d' : Weight}
    (h1 : IsMinPathDist edges x y d) (h2 : IsMinPathDist edges x y d') : d = d' := by
  obtain ⟨hle1, hat1, htop1⟩ := h1
  obtain ⟨hle2, hat2, htop2⟩ := h2
  rcases eq_or_ne d ⊤ with rfl | hd
  · rcases eq_or_ne d' ⊤ with rfl | hd'
    · rfl
    · obtain ⟨p, hp, _⟩ := hat2 hd'
      exact absurd ⟨p, hp.1⟩ (htop1.mp rfl)
  · rcases eq_or_ne d' ⊤ with rfl | hd'
    · obtain ⟨p, hp, _⟩ := hat1 hd
      exact absurd ⟨p, hp.1⟩ (htop2.mp rfl)
    · obtain ⟨p, hp, hpw⟩ := hat1 hd
      obtain ⟨q, hq, hqw⟩ := hat2 hd'
      exact le_antisymm (hqw ▸ hle1 q hq) (hpw ▸ hle2 p hp)

lemma deltaW_triangle {vertices : List V} {edges : List (V × V × ℤ)} {x y z : V}
    (hnn : NoNegCycle edges)
    (hend : ∀ e ∈ edges, e.1 ∈ vertices ∧ e.2.1 ∈ vertices)
    (hx : x ∈ vertices) :
    deltaW vertices edges x z ≤ deltaW vertices edges x y + deltaW vertices edges y z := by
  rcases eq_or_ne (deltaW vertices edges x y) ⊤ with h1 | h1
  · rw [h1, top_add]
    exact le_top
  rcases eq_or_ne (deltaW vertices edges y z) ⊤ with h2 | h2
  · rw [h2, add_top]
    exact le_top
  obtain ⟨p, hp, hpw⟩ := deltaW_attained h1
  obtain ⟨q, hq, hqw⟩ := deltaW_attained h2
  have hw : IsWalkFrom edges x z (p ++ q) := hp.append hq
  calc deltaW vertices edges x z ≤ ((WalkWeight (p ++ q) : ℤ) : Weight) :=
        deltaW_le_walk hnn hend hx hw
    _ = ((WalkWeight p : ℤ) : Weight) + ((WalkWeight q : ℤ) : Weight) := by
        rw [walkWeight_append]; push_cast; rfl
    _ = deltaW vertices edges x y + deltaW vertices edges y z := by rw [hpw, hqw]

lemma deltaW_self {vertices : List V} {edges : List (V × V × ℤ)} {x : V}
    (hnn : NoNegCycle edges) :
    deltaW vertices edges x x = 0 := by
  have hle : deltaW vertices edges x x ≤ 0 := by
    have hmem : ((WalkWeight ([] : List (V × V × ℤ)) : ℤ) : Weight) ∈
        (((seqsUpTo edges vertices.length).filter
          (fun p => isWalkFromB edges x x p)).map
            (fun p => ((WalkWeight p : ℤ) : Weight))) := by
      refine List.mem_map.mpr ⟨[], List.mem_filter.mpr ⟨?_, ?_⟩, rfl⟩
      · exact mem_seqsUpTo (by simp) (by simp)
      · simp [isWalkFromB]
    have := foldrMin_le hmem
    simpa [walkWeight_nil] using this
  have hne : deltaW vertices edges x x ≠ ⊤ := by
    intro h
    rw [h] at hle
    exact WithTop.coe_ne_top (top_le_iff.mp hle)
  obtain ⟨p, hp, hpw⟩ := deltaW_attained hne
  rcases eq_or_ne p [] with rfl | hpne
  · rw [← hpw, walkWeight_nil]
    rfl
  · have h0 : 0 ≤ WalkWeight p := hnn x p hp hpne
    have : (0 : Weight) ≤ deltaW vertices edges x x := by
      rw [← hpw]
      exact_mod_cast h0
    exact le_antisymm hle this

lemma wminFold_le_acc {u v : V} (l : List (V × V × ℤ)) (acc : Weight) :
    l.foldl (fun acc e =>
      if e.1 = u ∧ e.2.1 = v then min acc ((e.2.2 : ℤ) : Weight) else acc) acc ≤ acc := by
  induction l generalizing acc with
  | nil => exact le_refl _
  | cons e l ih =>
    simp only [List.foldl_cons]
    split
    · exact le_trans (ih _) (min_le_left _ _)
    · exact ih _

lemma wminFold_le {u v : V} {l : List (V × V × ℤ)} {w : ℤ} (hm : (u, v, w) ∈ l)
    (acc : Weight) :
    l.foldl (fun acc e =>
      if e.1 = u ∧ e.2.1 = v then min acc ((e.2.2 : ℤ) : Weight) else acc) acc
      ≤ (w : Weight) := by
  induction l generalizing acc with
  | nil => simp at hm
  | cons e l ih =>
    rcases List.mem_cons.mp hm with rfl | hm
    · simp only [List.foldl_cons, and_self, if_true, ite_true, eq_self_iff_true]
      exact le_trans (wminFold_le_acc _ _) (min_le_right _ _)
    · simp only [List.foldl_cons]
      split
      · exact ih hm _
      · exact ih hm _

lemma wmin_le {edges : List (V × V × ℤ)} {u v : V} {w : ℤ} (hm : (u, v, w) ∈ edges) :
    wmin edges u v ≤ (w : Weight) :=
  wminFold_le hm ⊤

lemma wminFold_cases {u v : V} (l : List (V × V × ℤ)) (acc : Weight) :
    l.foldl (fun acc e =>
      if e.1 = u ∧ e.2.1 = v then min acc ((e.2.2 : ℤ) : Weight) else acc) acc = acc ∨
    ∃ w : ℤ, (u, v, w) ∈ l ∧
      l.foldl (fun acc e =>
        if e.1 = u ∧ e.2.1 = v then min acc ((e.2.2 : ℤ) : Weight) else acc) acc
        = (w : Weight) := by
  induction l generalizing acc with
  | nil => exact Or.inl rfl
  | cons e l ih =>
    simp only [List.foldl_cons]
    by_cases hc : e.1 = u ∧ e.2.1 = v
    · rw [if_pos hc]
      rcases ih (min acc ((e.2.2 : ℤ) : Weight)) with h | ⟨w, hw, hfold⟩
      · rw [h]
        rcases le_total acc ((e.2.2 : ℤ) : Weight) with hle | hle
        · exact Or.inl (min_eq_left hle)
        · refine Or.inr ⟨e.2.2, ?_, min_eq_right hle⟩
          have heq : (u, v, e.2.2) = e := by
            obtain ⟨h1, h2⟩ := hc
            rw [← h1, ← h2]
          rw [heq]
          exact List.mem_cons_self _ _
      · exact Or.inr ⟨w, List.mem_cons_of_mem e hw, hfold⟩
    · rw [if_neg hc]
      rcases ih acc with h | ⟨w, hw, hfold⟩
      · exact Or.inl h
      · exact Or.inr ⟨w, List.mem_cons_of_mem e hw, hfold⟩

lemma wmin_spec {edges : List (V × V × ℤ)} {u v : V} (h : wmin edges u v ≠ ⊤) :
    ∃ w : ℤ, (u, v, w) ∈ edges ∧ (w : Weight) = wmin edges u v := by
  have hcase : wmin edges u v = ⊤ ∨ ∃ w : ℤ, (u, v, w) ∈ edges ∧
      wmin edges u v = (w : Weight) := wminFold_cases edges ⊤
  rcases hcase with hc | ⟨w, hw, hfold⟩
  · exact absurd hc h
  · exact ⟨w, hw, hfold.symm⟩

lemma fwBase_inv1 (vertices : List V) (edges : List (V × V × ℤ))
    (hvert : vertices = []) :
    True := trivial

lemma fwDiagStep_inv1 {vertices : List V} {edges : List (V × V × ℤ)}
    (hnd : vertices.Nodup) {σ : FWState V}
    (hso : FWSound vertices edges σ) (w : V) (hw : w ∈ vertices) :
    FWSound vertices edges (fwDiagStep (posOf vertices) σ w) := by
  intro u hu v hv hne
  by_cases hc : posOf vertices u = posOf vertices w ∧ posOf vertices v = posOf vertices w
  · have hu' : u = w := pos_inj hu hw hc.1
    have hv' : v = w := pos_inj hv hw hc.2
    have hcell : (fwDiagStep (posOf vertices) σ w).dist (posOf vertices u) (posOf vertices v)
        = 0 := by
      unfold fwDiagStep
      rw [hc.1, hc.2]
      exact updM_self _ _ _ _
    rw [hcell]
    exact ⟨[], hu'.trans hv'.symm, rfl⟩
  · have heq : (fwDiagStep (posOf vertices) σ w).dist (posOf vertices u) (posOf vertices v)
        = σ.dist (posOf vertices u) (posOf vertices v) := by
      unfold fwDiagStep
      exact updM_other _ _ _ _ hc
    rw [heq] at hne ⊢
    exact hso u hu v hv hne

lemma fwDiagFold_sound {vertices : List V} {edges : List (V × V × ℤ)}
    (hnd : vertices.Nodup) (l : List V) (hl : ∀ w ∈ l, w ∈ vertices) {σ : FWState V}
    (hso : FWSound vertices edges σ) :
    FWSound vertices edges (l.foldl (fwDiagStep (posOf vertices)) σ) := by
  induction l generalizing σ with
  | nil => exact hso
  | cons w l ih =>
    exact ih (fun x hx => hl x (List.mem_cons_of_mem w hx))
      (fwDiagStep_inv1 hnd hso w (hl w (List.mem_cons_self w l)))

lemma fwEdgeStep_sound {vertices : List V} {edges : List (V × V × ℤ)}
    (hnd : vertices.Nodup)
    (hend : ∀ e ∈ edges, e.1 ∈ vertices ∧ e.2.1 ∈ vertices)
    {σ : FWState V} (hso : FWSound vertices edges σ) {e : V × V × ℤ} (he : e ∈ edges) :
    FWSound vertices edges (fwEdgeStep (posOf vertices) σ e) := by
  intro u hu v hv hne
  by_cases hc : posOf vertices u = posOf vertices e.1 ∧ posOf vertices v = posOf vertices e.2.1
  · have hu' : u = e.1 := pos_inj hu (hend e he).1 hc.1
    have hv' : v = e.2.1 := pos_inj hv (hend e he).2 hc.2
    subst hu'
    subst hv'
    have hcell : (fwEdgeStep (posOf vertices) σ e).dist (posOf vertices e.1)
        (posOf vertices e.2.1)
        = min (σ.dist (posOf vertices e.1) (posOf vertices e.2.1)) ((e.2.2 : ℤ) : Weight) := by
      unfold fwEdgeStep
      exact updM_self _ _ _ _
    rw [hcell] at hne ⊢
    rcases le_total (σ.dist (posOf vertices e.1) (posOf vertices e.2.1))
        ((e.2.2 : ℤ) : Weight) with hle | hle
    · rw [min_eq_left hle] at hne ⊢
      exact hso e.1 (hend e he).1 e.2.1 (hend e he).2 hne
    · rw [min_eq_right hle] at hne ⊢
      refine ⟨[e], ⟨he, rfl, rfl⟩, ?_⟩
      rw [walkWeight_cons, walkWeight_nil]
      norm_num
  · have heq : (fwEdgeStep (posOf vertices) σ e).dist (posOf vertices u) (posOf vertices v)
        = σ.dist (posOf vertices u) (posOf vertices v) := by
      unfold fwEdgeStep
      exact updM_other _ _ _ _ hc
    rw [heq] at hne ⊢
    exact hso u hu v hv hne

lemma fwEdgeFold_sound {vertices : List V} {edges : List (V × V × ℤ)}
    (hnd : vertices.Nodup)
    (hend : ∀ e ∈ edges, e.1 ∈ vertices ∧ e.2.1 ∈ vertices)
    (l : List (V × V × ℤ)) (hl : ∀ e ∈ l, e ∈ edges) {σ : FWState V}
    (hso : FWSound vertices edges σ) :
    FWSound vertices edges (l.foldl (fwEdgeStep (posOf vertices)) σ) := by
  induction l generalizing σ with
  | nil => exact hso
  | cons e l ih =>
    exact ih (fun x hx => hl x (List.mem_cons_of_mem e hx))
      (fwEdgeStep_sound hnd hend hso (hl e (List.mem_cons_self e l)))

lemma fwEdgeStep_diagZero {vertices : List V} {edges : List (V × V × ℤ)}
    (hnd : vertices.Nodup) (hnn : NoNegCycle edges)
    (hend : ∀ e ∈ edges, e.1 ∈ vertices ∧ e.2.1 ∈ vertices)
    {σ : FWState V} (hdz : FWDiagZero vertices σ) {e : V × V × ℤ} (he : e ∈ edges) :
    FWDiagZero vertices (fwEdgeStep (posOf vertices) σ e) := by
  intro u hu
  by_cases hc : posOf vertices u = posOf vertices e.1 ∧ posOf vertices u = posOf vertices e.2.1
  · have hu1 : u = e.1 := pos_inj hu (hend e he).1 hc.1
    have hu2 : u = e.2.1 := pos_inj hu (hend e he).2 hc.2
    have hcell : (fwEdgeStep (posOf vertices) σ e).dist (posOf vertices u) (posOf vertices u)
        = min (σ.dist (posOf vertices u) (posOf vertices u)) ((e.2.2 : ℤ) : Weight) := by
      unfold fwEdgeStep
      rw [← hu1, ← hu2]
      exact updM_self _ _ _ _
    have hself : IsWalkFrom edges u u [e] := by
      refine ⟨he, hu1.symm, hu2.symm⟩
    have hwpos : 0 ≤ e.2.2 := by
      have := hnn u [e] hself (by simp)
      simpa [walkWeight_cons, walkWeight_nil] using this
    rw [hcell, hdz u hu]
    have : (0 : Weight) ≤ ((e.2.2 : ℤ) : Weight) := by exact_mod_cast hwpos
    exact min_eq_left this
  · have heq : (fwEdgeStep (posOf vertices) σ e).dist (posOf vertices u) (posOf vertices u)
        = σ.dist (posOf vertices u) (posOf vertices u) := by
      unfold fwEdgeStep
      exact updM_other _ _ _ _ hc
    rw [heq]
    exact hdz u hu

lemma fwEdgeFold_diagZero {vertices : List V} {edges : List (V × V × ℤ)}
    (hnd : vertices.Nodup) (hnn : NoNegCycle edges)
    (hend : ∀ e ∈ edges, e.1 ∈ vertices ∧ e.2.1 ∈ vertices)
    (l : List (V × V × ℤ)) (hl : ∀ e ∈ l, e ∈ edges) {σ : FWState V}
    (hdz : FWDiagZero vertices σ) :
    FWDiagZero vertices (l.foldl (fwEdgeStep (posOf vertices)) σ) := by
  induction l generalizing σ with
  | nil => exact hdz
  | cons e l ih =>
    exact ih (fun x hx => hl x (List.mem_cons_of_mem e hx))
      (fwEdgeStep_diagZero hnd hnn hend hdz (hl e (List.mem_cons_self e l)))

lemma fwInit_inv1 {vertices : List V} {edges : List (V × V × ℤ)}
    (hnd : vertices.Nodup) (hnn : NoNegCycle edges)
    (hend : ∀ e ∈ edges, e.1 ∈ vertices ∧ e.2.1 ∈ vertices) :
    FWInv1 vertices edges (fwInit vertices edges) := by
  refine ⟨fwInit_consistent vertices edges, ?_, ?_⟩
  · unfold fwInit
    refine fwEdgeFold_sound hnd hend edges (fun e he => he) ?_
    refine fwDiagFold_sound hnd vertices (fun w hw => hw) ?_
    intro u hu v hv hne
    exact absurd rfl hne
  · unfold fwInit
    refine fwEdgeFold_diagZero hnd hnn hend edges (fun e he => he) ?_
    intro u hu
    exact fwDiagFold_diag_zero vertices _ u hu

lemma fwUpdate_cases (k i j : ℕ) (σ : FWState V) (a b : ℕ) :
    ((fwUpdate k i j σ).dist a b = σ.dist a b ∧ (fwUpdate k i j σ).nx a b = σ.nx a b ∧
      (a = i → b = j → ¬ (σ.dist i k + σ.dist k j < σ.dist i j))) ∨
    (a = i ∧ b = j ∧ σ.dist i k + σ.dist k j < σ.dist i j ∧
      (fwUpdate k i j σ).dist a b = σ.dist i k + σ.dist k j ∧
      (fwUpdate k i j σ).nx a b = σ.nx i k) := by
  unfold fwUpdate
  by_cases hfire : σ.dist i k + σ.dist k j < σ.dist i j
  · rw [if_pos hfire]
    by_cases hab : a = i ∧ b = j
    · refine Or.inr ⟨hab.1, hab.2, hfire, ?_, ?_⟩
      · show updM σ.dist i j (σ.dist i k + σ.dist k j) a b = _
        rw [hab.1, hab.2]
        exact updM_self _ _ _ _
      · show updM σ.nx i j (σ.nx i k) a b = _
        rw [hab.1, hab.2]
        exact updM_self _ _ _ _
    · exact Or.inl ⟨updM_other _ _ _ _ hab, updM_other _ _ _ _ hab,
        fun h1 h2 _ => hab ⟨h1, h2⟩⟩
  · rw [if_neg hfire]
    exact Or.inl ⟨rfl, rfl, fun _ _ => hfire⟩

lemma closed_sum_not_neg {edges : List (V × V × ℤ)}
    (hnn : NoNegCycle edges) {u z : V} {p q : List (V × V × ℤ)}
    (hp : IsWalkFrom edges u z p) (hq : IsWalkFrom edges z u q)
    (hpw : ((WalkWeight p : ℤ) : Weight) + ((WalkWeight q : ℤ) : Weight) < 0) : False := by
  have hw : IsWalkFrom edges u u (p ++ q) := hp.append hq
  have hsum : WalkWeight p + WalkWeight q < 0 := by exact_mod_cast hpw
  rcases eq_or_ne (p ++ q) [] with hnil | hne
  · rw [List.append_eq_nil] at hnil
    rw [hnil.1, hnil.2] at hsum
    simp [walkWeight_nil] at hsum
  · have := hnn u (p ++ q) hw hne
    rw [walkWeight_append] at this
    omega

lemma fwUpdate_inv1 {vertices : List V} {edges : List (V × V × ℤ)}
    (hnd : vertices.Nodup) (hnn : NoNegCycle edges)
    {σ : FWState V} (hin : FWInv1 vertices edges σ) {k i j : ℕ}
    (hk : k < vertices.length) :
    FWInv1 vertices edges (fwUpdate k i j σ) := by
  obtain ⟨hcons, hso, hdz⟩ := hin
  have hukm : vertices.get ⟨k, hk⟩ ∈ vertices := List.get_mem vertices k hk
  have hpk : posOf vertices (vertices.get ⟨k, hk⟩) = k := pos_get hnd ⟨k, hk⟩
  refine ⟨fwUpdate_consistent hcons k i j, ?_, ?_⟩
  · intro u hu v hv hne
    rcases fwUpdate_cases k i j σ (posOf vertices u) (posOf vertices v) with
      ⟨hd, _, _⟩ | ⟨hpi, hpj, hfire, hd, _⟩
    · rw [hd] at hne ⊢
      exact hso u hu v hv hne
    · have hik : σ.dist i k ≠ ⊤ ∧ σ.dist k j ≠ ⊤ :=
        WithTop.add_ne_top.mp (ne_top_of_lt' hfire)
      obtain ⟨p, hp, hpw⟩ := hso u hu (vertices.get ⟨k, hk⟩) hukm
        (by rw [hpi, hpk]; exact hik.1)
      obtain ⟨q, hq, hqw⟩ := hso (vertices.get ⟨k, hk⟩) hukm v hv
        (by rw [hpk, hpj]; exact hik.2)
      refine ⟨p ++ q, hp.append hq, ?_⟩
      rw [hd, walkWeight_append]
      push_cast
      rw [hpw, hqw, hpi, hpk, hpj]
  · intro u hu
    rcases fwUpdate_cases k i j σ (posOf vertices u) (posOf vertices u) with
      ⟨hd, _, _⟩ | ⟨hpi, hpj, hfire, hd, _⟩
    · rw [hd]
      exact hdz u hu
    · exfalso
      have hdd : σ.dist i j = 0 := by
        rw [← hpi, ← hpj]
        exact hdz u hu
      rw [hdd] at hfire
      have hik : σ.dist i k ≠ ⊤ ∧ σ.dist k j ≠ ⊤ :=
        WithTop.add_ne_top.mp (ne_top_of_lt' hfire)
      obtain ⟨p, hp, hpw⟩ := hso u hu (vertices.get ⟨k, hk⟩) hukm
        (by rw [hpi, hpk]; exact hik.1)
      obtain ⟨q, hq, hqw⟩ := hso (vertices.get ⟨k, hk⟩) hukm u hu
        (by rw [hpk, hpj]; exact hik.2)
      rw [hpi, hpk] at hpw
      rw [hpk, hpj] at hqw
      apply closed_sum_not_neg hnn hp hq
      rw [hpw, hqw]
      exact hfire

lemma fwInnerFold_inv1 {vertices : List V} {edges : List (V × V × ℤ)}
    (hnd : vertices.Nodup) (hnn : NoNegCycle edges) {σ : FWState V}
    (hin : FWInv1 vertices edges σ) {k : ℕ} (hk : k < vertices.length) (i : ℕ)
    (l : List ℕ) : FWInv1 vertices edges (l.foldl (fun σ j => fwUpdate k i j σ) σ) := by
  induction l generalizing σ with
  | nil => exact hin
  | cons j l ih => exact ih (fwUpdate_inv1 hnd hnn hin hk)

lemma fwRowFold_inv1 {vertices : List V} {edges : List (V × V × ℤ)}
    (hnd : vertices.Nodup) (hnn : NoNegCycle edges) {σ : FWState V}
    (hin : FWInv1 vertices edges σ) {k : ℕ} (hk : k < vertices.length)
    (l1 l2 : List ℕ) :
    FWInv1 vertices edges
      (l1.foldl (fun σ i => l2.foldl (fun σ j => fwUpdate k i j σ) σ) σ) := by
  induction l1 generalizing σ with
  | nil => exact hin
  | cons i l1 ih => exact ih (fwInnerFold_inv1 hnd hnn hin hk i l2)

lemma fwPhase_inv1 {vertices : List V} {edges : List (V × V × ℤ)}
    (hnd : vertices.Nodup) (hnn : NoNegCycle edges) {σ : FWState V}
    (hin : FWInv1 vertices edges σ) {k : ℕ} (hk : k < vertices.length) :
    FWInv1 vertices edges (fwPhase vertices.length k σ) :=
  fwRowFold_inv1 hnd hnn hin hk _ _

lemma fwUpdate_k_stable {σ : FWState V} {k : ℕ} (hkk : σ.dist k k = 0) (i j : ℕ) :
    (∀ a, (fwUpdate k i j σ).dist a k = σ.dist a k ∧
      (fwUpdate k i j σ).nx a k = σ.nx a k) ∧
    (∀ b, (fwUpdate k i j σ).dist k b = σ.dist k b ∧
      (fwUpdate k i j σ).nx k b = σ.nx k b) := by
  constructor
  · intro a
    rcases fwUpdate_cases k i j σ a k with ⟨hd, hn, _⟩ | ⟨hai, hkj, hfire, hd, hn⟩
    · exact ⟨hd, hn⟩
    · exfalso
      rw [← hkj, hkk, add_zero] at hfire
      subst hkj
      exact lt_irrefl _ hfire
  · intro b
    rcases fwUpdate_cases k i j σ k b with ⟨hd, hn, _⟩ | ⟨hki, hbj, hfire, hd, hn⟩
    · exact ⟨hd, hn⟩
    · exfalso
      rw [← hki, hkk, zero_add] at hfire
      subst hki
      exact lt_irrefl _ hfire

lemma fwInnerFold_k_stable {σ : FWState V} {k : ℕ} (hkk : σ.dist k k = 0) (i : ℕ)
    (l : List ℕ) :
    (∀ a, (l.foldl (fun σ j => fwUpdate k i j σ) σ).dist a k = σ.dist a k ∧
      (l.foldl (fun σ j => fwUpdate k i j σ) σ).nx a k = σ.nx a k) ∧
    (∀ b, (l.foldl (fun σ j => fwUpdate k i j σ) σ).dist k b = σ.dist k b ∧
      (l.foldl (fun σ j => fwUpdate k i j σ) σ).nx k b = σ.nx k b) := by
  induction l generalizing σ with
  | nil => exact ⟨fun a => ⟨rfl, rfl⟩, fun b => ⟨rfl, rfl⟩⟩
  | cons j l ih =>
    have hstep := fwUpdate_k_stable hkk i j
    have hkk' : (fwUpdate k i j σ).dist k k = 0 := by
      rw [(hstep.1 k).1]
      exact hkk
    have hrest := ih hkk'
    constructor
    · intro a
      rw [List.foldl_cons]
      exact ⟨by rw [(hrest.1 a).1, (hstep.1 a).1], by rw [(hrest.1 a).2, (hstep.1 a).2]⟩
    · intro b
      rw [List.foldl_cons]
      exact ⟨by rw [(hrest.2 b).1, (hstep.2 b).1], by rw [(hrest.2 b).2, (hstep.2 b).2]⟩

lemma fwRowFold_k_stable {σ : FWState V} {k : ℕ} (hkk : σ.dist k k = 0)
    (l1 l2 : List ℕ) :
    (∀ a, (l1.foldl (fun σ i => l2.foldl (fun σ j => fwUpdate k i j σ) σ) σ).dist a k
        = σ.dist a k ∧
      (l1.foldl (fun σ i => l2.foldl (fun σ j => fwUpdate k i j σ) σ) σ).nx a k
        = σ.nx a k) ∧
    (∀ b, (l1.foldl (fun σ i => l2.foldl (fun σ j => fwUpdate k i j σ) σ) σ).dist k b
        = σ.dist k b ∧
      (l1.foldl (fun σ i => l2.foldl (fun σ j => fwUpdate k i j σ) σ) σ).nx k b
        = σ.nx k b) := by
  induction l1 generalizing σ with
  | nil => exact ⟨fun a => ⟨rfl, rfl⟩, fun b => ⟨rfl, rfl⟩⟩
  | cons i l1 ih =>
    have hstep := fwInnerFold_k_stable hkk i l2
    have hkk' : (l2.foldl (fun σ j => fwUpdate k i j σ) σ).dist k k = 0 := by
      rw [(hstep.1 k).1]
      exact hkk
    have hrest := ih hkk'
    constructor
    · intro a
      rw [List.foldl_cons]
      exact ⟨by rw [(hrest.1 a).1, (hstep.1 a).1], by rw [(hrest.1 a).2, (hstep.1 a).2]⟩
    · intro b
      rw [List.foldl_cons]
      exact ⟨by rw [(hrest.2 b).1, (hstep.2 b).1], by rw [(hrest.2 b).2, (hstep.2 b).2]⟩

lemma fwPhase_k_stable {σ : FWState V} {k n : ℕ} (hkk : σ.dist k k = 0) :
    (∀ a, (fwPhase n k σ).dist a k = σ.dist a k ∧ (fwPhase n k σ).nx a k = σ.nx a k) ∧
    (∀ b, (fwPhase n k σ).dist k b = σ.dist k b ∧ (fwPhase n k σ).nx k b = σ.nx k b) :=
  fwRowFold_k_stable hkk _ _

lemma fwInnerFold_ub {σ : FWState V} {k : ℕ} (hkk : σ.dist k k = 0) (i : ℕ)
    {l : List ℕ} {b : ℕ} (hb : b ∈ l) :
    (l.foldl (fun σ j => fwUpdate k i j σ) σ).dist i b ≤ σ.dist i k + σ.dist k b := by
  induction l generalizing σ with
  | nil => simp at hb
  | cons j l ih =>
    rw [List.foldl_cons]
    rcases List.mem_cons.mp hb with rfl | hb
    · have hpost : (fwUpdate k i b σ).dist i b ≤ σ.dist i k + σ.dist k b := by
        rcases fwUpdate_cases k i b σ i b with ⟨hd, _, hnf⟩ | ⟨_, _, _, hd, _⟩
        · rw [hd]
          exact not_lt.mp (hnf rfl rfl)
        · rw [hd]
      calc (l.foldl (fun σ j => fwUpdate k i j σ) (fwUpdate k i b σ)).dist i b
          ≤ (fwUpdate k i b σ).dist i b := fwInnerFold_dist_le k i l _ i b
        _ ≤ σ.dist i k + σ.dist k b := hpost
    · have hstep := fwUpdate_k_stable hkk i j
      have hkk' : (fwUpdate k i j σ).dist k k = 0 := by
        rw [(hstep.1 k).1]; exact hkk
      calc (l.foldl (fun σ j => fwUpdate k i j σ) (fwUpdate k i j σ)).dist i b
          ≤ (fwUpdate k i j σ).dist i k + (fwUpdate k i j σ).dist k b := ih hkk' hb
        _ = σ.dist i k + σ.dist k b := by rw [(hstep.1 i).1, (hstep.2 b).1]

lemma fwRowFold_ub {σ : FWState V} {k : ℕ} (hkk : σ.dist k k = 0)
    {l1 l2 : List ℕ} {a b : ℕ} (ha : a ∈ l1) (hb : b ∈ l2) :
    (l1.foldl (fun σ i => l2.foldl (fun σ j => fwUpdate k i j σ) σ) σ).dist a b
      ≤ σ.dist a k + σ.dist k b := by
  induction l1 generalizing σ with
  | nil => simp at ha
  | cons i l1 ih =>
    rw [List.foldl_cons]
    rcases List.mem_cons.mp ha with rfl | ha
    · calc (l1.foldl (fun σ i => l2.foldl (fun σ j => fwUpdate k i j σ) σ)
            (l2.foldl (fun σ j => fwUpdate k a j σ) σ)).dist a b
          ≤ (l2.foldl (fun σ j => fwUpdate k a j σ) σ).dist a b :=
            fwRowFold_dist_le k l1 l2 _ a b
        _ ≤ σ.dist a k + σ.dist k b := fwInnerFold_ub hkk a hb
    · have hstep := fwInnerFold_k_stable hkk i l2
      have hkk' : (l2.foldl (fun σ j => fwUpdate k i j σ) σ).dist k k = 0 := by
        rw [(hstep.1 k).1]; exact hkk
      calc (l1.foldl (fun σ i => l2.foldl (fun σ j => fwUpdate k i j σ) σ)
            (l2.foldl (fun σ j => fwUpdate k i j σ) σ)).dist a b
          ≤ (l2.foldl (fun σ j => fwUpdate k i j σ) σ).dist a k
            + (l2.foldl (fun σ j => fwUpdate k i j σ) σ).dist k b := ih hkk' ha
        _ = σ.dist a k + σ.dist k b := by rw [(hstep.1 a).1, (hstep.2 b).1]

lemma fwPhase_ub {σ : FWState V} {k n : ℕ} (hkk : σ.dist k k = 0)
    {a b : ℕ} (ha : a < n) (hb : b < n) :
    (fwPhase n k σ).dist a b ≤ σ.dist a k + σ.dist k b :=
  fwRowFold_ub hkk (List.mem_range.mpr ha) (List.mem_range.mpr hb)

lemma intermeds_cons_of_ne {e : V × V × ℤ} {q : List (V × V × ℤ)} (hq : q ≠ []) :
    Intermeds (e :: q) = e.2.1 :: Intermeds q := by
  cases q with
  | nil => exact absurd rfl hq
  | cons f r =>
    show ((e.2.1 :: f.2.1 :: walkTargets r).dropLast) = e.2.1 :: (f.2.1 :: walkTargets r).dropLast
    rw [List.dropLast_cons₂]

lemma intermeds_first_split {edges : List (V × V × ℤ)} {u v z : V} {p : List (V × V × ℤ)}
    (hz : z ∈ Intermeds p) (hp : IsWalkFrom edges u v p) :
    ∃ p₁ p₂, p = p₁ ++ p₂ ∧ p₁ ≠ [] ∧ p₂ ≠ [] ∧
      IsWalkFrom edges u z p₁ ∧ IsWalkFrom edges z v p₂ ∧ z ∉ Intermeds p₁ ∧
      (∀ y ∈ Intermeds p₁, y ∈ Intermeds p) ∧ (∀ y ∈ Intermeds p₂, y ∈ Intermeds p) := by
  induction p generalizing u with
  | nil => simp [Intermeds, walkTargets] at hz
  | cons e q ih =>
    obtain ⟨he, hx, hw⟩ := hp
    cases q with
    | nil => simp [Intermeds, walkTargets] at hz
    | cons f r =>
      have hI : Intermeds (e :: f :: r) = e.2.1 :: Intermeds (f :: r) :=
        intermeds_cons_of_ne (by simp)
      by_cases hze : z = e.2.1
      · refine ⟨[e], f :: r, rfl, by simp, by simp, ⟨he, hx, hze.symm⟩,
          by rw [hze]; exact hw, ?_, ?_, ?_⟩
        · simp [Intermeds, walkTargets]
        · intro y hy
          simp [Intermeds, walkTargets] at hy
        · intro y hy
          rw [hI]
          exact List.mem_cons_of_mem _ hy
      · have hz' : z ∈ Intermeds (f :: r) := by
          rw [hI] at hz
          rcases List.mem_cons.mp hz with h | h
          · exact absurd h hze
          · exact h
        obtain ⟨p₁, p₂, heq, h1ne, h2ne, hw1, hw2, hzn, hs1, hs2⟩ := ih hz' hw
        have hI1 : Intermeds (e :: p₁) = e.2.1 :: Intermeds p₁ := intermeds_cons_of_ne h1ne
        refine ⟨e :: p₁, p₂, by rw [List.cons_append, ← heq], by simp, h2ne,
          ⟨he, hx, hw1⟩, hw2, ?_, ?_, ?_⟩
        · rw [hI1]
          intro hmem
          rcases List.mem_cons.mp hmem with h | h
          · exact hze h
          · exact hzn h
        · intro y hy
          rw [hI1] at hy
          rw [hI]
          rcases List.mem_cons.mp hy with rfl | hy
          · exact List.mem_cons_self _ _
          · exact List.mem_cons_of_mem _ (hs1 y hy)
        · intro y hy
          rw [hI]
          exact List.mem_cons_of_mem _ (hs2 y hy)

lemma fwEdgeFold_ub {pos : V → ℕ} (l : List (V × V × ℤ)) (σ : FWState V) :
    ∀ e ∈ l, (l.foldl (fwEdgeStep pos) σ).dist (pos e.1) (pos e.2.1)
      ≤ ((e.2.2 : ℤ) : Weight) := by
  induction l generalizing σ with
  | nil => intro e he; simp at he
  | cons f l ih =>
    intro e he
    rcases List.mem_cons.mp he with rfl | he
    · calc (l.foldl (fwEdgeStep pos) (fwEdgeStep pos σ e)).dist (pos e.1) (pos e.2.1)
          ≤ (fwEdgeStep pos σ e).dist (pos e.1) (pos e.2.1) :=
            fwEdgeFold_dist_le l _ _ _
        _ ≤ ((e.2.2 : ℤ) : Weight) := by
            show updM σ.dist (pos e.1) (pos e.2.1)
              (min (σ.dist (pos e.1) (pos e.2.1)) ((e.2.2 : ℤ) : Weight))
              (pos e.1) (pos e.2.1) ≤ _
            rw [updM_self]
            exact min_le_right _ _
    · exact ih (fwEdgeStep pos σ f) e he

lemma fwInit_ubound {vertices : List V} {edges : List (V × V × ℤ)}
    (hnd : vertices.Nodup) (hnn : NoNegCycle edges)
    (hend : ∀ e ∈ edges, e.1 ∈ vertices ∧ e.2.1 ∈ vertices) :
    FWUBound vertices edges 0 (fwInit vertices edges) := by
  intro u hu v hv p hp hint
  have hpz : Intermeds p = [] := by
    rw [List.eq_nil_iff_forall_not_mem]
    intro y hy
    have := hint y hy
    simp at this
  cases p with
  | nil =>
    have huv : u = v := hp
    subst huv
    have hz := (fwInit_inv1 hnd hnn hend).2.2 u hu
    rw [hz]
    simp [walkWeight_nil]
  | cons e q =>
    cases q with
    | cons f r =>
      exfalso
      have : Intermeds (e :: f :: r) = e.2.1 :: Intermeds (f :: r) :=
        intermeds_cons_of_ne (by simp)
      rw [this] at hpz
      simp at hpz
    | nil =>
      obtain ⟨he, hx, hy⟩ := hp
      have hub : (edges.foldl (fwEdgeStep (posOf vertices))
          (vertices.foldl (fwDiagStep (posOf vertices))
            { dist := fun _ _ => ⊤, nx := fun _ _ => none })).dist
            (posOf vertices e.1) (posOf vertices e.2.1) ≤ ((e.2.2 : ℤ) : Weight) :=
        fwEdgeFold_ub edges
          (vertices.foldl (fwDiagStep (posOf vertices))
            { dist := fun _ _ => ⊤, nx := fun _ _ => none }) e he
      have hcell : (fwInit vertices edges).dist (posOf vertices u) (posOf vertices v)
          ≤ ((e.2.2 : ℤ) : Weight) := by
        unfold fwInit
        rw [← hx, ← hy]
        exact hub
      refine le_trans hcell ?_
      rw [walkWeight_cons, walkWeight_nil]
      norm_num

lemma mem_take_succ_of_ne {vertices : List V} (hnd : vertices.Nodup) {m : ℕ}
    (hm : m < vertices.length) {y : V} (hy : y ∈ vertices.take (m + 1))
    (hne : y ≠ vertices.get ⟨m, hm⟩) : y ∈ vertices.take m := by
  rw [List.take_succ] at hy
  rcases List.mem_append.mp hy with h | h
  · exact h
  · exfalso
    apply hne
    have hsome : vertices[m]? = some (vertices.get ⟨m, hm⟩) := by
      rw [List.getElem?_eq_getElem hm]
      rfl
    rw [hsome] at h
    simpa using h

lemma fwPhase_ubound {vertices : List V} {edges : List (V × V × ℤ)}
    (hnd : vertices.Nodup) (hnn : NoNegCycle edges)
    (hend : ∀ e ∈ edges, e.1 ∈ vertices ∧ e.2.1 ∈ vertices)
    {σ : FWState V} {m : ℕ} (hm : m < vertices.length)
    (hin : FWInv1 vertices edges σ) (hub : FWUBound vertices edges m σ) :
    FWUBound vertices edges (m + 1) (fwPhase vertices.length m σ) := by
  have hzm : vertices.get ⟨m, hm⟩ ∈ vertices := List.get_mem vertices m hm
  have hpz : posOf vertices (vertices.get ⟨m, hm⟩) = m := pos_get hnd ⟨m, hm⟩
  have hkk : σ.dist m m = 0 := by
    rw [← hpz]
    exact hin.2.2 _ hzm
  have hstab : (∀ a, (fwPhase vertices.length m σ).dist a m = σ.dist a m ∧
      (fwPhase vertices.length m σ).nx a m = σ.nx a m) ∧
    (∀ b, (fwPhase vertices.length m σ).dist m b = σ.dist m b ∧
      (fwPhase vertices.length m σ).nx m b = σ.nx m b) := fwPhase_k_stable hkk
  suffices h : ∀ (L : ℕ) (u : V), u ∈ vertices → ∀ (v : V), v ∈ vertices →
      ∀ p, p.length ≤ L → IsWalkFrom edges u v p →
      (∀ y ∈ Intermeds p, y ∈ vertices.take (m + 1)) →
      (fwPhase vertices.length m σ).dist (posOf vertices u) (posOf vertices v)
        ≤ ((WalkWeight p : ℤ) : Weight) by
    intro u hu v hv p hp hint
    exact h p.length u hu v hv p (le_refl _) hp hint
  intro L
  induction L with
  | zero =>
    intro u hu v hv p hlen hp hint
    have hp0 : p = [] := List.length_eq_zero.mp (Nat.le_zero.mp hlen)
    subst hp0
    refine le_trans (fwPhase_dist_le _ _ _ _ _) (hub u hu v hv [] hp ?_)
    intro y hy
    simp [Intermeds, walkTargets] at hy
  | succ L ihL =>
    intro u hu v hv p hlen hp hint
    by_cases hz : vertices.get ⟨m, hm⟩ ∈ Intermeds p
    · obtain ⟨p₁, p₂, rfl, hp1ne, hp2ne, hw1, hw2, hznotin, hsub1, hsub2⟩ :=
        intermeds_first_split hz hp
      have hint1 : ∀ y ∈ Intermeds p₁, y ∈ vertices.take m := by
        intro y hy
        refine mem_take_succ_of_ne hnd hm (hint y (hsub1 y hy)) ?_
        intro hc
        exact hznotin (hc ▸ hy)
      have hb1 : σ.dist (posOf vertices u) m ≤ ((WalkWeight p₁ : ℤ) : Weight) := by
        rw [← hpz]
        exact hub u hu _ hzm p₁ hw1 hint1
      have hlen2 : p₂.length ≤ L := by
        have h1 : 1 ≤ p₁.length := by
          cases p₁ with
          | nil => exact absurd rfl hp1ne
          | cons _ _ => simp
        rw [List.length_append] at hlen
        omega
      have hb2 : σ.dist m (posOf vertices v) ≤ ((WalkWeight p₂ : ℤ) : Weight) := by
        have := ihL _ hzm v hv p₂ hlen2 hw2 (fun y hy => hint y (hsub2 y hy))
        rw [hpz] at this
        rw [← (hstab.2 (posOf vertices v)).1]
        exact this
      have hfin : (fwPhase vertices.length m σ).dist (posOf vertices u) (posOf vertices v)
          ≤ σ.dist (posOf vertices u) m + σ.dist m (posOf vertices v) :=
        fwPhase_ub hkk (pos_lt_length hu) (pos_lt_length hv)
      calc (fwPhase vertices.length m σ).dist (posOf vertices u) (posOf vertices v)
          ≤ σ.dist (posOf vertices u) m + σ.dist m (posOf vertices v) := hfin
        _ ≤ ((WalkWeight p₁ : ℤ) : Weight) + ((WalkWeight p₂ : ℤ) : Weight) :=
            add_le_add hb1 hb2
        _ = ((WalkWeight (p₁ ++ p₂) : ℤ) : Weight) := by
            rw [walkWeight_append]
            push_cast
            rfl
    · refine le_trans (fwPhase_dist_le _ _ _ _ _) (hub u hu v hv p hp ?_)
      intro y hy
      refine mem_take_succ_of_ne hnd hm (hint y hy) ?_
      intro hc
      exact hz (hc ▸ hy)

lemma fwRun_inv1_ubound {vertices : List V} {edges : List (V × V × ℤ)}
    (hnd : vertices.Nodup) (hnn : NoNegCycle edges)
    (hend : ∀ e ∈ edges, e.1 ∈ vertices ∧ e.2.1 ∈ vertices) :
    ∀ m, m ≤ vertices.length →
      FWInv1 vertices edges ((List.range m).foldl
        (fun σ k => fwPhase vertices.length k σ) (fwInit vertices edges)) ∧
      FWUBound vertices edges m ((List.range m).foldl
        (fun σ k => fwPhase vertices.length k σ) (fwInit vertices edges)) := by
  intro m
  induction m with
  | zero =>
    intro _
    exact ⟨fwInit_inv1 hnd hnn hend, fwInit_ubound hnd hnn hend⟩
  | succ m ih =>
    intro hm
    have hmlt : m < vertices.length := Nat.lt_of_succ_le hm
    obtain ⟨hinv, hub⟩ := ih (le_of_lt hmlt)
    rw [List.range_succ, List.foldl_append, List.foldl_cons, List.foldl_nil]
    exact ⟨fwPhase_inv1 hnd hnn hinv hmlt, fwPhase_ubound hnd hnn hend hmlt hinv hub⟩

lemma fw_final_inv1 {vertices : List V} {edges : List (V × V × ℤ)}
    (hnd : vertices.Nodup) (hnn : NoNegCycle edges)
    (hend : ∀ e ∈ edges, e.1 ∈ vertices ∧ e.2.1 ∈ vertices) :
    FWInv1 vertices edges (fwRun vertices.length (fwInit vertices edges)) :=
  (fwRun_inv1_ubound hnd hnn hend vertices.length (le_refl _)).1

lemma fw_final_ubound {vertices : List V} {edges : List (V × V × ℤ)}
    (hnd : vertices.Nodup) (hnn : NoNegCycle edges)
    (hend : ∀ e ∈ edges, e.1 ∈ vertices ∧ e.2.1 ∈ vertices) :
    FWUBound vertices edges vertices.length
      (fwRun vertices.length (fwInit vertices edges)) :=
  (fwRun_inv1_ubound hnd hnn hend vertices.length (le_refl _)).2

lemma intermeds_in_vertices {vertices : List V} {edges : List (V × V × ℤ)}
    (hend : ∀ e ∈ edges, e.1 ∈ vertices ∧ e.2.1 ∈ vertices)
    {u v : V} {p : List (V × V × ℤ)} (hp : IsWalkFrom edges u v p) :
    ∀ y ∈ Intermeds p, y ∈ vertices.take vertices.length := by
  rw [List.take_length]
  intro y hy
  exact walkTargets_subset hend hp y (List.dropLast_subset _ hy)

lemma fw_dist_eq_delta {vertices : List V} {edges : List (V × V × ℤ)}
    (hnd : vertices.Nodup) (hnn : NoNegCycle edges)
    (hend : ∀ e ∈ edges, e.1 ∈ vertices ∧ e.2.1 ∈ vertices)
    {u v : V} (hu : u ∈ vertices) (hv : v ∈ vertices) :
    (fwRun vertices.length (fwInit vertices edges)).dist
      (posOf vertices u) (posOf vertices v) = deltaW vertices edges u v := by
  rcases eq_or_ne ((fwRun vertices.length (fwInit vertices edges)).dist
      (posOf vertices u) (posOf vertices v)) ⊤ with htop | hne
  · rcases eq_or_ne (deltaW vertices edges u v) ⊤ with h2 | h2
    · rw [htop, h2]
    · exfalso
      obtain ⟨p, hp, hpw⟩ := deltaW_attained h2
      have := fw_final_ubound hnd hnn hend u hu v hv p hp (intermeds_in_vertices hend hp)
      rw [htop] at this
      exact WithTop.coe_ne_top (top_le_iff.mp this)
  · obtain ⟨p, hp, hpw⟩ := (fw_final_inv1 hnd hnn hend).2.1 u hu v hv hne
    have hd1 : deltaW vertices edges u v ≤ (fwRun vertices.length (fwInit vertices edges)).dist
        (posOf vertices u) (posOf vertices v) := by
      rw [← hpw]
      exact deltaW_le_walk hnn hend hu hp
    have hdne : deltaW vertices edges u v ≠ ⊤ := ne_top_of_le_ne_top hne hd1
    obtain ⟨q, hq, hqw⟩ := deltaW_attained hdne
    have hd2 : (fwRun vertices.length (fwInit vertices edges)).dist
        (posOf vertices u) (posOf vertices v) ≤ deltaW vertices edges u v := by
      rw [← hqw]
      exact fw_final_ubound hnd hnn hend u hu v hv q hq (intermeds_in_vertices hend hq)
    exact le_antisymm hd2 hd1

/-- C4: on a graph without negative cycles, every row of the Floyd-Warshall
distance matrix coincides with the Bellman-Ford distance map computed from
the corresponding source vertex (which succeeds). -/
theorem floyd_warshall_rows_eq_bellman_ford {vertices : List V}
    {edges : List (V × V × ℤ)} {i : V}
    (hnd : vertices.Nodup)
    (hend : ∀ e ∈ edges, e.1 ∈ vertices ∧ e.2.1 ∈ vertices)
    (hi : i ∈ vertices) (hnn : NoNegCycle edges) :
    ∃ d par, bellman_ford vertices edges i = Except.ok (d, par) ∧
      ∀ j ∈ vertices, (floyd_warshall vertices edges).1
        (posOf vertices i) (posOf vertices j) = d j := by
  obtain ⟨hok, h0, hall⟩ := bf_characterization hi hend (noNegCycle_imp_not_from hnn i)
  refine ⟨_, _, hok, ?_⟩
  intro j hj
  have h1 : IsMinPathDist edges i j ((bfFinal vertices edges i).dist j) := (hall j).1
  have h2 : IsMinPathDist edges i j (deltaW vertices edges i j) :=
    deltaW_isMinPathDist hnn hend hi
  have h3 : (floyd_warshall vertices edges).1 (posOf vertices i) (posOf vertices j)
      = deltaW vertices edges i j := fw_dist_eq_delta hnd hnn hend hi hj
  rw [h3]
  exact isMinPathDist_unique h2 h1

/-- Witness for C4 on the concrete scenario of the specification. -/
theorem floyd_warshall_rows_eq_bellman_ford_witness :
    (["A", "B", "C"] : List String).Nodup ∧
    (∀ e ∈ ([("A", "B", 1), ("B", "A", 1), ("B", "C", 2), ("C", "B", 2),
        ("A", "C", 4), ("C", "A", 4)] : List (String × String × ℤ)),
      e.1 ∈ ["A", "B", "C"] ∧ e.2.1 ∈ ["A", "B", "C"]) ∧
    ("A" ∈ ["A", "B", "C"]) ∧
    (∃ d par, bellman_ford ["A", "B", "C"]
        [("A", "B", 1), ("B", "A", 1), ("B", "C", 2), ("C", "B", 2),
          ("A", "C", 4), ("C", "A", 4)] "A" = Except.ok (d, par) ∧
      ∀ j ∈ ["A", "B", "C"],
        (floyd_warshall ["A", "B", "C"]
          [("A", "B", 1), ("B", "A", 1), ("B", "C", 2), ("C", "B", 2),
            ("A", "C", 4), ("C", "A", 4)]).1
          (posOf ["A", "B", "C"] "A") (posOf ["A", "B", "C"] j) = d j) :=
  ⟨by decide, by decide, by decide,
    floyd_warshall_rows_eq_bellman_ford (by decide) (by decide) (by decide)
      (fun z c hc hne => walkWeight_nonneg (by decide) hc)⟩

lemma le_zero_of_add_le_self {c d : Weight} (hd : d ≠ ⊤) (h : c + d ≤ d) : c ≤ 0 := by
  lift d to ℤ using hd
  rcases eq_or_ne c ⊤ with rfl | hc
  · rw [top_add] at h
    exact absurd (top_le_iff.mp h) WithTop.coe_ne_top
  · lift c to ℤ using hc
    rw [← WithTop.coe_add, WithTop.coe_le_coe] at h
    exact_mod_cast (by omega : c ≤ 0)

lemma neg_of_add_lt_self {c d : Weight} (hd : d ≠ ⊤) (h : c + d < d) : c < 0 := by
  lift d to ℤ using hd
  rcases eq_or_ne c ⊤ with rfl | hc
  · rw [top_add] at h
    exact absurd h not_top_lt
  · lift c to ℤ using hc
    rw [← WithTop.coe_add, WithTop.coe_lt_coe] at h
    exact_mod_cast (by omega : c < 0)

lemma nxTrail_append_iff {σ : FWState V} {pos : V → ℕ} {b : ℕ} :
    ∀ (l₁ l₂ : List V) (x : V),
      NxTrail σ pos b x (l₁ ++ l₂) ↔
        NxTrail σ pos b x l₁ ∧ NxTrail σ pos b (l₁.getLastD x) l₂ := by
  intro l₁
  induction l₁ with
  | nil =>
    intro l₂ x
    constructor
    · intro h
      exact ⟨True.intro, h⟩
    · intro h
      exact h.2
  | cons y l₁ ih =>
    intro l₂ x
    rw [List.cons_append]
    show (σ.nx (pos x) b = some y ∧ NxTrail σ pos b y (l₁ ++ l₂)) ↔ _
    rw [ih l₂ y]
    have hlast : (y :: l₁).getLastD x = l₁.getLastD y := List.getLastD_cons _ _ _
    rw [hlast]
    show _ ↔ (σ.nx (pos x) b = some y ∧ NxTrail σ pos b y l₁) ∧ _
    tauto

lemma nxTrail_shift {σ σ' : FWState V} {pos : V → ℕ} {b m : ℕ} :
    ∀ (L : List V) (x : V),
      (∀ c, (c = x ∨ c ∈ L) → σ'.nx (pos c) b = σ.nx (pos c) m) →
      NxTrail σ' pos b x L → NxTrail σ pos m x L := by
  intro L
  induction L with
  | nil =>
    intro x _ _
    exact True.intro
  | cons y L ih =>
    intro x hagree htr
    obtain ⟨hstep, htr'⟩ := htr
    refine ⟨?_, ih y ?_ htr'⟩
    · rw [← hagree x (Or.inl rfl)]
      exact hstep
    · intro c hc
      rcases hc with rfl | hc
      · exact hagree c (Or.inr (List.mem_cons_self _ _))
      · exact hagree c (Or.inr (List.mem_cons_of_mem _ hc))

lemma nxTrail_snoc {σ : FWState V} {pos : V → ℕ} {b : ℕ} {x h : V} {L : List V}
    (htr : NxTrail σ pos b x L) (hstep : σ.nx (pos (L.getLastD x)) b = some h) :
    NxTrail σ pos b x (L ++ [h]) :=
  (nxTrail_append_iff L [h] x).mpr ⟨htr, ⟨hstep, True.intro⟩⟩

lemma nxCycle_of_revisit {σ : FWState V} {pos : V → ℕ} {b : ℕ} {u0 h : V} {pre : List V}
    (htr : NxTrail σ pos b u0 (pre ++ [h])) (hmem : h ∈ u0 :: pre)
    (hnodup : (u0 :: pre).Nodup) :
    ∃ l, NxTrail σ pos b h (l ++ [h]) ∧ (h :: l).Nodup ∧ ∀ y ∈ l, y ∈ u0 :: pre := by
  rcases List.mem_cons.mp hmem with rfl | hpre
  · exact ⟨pre, htr, hnodup, fun y hy => List.mem_cons_of_mem _ hy⟩
  · obtain ⟨s, t, rfl⟩ := List.append_of_mem hpre
    have hsplit : (s ++ h :: t) ++ [h] = (s ++ [h]) ++ (t ++ [h]) := by simp
    rw [hsplit] at htr
    have h2 := ((nxTrail_append_iff (s ++ [h]) (t ++ [h]) u0).mp htr).2
    rw [List.getLastD_concat] at h2
    refine ⟨t, h2, ?_, ?_⟩
    · have hsuf : List.IsSuffix (h :: t) (u0 :: (s ++ h :: t)) := ⟨u0 :: s, by simp⟩
      exact hnodup.sublist hsuf.sublist
    · intro y hy
      exact List.mem_cons_of_mem _ (List.mem_append_right _ (List.mem_cons_of_mem _ hy))

lemma nxTrail_rotate {σ : FWState V} {pos : V → ℕ} {b : ℕ} {x c : V} {l : List V}
    (htr : NxTrail σ pos b x (l ++ [x])) (hc : c ∈ x :: l) :
    ∃ l', NxTrail σ pos b c (l' ++ [c]) ∧ List.Perm (c :: l') (x :: l) := by
  rcases List.mem_cons.mp hc with rfl | hcl
  · exact ⟨l, htr, List.Perm.refl _⟩
  · obtain ⟨s, t, rfl⟩ := List.append_of_mem hcl
    have hsplit : (s ++ c :: t) ++ [x] = (s ++ [c]) ++ (t ++ [x]) := by simp
    rw [hsplit] at htr
    have hparts := (nxTrail_append_iff (s ++ [c]) (t ++ [x]) x).mp htr
    have h1 : NxTrail σ pos b x (s ++ [c]) := hparts.1
    have h2 : NxTrail σ pos b c (t ++ [x]) := by
      have := hparts.2
      rwa [List.getLastD_concat] at this
    refine ⟨t ++ x :: s, ?_, ?_⟩
    · have hshape : (t ++ x :: s) ++ [c] = (t ++ [x]) ++ (s ++ [c]) := by simp
      rw [hshape]
      refine (nxTrail_append_iff (t ++ [x]) (s ++ [c]) c).mpr ⟨h2, ?_⟩
      rw [List.getLastD_concat]
      exact h1
    · have e1 : c :: (t ++ x :: s) = (c :: t) ++ (x :: s) := by simp
      have e2 : x :: (s ++ c :: t) = (x :: s) ++ (c :: t) := by simp
      rw [e1, e2]
      exact List.perm_append_comm

lemma nxTrail_switch {σ : FWState V} {pos : V → ℕ} {b : ℕ} (P : V → Prop) :
    ∀ (L : List V) (x : V), NxTrail σ pos b x L → P x → ¬ P (L.getLastD x) →
      ∃ a a', P a ∧ ¬ P a' ∧ σ.nx (pos a) b = some a' ∧ (a = x ∨ a ∈ L) ∧ a' ∈ L := by
  intro L
  induction L with
  | nil =>
    intro x _ hPx hPl
    exact absurd hPx hPl
  | cons y L ih =>
    intro x htr hPx hPl
    obtain ⟨hstep, htr'⟩ := htr
    by_cases hPy : P y
    · have hl' : ¬ P (L.getLastD y) := by
        rwa [List.getLastD_cons] at hPl
      obtain ⟨a, a', h1, h2, h3, h4, h5⟩ := ih y htr' hPy hl'
      refine ⟨a, a', h1, h2, h3, ?_, List.mem_cons_of_mem _ h5⟩
      rcases h4 with rfl | h4
      · exact Or.inr (List.mem_cons_self _ _)
      · exact Or.inr (List.mem_cons_of_mem _ h4)
    · exact ⟨x, y, hPx, hPy, hstep, Or.inl rfl, List.mem_cons_self _ _⟩

lemma nxTrail_switch_mem {σ : FWState V} {pos : V → ℕ} {b : ℕ} (P : V → Prop) :
    ∀ (L : List V) (x : V), NxTrail σ pos b x L → P x →
      ∀ y ∈ L, ¬ P y →
      ∃ a a', P a ∧ ¬ P a' ∧ σ.nx (pos a) b = some a' ∧ (a = x ∨ a ∈ L) ∧ a' ∈ L := by
  intro L
  induction L with
  | nil =>
    intro x _ _ y hy
    simp at hy
  | cons z L ih =>
    intro x htr hPx y hy hPy
    obtain ⟨hstep, htr'⟩ := htr
    by_cases hPz : P z
    · rcases List.mem_cons.mp hy with rfl | hy'
      · exact absurd hPz hPy
      · obtain ⟨a, a', h1, h2, h3, h4, h5⟩ := ih z htr' hPz y hy' hPy
        refine ⟨a, a', h1, h2, h3, ?_, List.mem_cons_of_mem _ h5⟩
        rcases h4 with rfl | h4
        · exact Or.inr (List.mem_cons_self _ _)
        · exact Or.inr (List.mem_cons_of_mem _ h4)
    · exact ⟨x, z, hPx, hPz, hstep, Or.inl rfl, List.mem_cons_self _ _⟩

lemma fwInnerFold_dichotomy {σ : FWState V} {k : ℕ} (hkk : σ.dist k k = 0)
    (i : ℕ) (l : List ℕ) (a b : ℕ) :
    ((l.foldl (fun σ j => fwUpdate k i j σ) σ).dist a b = σ.dist a b ∧
      (l.foldl (fun σ j => fwUpdate k i j σ) σ).nx a b = σ.nx a b) ∨
    ((l.foldl (fun σ j => fwUpdate k i j σ) σ).dist a b = σ.dist a k + σ.dist k b ∧
      (l.foldl (fun σ j => fwUpdate k i j σ) σ).nx a b = σ.nx a k ∧
      (l.foldl (fun σ j => fwUpdate k i j σ) σ).dist a b < σ.dist a b ∧
      a ≠ k ∧ b ≠ k ∧ a = i ∧ b ∈ l) := by
  induction l generalizing σ with
  | nil => exact Or.inl ⟨rfl, rfl⟩
  | cons j l ih =>
    rw [List.foldl_cons]
    have hstab := fwUpdate_k_stable hkk i j
    have hkk' : (fwUpdate k i j σ).dist k k = 0 := by
      rw [(hstab.1 k).1]
      exact hkk
    rcases ih hkk' with ⟨hd, hn⟩ | ⟨hd, hn, hlt, hak, hbk, hai, hbl⟩
    · rcases fwUpdate_cases k i j σ a b with ⟨hd0, hn0, _⟩ | ⟨hai, hbj, hfire, hd0, hn0⟩
      · exact Or.inl ⟨hd.trans hd0, hn.trans hn0⟩
      · refine Or.inr ⟨?_, ?_, ?_, ?_, ?_, hai, by rw [hbj]; exact List.mem_cons_self _ _⟩
        · rw [hd, hd0, hai, hbj]
        · rw [hn, hn0, hai]
        · rw [hd, hd0, hai, hbj]
          exact hfire
        · intro hc
          rw [hai] at hc
          rw [hc, hkk, zero_add] at hfire
          rw [hc] at hai
          exact lt_irrefl _ hfire
        · intro hc
          rw [hbj] at hc
          rw [hc, hkk, add_zero] at hfire
          exact lt_irrefl _ hfire
    · refine Or.inr ⟨?_, ?_, ?_, hak, hbk, hai, List.mem_cons_of_mem _ hbl⟩
      · rw [hd, (hstab.1 a).1, (hstab.2 b).1]
      · rw [hn, (hstab.1 a).2]
      · exact lt_of_lt_of_le hlt (fwUpdate_dist_le k i j σ a b)

lemma fwRowFold_dichotomy {σ : FWState V} {k : ℕ} (hkk : σ.dist k k = 0)
    (l1 l2 : List ℕ) (a b : ℕ) :
    ((l1.foldl (fun σ i => l2.foldl (fun σ j => fwUpdate k i j σ) σ) σ).dist a b
        = σ.dist a b ∧
      (l1.foldl (fun σ i => l2.foldl (fun σ j => fwUpdate k i j σ) σ) σ).nx a b
        = σ.nx a b) ∨
    ((l1.foldl (fun σ i => l2.foldl (fun σ j => fwUpdate k i j σ) σ) σ).dist a b
        = σ.dist a k + σ.dist k b ∧
      (l1.foldl (fun σ i => l2.foldl (fun σ j => fwUpdate k i j σ) σ) σ).nx a b
        = σ.nx a k ∧
      (l1.foldl (fun σ i => l2.foldl (fun σ j => fwUpdate k i j σ) σ) σ).dist a b
        < σ.dist a b ∧
      a ≠ k ∧ b ≠ k ∧ a ∈ l1 ∧ b ∈ l2) := by
  induction l1 generalizing σ with
  | nil => exact Or.inl ⟨rfl, rfl⟩
  | cons i l1 ih =>
    rw [List.foldl_cons]
    have hstab := fwInnerFold_k_stable hkk i l2
    have hkk' : (l2.foldl (fun σ j => fwUpdate k i j σ) σ).dist k k = 0 := by
      rw [(hstab.1 k).1]
      exact hkk
    rcases ih hkk' with ⟨hd, hn⟩ | ⟨hd, hn, hlt, hak, hbk, hal, hbl⟩
    · rcases fwInnerFold_dichotomy hkk i l2 a b with ⟨hd0, hn0⟩ |
        ⟨hd0, hn0, hlt0, hak0, hbk0, hai0, hbl0⟩
      · exact Or.inl ⟨hd.trans hd0, hn.trans hn0⟩
      · refine Or.inr ⟨hd.trans hd0, hn.trans hn0, ?_, hak0, hbk0,
          by rw [hai0]; exact List.mem_cons_self _ _, hbl0⟩
        rw [hd]
        exact hlt0
    · refine Or.inr ⟨?_, ?_, ?_, hak, hbk, List.mem_cons_of_mem _ hal, hbl⟩
      · rw [hd, (hstab.1 a).1, (hstab.2 b).1]
      · rw [hn, (hstab.1 a).2]
      · exact lt_of_lt_of_le hlt (fwInnerFold_dist_le k i l2 σ a b)

lemma fwPhase_dichotomy {σ : FWState V} {k : ℕ} (hkk : σ.dist k k = 0)
    (n a b : ℕ) :
    ((fwPhase n k σ).dist a b = σ.dist a b ∧ (fwPhase n k σ).nx a b = σ.nx a b) ∨
    ((fwPhase n k σ).dist a b = σ.dist a k + σ.dist k b ∧
      (fwPhase n k σ).nx a b = σ.nx a k ∧
      (fwPhase n k σ).dist a b < σ.dist a b ∧
      a ≠ k ∧ b ≠ k ∧ a < n ∧ b < n) := by
  rcases fwRowFold_dichotomy hkk (List.range n) (List.range n) a b with h | ⟨h1, h2, h3, h4, h5, h6, h7⟩
  · exact Or.inl h
  · exact Or.inr ⟨h1, h2, h3, h4, h5, List.mem_range.mp h6, List.mem_range.mp h7⟩

lemma nxTrail_chain_ge {vertices : List V} {edges : List (V × V × ℤ)} {σ' : FWState V}
    (hC : FWEntryC vertices edges σ') {w : V} (hw : w ∈ vertices) :
    ∀ (L : List V) (x : V), x ∈ vertices → (∀ y ∈ L, y ∈ vertices) →
      (∀ z ∈ (x :: L).dropLast, z ≠ w) →
      NxTrail σ' (posOf vertices) (posOf vertices w) x L →
      chainWeight edges x L
          + σ'.dist (posOf vertices (L.getLastD x)) (posOf vertices w)
        ≤ σ'.dist (posOf vertices x) (posOf vertices w) := by
  intro L
  induction L with
  | nil =>
    intro x hx _ _ _
    show (0 : Weight) + σ'.dist (posOf vertices x) (posOf vertices w)
        ≤ σ'.dist (posOf vertices x) (posOf vertices w)
    rw [zero_add]
  | cons y L ih =>
    intro x hx hLmem hdrop htr
    obtain ⟨hstep, htr'⟩ := htr
    have hdl : (x :: y :: L).dropLast = x :: (y :: L).dropLast := by
      rw [List.dropLast_cons₂]
    have hxw : x ≠ w := by
      apply hdrop
      rw [hdl]
      exact List.mem_cons_self _ _
    obtain ⟨hyV, hyx, hwm, hineq⟩ := hC x hx w hw y hstep hxw
    have hdrop' : ∀ z ∈ (y :: L).dropLast, z ≠ w := by
      intro z hz
      apply hdrop
      rw [hdl]
      exact List.mem_cons_of_mem _ hz
    have hrec := ih y (hLmem y (List.mem_cons_self _ _))
      (fun z hz => hLmem z (List.mem_cons_of_mem _ hz)) hdrop' htr'
    have hlast : (y :: L).getLastD x = L.getLastD y := List.getLastD_cons _ _ _
    rw [hlast]
    show (wmin edges x y + chainWeight edges y L)
        + σ'.dist (posOf vertices (L.getLastD y)) (posOf vertices w)
      ≤ σ'.dist (posOf vertices x) (posOf vertices w)
    rw [add_assoc]
    calc wmin edges x y + (chainWeight edges y L
          + σ'.dist (posOf vertices (L.getLastD y)) (posOf vertices w))
        ≤ wmin edges x y + σ'.dist (posOf vertices y) (posOf vertices w) :=
          add_le_add_left hrec _
      _ ≤ σ'.dist (posOf vertices x) (posOf vertices w) := hineq

lemma chain_to_walk {edges : List (V × V × ℤ)} :
    ∀ (l : List V) (x : V), chainWeight edges x l ≠ ⊤ →
      ∃ p, IsWalkFrom edges x (l.getLastD x) p ∧
        ((WalkWeight p : ℤ) : Weight) = chainWeight edges x l ∧ (l ≠ [] → p ≠ []) := by
  intro l
  induction l with
  | nil =>
    intro x _
    refine ⟨[], rfl, ?_, fun hc => absurd rfl hc⟩
    show ((0 : ℤ) : Weight) = chainWeight edges x []
    rfl
  | cons y l ih =>
    intro x hne
    have hsplit : chainWeight edges x (y :: l) = wmin edges x y + chainWeight edges y l := rfl
    rw [hsplit] at hne
    obtain ⟨hw1, hw2⟩ := WithTop.add_ne_top.mp hne
    obtain ⟨w, hwmem, hwval⟩ := wmin_spec hw1
    obtain ⟨q, hq, hqw, _⟩ := ih y hw2
    have hlast : (y :: l).getLastD x = l.getLastD y := List.getLastD_cons _ _ _
    rw [hlast, hsplit]
    refine ⟨(x, y, w) :: q, ⟨hwmem, rfl, hq⟩, ?_, fun _ => by simp⟩
    rw [walkWeight_cons]
    push_cast
    rw [hqw, hwval]

lemma fwDiagFold_nx_col {vertices : List V} :
    ∀ (l : List V) (σ : FWState V), (∀ w ∈ l, w ∈ vertices) →
      (∀ a b h, σ.nx a b = some h → posOf vertices h = b ∧ h ∈ vertices) →
      ∀ a b h, (l.foldl (fwDiagStep (posOf vertices)) σ).nx a b = some h →
        posOf vertices h = b ∧ h ∈ vertices := by
  intro l
  induction l with
  | nil =>
    intro σ _ hQ
    exact hQ
  | cons v l ih =>
    intro σ hl hQ
    refine ih _ (fun w hw => hl w (List.mem_cons_of_mem _ hw)) ?_
    intro a b h hab
    by_cases hc : a = posOf vertices v ∧ b = posOf vertices v
    · have hcell : (fwDiagStep (posOf vertices) σ v).nx a b = some v := by
        show updM σ.nx (posOf vertices v) (posOf vertices v) (some v) a b = some v
        rw [hc.1, hc.2]
        exact updM_self _ _ _ _
      rw [hcell] at hab
      have hvh : v = h := by injection hab
      rw [← hvh, hc.2]
      exact ⟨rfl, hl v (List.mem_cons_self _ _)⟩
    · have hcell : (fwDiagStep (posOf vertices) σ v).nx a b = σ.nx a b := by
        show updM σ.nx (posOf vertices v) (posOf vertices v) (some v) a b = σ.nx a b
        exact updM_other _ _ _ _ hc
      rw [hcell] at hab
      exact hQ a b h hab

lemma fwEdgeFold_nx_col {vertices : List V} {edges : List (V × V × ℤ)}
    (hend : ∀ e ∈ edges, e.1 ∈ vertices ∧ e.2.1 ∈ vertices) :
    ∀ (l : List (V × V × ℤ)) (σ : FWState V), (∀ e ∈ l, e ∈ edges) →
      (∀ a b h, σ.nx a b = some h → posOf vertices h = b ∧ h ∈ vertices) →
      ∀ a b h, (l.foldl (fwEdgeStep (posOf vertices)) σ).nx a b = some h →
        posOf vertices h = b ∧ h ∈ vertices := by
  intro l
  induction l with
  | nil =>
    intro σ _ hQ
    exact hQ
  | cons e l ih =>
    intro σ hl hQ
    refine ih _ (fun f hf => hl f (List.mem_cons_of_mem _ hf)) ?_
    intro a b h hab
    by_cases hc : a = posOf vertices e.1 ∧ b = posOf vertices e.2.1
    · have hcell : (fwEdgeStep (posOf vertices) σ e).nx a b = some e.2.1 := by
        show updM σ.nx (posOf vertices e.1) (posOf vertices e.2.1) (some e.2.1) a b
          = some e.2.1
        rw [hc.1, hc.2]
        exact updM_self _ _ _ _
      rw [hcell] at hab
      have hvh : e.2.1 = h := by injection hab
      rw [← hvh, hc.2]
      exact ⟨rfl, (hend e (hl e (List.mem_cons_self _ _))).2⟩
    · have hcell : (fwEdgeStep (posOf vertices) σ e).nx a b = σ.nx a b := by
        show updM σ.nx (posOf vertices e.1) (posOf vertices e.2.1) (some e.2.1) a b
          = σ.nx a b
        exact updM_other _ _ _ _ hc
      rw [hcell] at hab
      exact hQ a b h hab

lemma fwInit_nx_col {vertices : List V} {edges : List (V × V × ℤ)}
    (hend : ∀ e ∈ edges, e.1 ∈ vertices ∧ e.2.1 ∈ vertices) :
    ∀ a b h, (fwInit vertices edges).nx a b = some h →
      posOf vertices h = b ∧ h ∈ vertices := by
  unfold fwInit
  refine fwEdgeFold_nx_col hend edges _ (fun e he => he) ?_
  refine fwDiagFold_nx_col vertices _ (fun w hw => hw) ?_
  intro a b h hc
  simp at hc

lemma fwDiagFold_offdiag {pos : V → ℕ} :
    ∀ (l : List V) (σ : FWState V) (a b : ℕ), a ≠ b →
      (l.foldl (fwDiagStep pos) σ).dist a b = σ.dist a b := by
  intro l
  induction l with
  | nil =>
    intro σ a b _
    rfl
  | cons v l ih =>
    intro σ a b hab
    rw [List.foldl_cons, ih _ a b hab]
    show updM σ.dist (pos v) (pos v) 0 a b = σ.dist a b
    apply updM_other
    intro hc
    exact hab (hc.1.trans hc.2.symm)

lemma fwEdgeFold_lb {vertices : List V} {edges : List (V × V × ℤ)}
    (hnd : vertices.Nodup)
    (hend : ∀ e ∈ edges, e.1 ∈ vertices ∧ e.2.1 ∈ vertices) :
    ∀ (l : List (V × V × ℤ)) (σ : FWState V), (∀ e ∈ l, e ∈ edges) →
      (∀ u ∈ vertices, ∀ v ∈ vertices, u ≠ v →
        wmin edges u v ≤ σ.dist (posOf vertices u) (posOf vertices v)) →
      ∀ u ∈ vertices, ∀ v ∈ vertices, u ≠ v →
        wmin edges u v ≤ (l.foldl (fwEdgeStep (posOf vertices)) σ).dist
          (posOf vertices u) (posOf vertices v) := by
  intro l
  induction l with
  | nil =>
    intro σ _ hQ
    exact hQ
  | cons e l ih =>
    intro σ hl hQ
    refine ih _ (fun f hf => hl f (List.mem_cons_of_mem _ hf)) ?_
    intro u hu v hv huv
    by_cases hc : posOf vertices u = posOf vertices e.1 ∧ posOf vertices v = posOf vertices e.2.1
    · have he : e ∈ edges := hl e (List.mem_cons_self _ _)
      have hu' : u = e.1 := pos_inj hu (hend e he).1 hc.1
      have hv' : v = e.2.1 := pos_inj hv (hend e he).2 hc.2
      have hcell : (fwEdgeStep (posOf vertices) σ e).dist
          (posOf vertices u) (posOf vertices v)
          = min (σ.dist (posOf vertices e.1) (posOf vertices e.2.1)) ((e.2.2 : ℤ) : Weight) := by
        show updM σ.dist (posOf vertices e.1) (posOf vertices e.2.1) _ _ _ = _
        rw [hc.1, hc.2]
        exact updM_self _ _ _ _
      rw [hcell]
      refine le_min ?_ ?_
      · rw [← hc.1, ← hc.2]
        exact hQ u hu v hv huv
      · have hmm : (u, v, e.2.2) = e := by
          rw [hu', hv']
        refine wmin_le ?_
        rw [hmm]
        exact he
    · have hcell : (fwEdgeStep (posOf vertices) σ e).dist
          (posOf vertices u) (posOf vertices v)
          = σ.dist (posOf vertices u) (posOf vertices v) := by
        show updM σ.dist (posOf vertices e.1) (posOf vertices e.2.1) _ _ _ = _
        exact updM_other _ _ _ _ hc
      rw [hcell]
      exact hQ u hu v hv huv

lemma fwInit_lb {vertices : List V} {edges : List (V × V × ℤ)}
    (hnd : vertices.Nodup)
    (hend : ∀ e ∈ edges, e.1 ∈ vertices ∧ e.2.1 ∈ vertices) :
    ∀ u ∈ vertices, ∀ v ∈ vertices, u ≠ v →
      wmin edges u v ≤ (fwInit vertices edges).dist (posOf vertices u) (posOf vertices v) := by
  unfold fwInit
  refine fwEdgeFold_lb hnd hend edges _ (fun e he => he) ?_
  intro u hu v hv huv
  have hne : posOf vertices u ≠ posOf vertices v := fun hc => huv (pos_inj hu hv hc)
  rw [fwDiagFold_offdiag vertices _ _ _ hne]
  exact le_top

lemma fwInit_entryC {vertices : List V} {edges : List (V × V × ℤ)}
    (hnd : vertices.Nodup) (hnn : NoNegCycle edges)
    (hend : ∀ e ∈ edges, e.1 ∈ vertices ∧ e.2.1 ∈ vertices) :
    FWEntryC vertices edges (fwInit vertices edges) := by
  intro u hu v hv h hnx hne
  obtain ⟨hpb, hhv⟩ := fwInit_nx_col hend _ _ _ hnx
  have hhvv : h = v := pos_inj hhv hv hpb
  rw [hhvv]
  have hdne : (fwInit vertices edges).dist (posOf vertices u) (posOf vertices v) ≠ ⊤ := by
    intro hc
    rw [(fwInit_consistent vertices edges (posOf vertices u) (posOf vertices v)).mpr hc]
      at hnx
    simp at hnx
  have hlb := fwInit_lb hnd hend u hu v hv hne
  refine ⟨hv, fun hc => hne hc.symm, ne_top_of_le_ne_top hdne hlb, ?_⟩
  have hdz := (fwInit_inv1 hnd hnn hend).2.2 v hv
  rw [hdz, add_zero]
  exact hlb

lemma fwInit_noCycle {vertices : List V} {edges : List (V × V × ℤ)}
    (hend : ∀ e ∈ edges, e.1 ∈ vertices ∧ e.2.1 ∈ vertices) :
    NoNxCycle vertices (fwInit vertices edges) := by
  intro b x l hx hl hxb hlb hnodup htr
  cases l with
  | nil =>
    obtain ⟨hstep, _⟩ := htr
    exact hxb (fwInit_nx_col hend _ _ _ hstep).1
  | cons y l =>
    obtain ⟨hstep, _⟩ := htr
    exact hlb y (List.mem_cons_self _ _) (fwInit_nx_col hend _ _ _ hstep).1

lemma fwPhase_entryC {vertices : List V} {edges : List (V × V × ℤ)}
    (hnd : vertices.Nodup) {σ : FWState V} {m : ℕ} (hm : m < vertices.length)
    (hin : FWInv1 vertices edges σ) (hC : FWEntryC vertices edges σ) :
    FWEntryC vertices edges (fwPhase vertices.length m σ) := by
  obtain ⟨hcons, hso, hdz⟩ := hin
  set z := vertices.get ⟨m, hm⟩
  have hzmem : z ∈ vertices := List.get_mem vertices m hm
  have hpz : posOf vertices z = m := pos_get hnd ⟨m, hm⟩
  have hkk : σ.dist m m = 0 := by
    rw [← hpz]
    exact hdz z hzmem
  intro u hu v hv h hnx hne
  rcases fwPhase_dichotomy hkk vertices.length (posOf vertices u) (posOf vertices v) with
    ⟨hd, hn⟩ | ⟨hd, hn, hlt, hak, hbk, halt, hblt⟩
  · rw [hn] at hnx
    obtain ⟨h1, h2, h3, h4⟩ := hC u hu v hv h hnx hne
    refine ⟨h1, h2, h3, ?_⟩
    rw [hd]
    calc wmin edges u h
          + (fwPhase vertices.length m σ).dist (posOf vertices h) (posOf vertices v)
        ≤ wmin edges u h + σ.dist (posOf vertices h) (posOf vertices v) :=
          add_le_add_left (fwPhase_dist_le _ _ _ _ _) _
      _ ≤ σ.dist (posOf vertices u) (posOf vertices v) := h4
  · rw [hn] at hnx
    have hnx' : σ.nx (posOf vertices u) (posOf vertices z) = some h := by
      rw [hpz]
      exact hnx
    have huz : u ≠ z := by
      intro hc
      apply hak
      rw [hc, hpz]
    obtain ⟨h1, h2, h3, h4⟩ := hC u hu z hzmem h hnx' huz
    rw [hpz] at h4
    refine ⟨h1, h2, h3, ?_⟩
    rw [hd]
    have hub : (fwPhase vertices.length m σ).dist (posOf vertices h) (posOf vertices v)
        ≤ σ.dist (posOf vertices h) m + σ.dist m (posOf vertices v) :=
      fwPhase_ub hkk (pos_lt_length h1) (pos_lt_length hv)
    calc wmin edges u h
          + (fwPhase vertices.length m σ).dist (posOf vertices h) (posOf vertices v)
        ≤ wmin edges u h + (σ.dist (posOf vertices h) m + σ.dist m (posOf vertices v)) :=
          add_le_add_left hub _
      _ = (wmin edges u h + σ.dist (posOf vertices h) m) + σ.dist m (posOf vertices v) := by
          rw [add_assoc]
      _ ≤ σ.dist (posOf vertices u) m + σ.dist m (posOf vertices v) :=
          add_le_add_right h4 _

lemma fwPhase_noCycle {vertices : List V} {edges : List (V × V × ℤ)}
    (hnd : vertices.Nodup) (hnn : NoNegCycle edges)
    {σ : FWState V} {m : ℕ} (hm : m < vertices.length)
    (hin : FWInv1 vertices edges σ) (hC : FWEntryC vertices edges σ)
    (hNC : NoNxCycle vertices σ) :
    NoNxCycle vertices (fwPhase vertices.length m σ) := by
  obtain ⟨hcons, hso, hdz⟩ := hin
  set z := vertices.get ⟨m, hm⟩
  have hzmem : z ∈ vertices := List.get_mem vertices m hm
  have hpz : posOf vertices z = m := pos_get hnd ⟨m, hm⟩
  have hkk : σ.dist m m = 0 := by
    rw [← hpz]
    exact hdz z hzmem
  have hC' : FWEntryC vertices edges (fwPhase vertices.length m σ) :=
    fwPhase_entryC hnd hm ⟨hcons, hso, hdz⟩ hC
  have hcons' : FWConsistent (fwPhase vertices.length m σ) :=
    fwPhase_consistent hcons vertices.length m
  set σ2 := fwPhase vertices.length m σ
  intro b x l hx hl hxb hlb hnodup htr
  have hdich := fun c => fwPhase_dichotomy hkk vertices.length (posOf vertices c) b
  have hmem' : ∀ c, (c = x ∨ c ∈ l ++ [x]) → (c = x ∨ c ∈ l) := by
    intro c hc
    rcases hc with rfl | hc
    · exact Or.inl rfl
    · rcases List.mem_append.mp hc with h | h
      · exact Or.inr h
      · exact Or.inl (List.mem_singleton.mp h)
  have hmem2 : ∀ c, (c = x ∨ c ∈ l ++ [x]) → c ∈ x :: l := by
    intro c hc
    rcases hmem' c hc with rfl | h
    · exact List.mem_cons_self _ _
    · exact List.mem_cons_of_mem _ h
  by_cases hbge : vertices.length ≤ b
  · apply hNC b x l hx hl hxb hlb hnodup
    refine nxTrail_shift (l ++ [x]) x ?_ htr
    intro c hc
    rcases hdich c with ⟨_, hn⟩ | ⟨_, _, _, _, _, _, hblt⟩
    · exact hn
    · exact absurd hblt (not_lt.mpr hbge)
  push_neg at hbge
  set w := vertices.get ⟨b, hbge⟩
  have hwmem : w ∈ vertices := List.get_mem vertices b hbge
  have hpw : posOf vertices w = b := pos_get hnd ⟨b, hbge⟩
  by_cases hall : ∀ c, (c = x ∨ c ∈ l) →
      (σ2.dist (posOf vertices c) b = σ.dist (posOf vertices c) b ∧
        σ2.nx (posOf vertices c) b = σ.nx (posOf vertices c) b)
  · apply hNC b x l hx hl hxb hlb hnodup
    refine nxTrail_shift (l ++ [x]) x ?_ htr
    intro c hc
    exact (hall c (hmem' c hc)).2
  by_cases hallN : ∀ c, (c = x ∨ c ∈ l) →
      ¬ (σ2.dist (posOf vertices c) b = σ.dist (posOf vertices c) b ∧
        σ2.nx (posOf vertices c) b = σ.nx (posOf vertices c) b)
  · have hfired : ∀ c, (c = x ∨ c ∈ l) →
        σ2.nx (posOf vertices c) b = σ.nx (posOf vertices c) m ∧
        posOf vertices c ≠ m := by
      intro c hc
      rcases hdich c with hP | ⟨_, hn, _, hak, _, _, _⟩
      · exact absurd hP (hallN c hc)
      · exact ⟨hn, hak⟩
    apply hNC m x l hx hl (hfired x (Or.inl rfl)).2
      (fun y hy => (hfired y (Or.inr hy)).2) hnodup
    refine nxTrail_shift (l ++ [x]) x ?_ htr
    intro c hc
    exact (hfired c (hmem' c hc)).1
  obtain ⟨cN, hcN⟩ := not_forall.mp hall
  obtain ⟨hcNmem, hcNnp⟩ := Classical.not_imp.mp hcN
  obtain ⟨cP, hcP⟩ := not_forall.mp hallN
  obtain ⟨hcPmem, hcPp0⟩ := Classical.not_imp.mp hcP
  have hcPp := not_not.mp hcPp0
  have hVmem : ∀ c ∈ x :: l, c ∈ vertices := by
    intro c hc
    rcases List.mem_cons.mp hc with rfl | h
    · exact hx
    · exact hl c h
  have hrow : ∀ c ∈ x :: l, posOf vertices c ≠ b := by
    intro c hc
    rcases List.mem_cons.mp hc with rfl | h
    · exact hxb
    · exact hlb c h
  have hswitch : ∃ a a',
      (σ2.dist (posOf vertices a) b = σ.dist (posOf vertices a) b ∧
        σ2.nx (posOf vertices a) b = σ.nx (posOf vertices a) b) ∧
      ¬ (σ2.dist (posOf vertices a') b = σ.dist (posOf vertices a') b ∧
        σ2.nx (posOf vertices a') b = σ.nx (posOf vertices a') b) ∧
      σ2.nx (posOf vertices a) b = some a' ∧ a ∈ x :: l ∧ a' ∈ x :: l := by
    by_cases hPx : σ2.dist (posOf vertices x) b = σ.dist (posOf vertices x) b ∧
        σ2.nx (posOf vertices x) b = σ.nx (posOf vertices x) b
    · have hcNl : cN ∈ l := by
        rcases hcNmem with rfl | h
        · exact absurd hPx hcNnp
        · exact h
      obtain ⟨a, a', h1, h2, h3, h4, h5⟩ :=
        nxTrail_switch_mem
          (fun c => σ2.dist (posOf vertices c) b = σ.dist (posOf vertices c) b ∧
            σ2.nx (posOf vertices c) b = σ.nx (posOf vertices c) b)
          (l ++ [x]) x htr hPx cN (List.mem_append_left _ hcNl) hcNnp
      exact ⟨a, a', h1, h2, h3, hmem2 a h4, hmem2 a' (Or.inr h5)⟩
    · have hcPl : cP ∈ l := by
        rcases hcPmem with rfl | h
        · exact absurd hcPp hPx
        · exact h
      obtain ⟨s, t, hlsplit⟩ := List.append_of_mem hcPl
      have htr2 : NxTrail σ2 (posOf vertices) b x ((s ++ [cP]) ++ (t ++ [x])) := by
        have hshape : l ++ [x] = (s ++ [cP]) ++ (t ++ [x]) := by
          rw [hlsplit]
          simp
        rw [← hshape]
        exact htr
      have htrSuf : NxTrail σ2 (posOf vertices) b cP (t ++ [x]) := by
        have h2 := ((nxTrail_append_iff (s ++ [cP]) (t ++ [x]) x).mp htr2).2
        rwa [List.getLastD_concat] at h2
      obtain ⟨a, a', h1, h2, h3, h4, h5⟩ :=
        nxTrail_switch
          (fun c => σ2.dist (posOf vertices c) b = σ.dist (posOf vertices c) b ∧
            σ2.nx (posOf vertices c) b = σ.nx (posOf vertices c) b)
          (t ++ [x]) cP htrSuf hcPp (by rw [List.getLastD_concat]; exact hPx)
      have hmem3 : ∀ c, (c = cP ∨ c ∈ t ++ [x]) → c ∈ x :: l := by
        intro c hc
        rcases hc with rfl | hc
        · exact List.mem_cons_of_mem _ hcPl
        · rcases List.mem_append.mp hc with h | h
          · refine List.mem_cons_of_mem _ ?_
            rw [hlsplit]
            exact List.mem_append_right _ (List.mem_cons_of_mem _ h)
          · rw [List.mem_singleton.mp h]
            exact List.mem_cons_self _ _
      exact ⟨a, a', h1, h2, h3, hmem3 a h4, hmem3 a' (Or.inr h5)⟩
  obtain ⟨a0, a1, hPa0, hPa1, hstep01, ha0mem, ha1mem⟩ := hswitch
  have hfired1 : σ2.dist (posOf vertices a1) b < σ.dist (posOf vertices a1) b := by
    rcases hdich a1 with hP | ⟨_, _, hlt, _, _, _, _⟩
    · exact absurd hP hPa1
    · exact hlt
  have ha0V := hVmem a0 ha0mem
  have ha1V := hVmem a1 ha1mem
  have ha0w : a0 ≠ w := by
    intro hc
    apply hrow a0 ha0mem
    rw [hc, hpw]
  have hnxa0 : σ.nx (posOf vertices a0) (posOf vertices w) = some a1 := by
    rw [hpw, ← hPa0.2]
    exact hstep01
  obtain ⟨_, _, hwm01, hineq01⟩ := hC a0 ha0V w hwmem a1 hnxa0 ha0w
  rw [hpw] at hineq01
  have hstrict : wmin edges a0 a1 + σ2.dist (posOf vertices a1) b
      < σ2.dist (posOf vertices a0) b := by
    calc wmin edges a0 a1 + σ2.dist (posOf vertices a1) b
        < wmin edges a0 a1 + σ.dist (posOf vertices a1) b :=
          WithTop.add_lt_add_left hwm01 hfired1
      _ ≤ σ.dist (posOf vertices a0) b := hineq01
      _ = σ2.dist (posOf vertices a0) b := hPa0.1.symm
  obtain ⟨l', htr0, hperm⟩ := nxTrail_rotate htr ha0mem
  cases l' with
  | nil =>
    obtain ⟨hstep0, _⟩ := htr0
    rw [hstep01] at hstep0
    have ha10 : a1 = a0 := by injection hstep0
    rw [ha10] at hPa1
    exact hPa1 hPa0
  | cons y l'' =>
    obtain ⟨hstep0, htr1⟩ := htr0
    have hy1 : y = a1 := by
      rw [hstep01] at hstep0
      exact (Option.some.inj hstep0).symm
    subst hy1
    have hcycMem : ∀ c, c ∈ a0 :: y :: l'' → c ∈ x :: l := by
      intro c hc
      exact (hperm.mem_iff).mp hc
    have htail_mem : ∀ c ∈ l'' ++ [a0], c ∈ vertices := by
      intro c hc
      refine hVmem c (hcycMem c ?_)
      rcases List.mem_append.mp hc with h | h
      · exact List.mem_cons_of_mem _ (List.mem_cons_of_mem _ h)
      · rw [List.mem_singleton.mp h]
        exact List.mem_cons_self _ _
    have hdropne : ∀ cc ∈ (y :: (l'' ++ [a0])).dropLast, cc ≠ w := by
      have hshape : (y :: (l'' ++ [a0])).dropLast = y :: l'' := by
        rw [show y :: (l'' ++ [a0]) = (y :: l'') ++ [a0] from rfl, List.dropLast_concat]
      rw [hshape]
      intro cc hcc hcw
      apply hrow cc (hcycMem cc (List.mem_cons_of_mem _ hcc))
      rw [hcw, hpw]
    rw [← hpw] at htr1
    have htele := nxTrail_chain_ge hC' hwmem (l'' ++ [a0]) y
      (hVmem y (hcycMem y (List.mem_cons_of_mem _ (List.mem_cons_self _ _))))
      htail_mem hdropne htr1
    rw [List.getLastD_concat, hpw] at htele
    have hfin0 : σ2.dist (posOf vertices a0) b ≠ ⊤ := by
      intro hc
      rw [(hcons' (posOf vertices a0) b).mpr hc] at hstep01
      simp at hstep01
    have hneg : chainWeight edges a0 (y :: (l'' ++ [a0]))
        + σ2.dist (posOf vertices a0) b < σ2.dist (posOf vertices a0) b := by
      show (wmin edges a0 y + chainWeight edges y (l'' ++ [a0]))
          + σ2.dist (posOf vertices a0) b < σ2.dist (posOf vertices a0) b
      rw [add_assoc]
      calc wmin edges a0 y + (chainWeight edges y (l'' ++ [a0])
            + σ2.dist (posOf vertices a0) b)
          ≤ wmin edges a0 y + σ2.dist (posOf vertices y) b := add_le_add_left htele _
        _ < σ2.dist (posOf vertices a0) b := hstrict
    have hcwneg : chainWeight edges a0 (y :: (l'' ++ [a0])) < 0 :=
      neg_of_add_lt_self hfin0 hneg
    obtain ⟨p, hwalk, hpw2, hpne⟩ := chain_to_walk (y :: (l'' ++ [a0])) a0
      (ne_top_of_lt' hcwneg)
    have hlastrw : (y :: (l'' ++ [a0])).getLastD a0 = a0 := by
      rw [show y :: (l'' ++ [a0]) = (y :: l'') ++ [a0] from rfl, List.getLastD_concat]
    rw [hlastrw] at hwalk
    have hWneg : WalkWeight p < 0 := by
      have hcast : ((WalkWeight p : ℤ) : Weight) < 0 := by
        rw [hpw2]
        exact hcwneg
      exact_mod_cast hcast
    have := hnn a0 p hwalk (hpne (by simp))
    omega

lemma fwRun_entryC_noCycle {vertices : List V} {edges : List (V × V × ℤ)}
    (hnd : vertices.Nodup) (hnn : NoNegCycle edges)
    (hend : ∀ e ∈ edges, e.1 ∈ vertices ∧ e.2.1 ∈ vertices) :
    ∀ m, m ≤ vertices.length →
      FWEntryC vertices edges ((List.range m).foldl
        (fun σ k => fwPhase vertices.length k σ) (fwInit vertices edges)) ∧
      NoNxCycle vertices ((List.range m).foldl
        (fun σ k => fwPhase vertices.length k σ) (fwInit vertices edges)) := by
  intro m
  induction m with
  | zero =>
    intro _
    exact ⟨fwInit_entryC hnd hnn hend, fwInit_noCycle hend⟩
  | succ m ih =>
    intro hm
    have hmlt : m < vertices.length := Nat.lt_of_succ_le hm
    obtain ⟨hC, hNC⟩ := ih (le_of_lt hmlt)
    have hinv := (fwRun_inv1_ubound hnd hnn hend m (le_of_lt hmlt)).1
    rw [List.range_succ, List.foldl_append, List.foldl_cons, List.foldl_nil]
    exact ⟨fwPhase_entryC hnd hmlt hinv hC, fwPhase_noCycle hnd hnn hmlt hinv hC hNC⟩

lemma fw_final_entryC {vertices : List V} {edges : List (V × V × ℤ)}
    (hnd : vertices.Nodup) (hnn : NoNegCycle edges)
    (hend : ∀ e ∈ edges, e.1 ∈ vertices ∧ e.2.1 ∈ vertices) :
    FWEntryC vertices edges (fwRun vertices.length (fwInit vertices edges)) :=
  (fwRun_entryC_noCycle hnd hnn hend vertices.length (le_refl _)).1

lemma fw_final_noCycle {vertices : List V} {edges : List (V × V × ℤ)}
    (hnd : vertices.Nodup) (hnn : NoNegCycle edges)
    (hend : ∀ e ∈ edges, e.1 ∈ vertices ∧ e.2.1 ∈ vertices) :
    NoNxCycle vertices (fwRun vertices.length (fwInit vertices edges)) :=
  (fwRun_entryC_noCycle hnd hnn hend vertices.length (le_refl _)).2

lemma nx_chain_build {vertices : List V} {edges : List (V × V × ℤ)}
    (hnd : vertices.Nodup) {σ : FWState V}
    (hcons : FWConsistent σ) (hC : FWEntryC vertices edges σ)
    (hNC : NoNxCycle vertices σ) {v : V} (hv : v ∈ vertices) :
    ∀ (n : ℕ) (x u0 : V) (pre : List V),
      vertices.length ≤ n + (u0 :: pre).length →
      x ∈ vertices → x ≠ v → u0 ∈ vertices → u0 ≠ v →
      (∀ y ∈ pre, y ∈ vertices ∧ y ≠ v) →
      NxTrail σ (posOf vertices) (posOf vertices v) u0 pre →
      pre.getLastD u0 = x →
      (u0 :: pre).Nodup →
      σ.dist (posOf vertices x) (posOf vertices v) ≠ ⊤ →
      ∃ mid, NxTrail σ (posOf vertices) (posOf vertices v) x (mid ++ [v]) ∧
        (∀ y ∈ mid, y ∈ vertices ∧ y ≠ v) ∧
        mid.length + (u0 :: pre).length ≤ vertices.length := by
  intro n
  induction n with
  | zero =>
    intro x u0 pre hlen hx hxv hu0 hu0v hpre htrail hlast hnodup hfin
    have hnx : σ.nx (posOf vertices x) (posOf vertices v) ≠ none := by
      intro hc
      exact hfin ((hcons _ _).mp hc)
    rcases hcase : σ.nx (posOf vertices x) (posOf vertices v) with _ | h
    · exact absurd hcase hnx
    obtain ⟨hhV, hhx, hwm, hineq⟩ := hC x hx v hv h hcase hxv
    have hsubset : ∀ c ∈ u0 :: pre, c ∈ vertices := by
      intro c hc
      rcases List.mem_cons.mp hc with rfl | hcp
      · exact hu0
      · exact (hpre c hcp).1
    have hsub : List.Subperm (u0 :: pre) vertices :=
      List.subperm_of_subset hnodup hsubset
    by_cases hhv : h = v
    · subst hhv
      refine ⟨[], ⟨hcase, True.intro⟩, fun y hy => absurd hy (List.not_mem_nil _), ?_⟩
      have hle := hsub.length_le
      simpa using hle
    · exfalso
      have hhmem : h ∈ u0 :: pre := by
        have hperm : List.Perm (u0 :: pre) vertices :=
          hsub.perm_of_length_le (by simpa using hlen)
        exact (hperm.mem_iff).mpr hhV
      have htrail2 : NxTrail σ (posOf vertices) (posOf vertices v) u0 (pre ++ [h]) := by
        refine nxTrail_snoc htrail ?_
        rw [hlast]
        exact hcase
      obtain ⟨lc, hlc, hlcnd, hlcmem⟩ := nxCycle_of_revisit htrail2 hhmem hnodup
      refine hNC (posOf vertices v) h lc hhV ?_ ?_ ?_ hlcnd hlc
      · intro y hy
        exact hsubset y (hlcmem y hy)
      · intro hc
        exact hhv (pos_inj hhV hv hc)
      · intro y hy
        intro hc
        rcases List.mem_cons.mp (hlcmem y hy) with rfl | hyp
        · exact hu0v (pos_inj hu0 hv hc)
        · exact (hpre y hyp).2 (pos_inj (hpre y hyp).1 hv hc)
  | succ n ih =>
    intro x u0 pre hlen hx hxv hu0 hu0v hpre htrail hlast hnodup hfin
    have hnx : σ.nx (posOf vertices x) (posOf vertices v) ≠ none := by
      intro hc
      exact hfin ((hcons _ _).mp hc)
    rcases hcase : σ.nx (posOf vertices x) (posOf vertices v) with _ | h
    · exact absurd hcase hnx
    obtain ⟨hhV, hhx, hwm, hineq⟩ := hC x hx v hv h hcase hxv
    have hsubset : ∀ c ∈ u0 :: pre, c ∈ vertices := by
      intro c hc
      rcases List.mem_cons.mp hc with rfl | hcp
      · exact hu0
      · exact (hpre c hcp).1
    by_cases hhv : h = v
    · subst hhv
      refine ⟨[], ⟨hcase, True.intro⟩, fun y hy => absurd hy (List.not_mem_nil _), ?_⟩
      have hsub : List.Subperm (u0 :: pre) vertices :=
        List.subperm_of_subset hnodup hsubset
      have hle := hsub.length_le
      simpa using hle
    · have htrail2 : NxTrail σ (posOf vertices) (posOf vertices v) u0 (pre ++ [h]) := by
        refine nxTrail_snoc htrail ?_
        rw [hlast]
        exact hcase
      by_cases hhmem : h ∈ u0 :: pre
      · exfalso
        obtain ⟨lc, hlc, hlcnd, hlcmem⟩ := nxCycle_of_revisit htrail2 hhmem hnodup
        refine hNC (posOf vertices v) h lc hhV ?_ ?_ ?_ hlcnd hlc
        · intro y hy
          exact hsubset y (hlcmem y hy)
        · intro hc
          exact hhv (pos_inj hhV hv hc)
        · intro y hy
          intro hc
          rcases List.mem_cons.mp (hlcmem y hy) with rfl | hyp
          · exact hu0v (pos_inj hu0 hv hc)
          · exact (hpre y hyp).2 (pos_inj (hpre y hyp).1 hv hc)
      · have hfin' : σ.dist (posOf vertices h) (posOf vertices v) ≠ ⊤ := by
          intro hc
          rw [hc, add_top] at hineq
          exact hfin (top_le_iff.mp hineq)
        have hlen' : vertices.length ≤ n + (u0 :: (pre ++ [h])).length := by
          simp only [List.length_cons, List.length_append, List.length_singleton,
            List.length_nil] at hlen ⊢
          omega
        have hpre' : ∀ y ∈ pre ++ [h], y ∈ vertices ∧ y ≠ v := by
          intro y hy
          rcases List.mem_append.mp hy with hyp | hyx
          · exact hpre y hyp
          · rw [List.mem_singleton.mp hyx]
            exact ⟨hhV, hhv⟩
        have hlast' : (pre ++ [h]).getLastD u0 = h := List.getLastD_concat _ _ _
        have hnodup' : (u0 :: (pre ++ [h])).Nodup := by
          rw [show u0 :: (pre ++ [h]) = (u0 :: pre) ++ [h] from rfl]
          rw [List.nodup_append]
          refine ⟨hnodup, List.nodup_singleton _, ?_⟩
          intro c hc hc2
          rw [List.mem_singleton.mp hc2] at hc
          exact hhmem hc
        obtain ⟨mid, hmtr, hmmem, hmlen⟩ :=
          ih h u0 (pre ++ [h]) hlen' hhV hhv hu0 hu0v hpre' htrail2 hlast' hnodup' hfin'
        refine ⟨h :: mid, ⟨hcase, hmtr⟩, ?_, ?_⟩
        · intro y hy
          rcases List.mem_cons.mp hy with rfl | hym
          · exact ⟨hhV, hhv⟩
          · exact hmmem y hym
        · simp only [List.length_cons, List.length_append, List.length_singleton,
            List.length_nil] at hmlen ⊢
          omega

lemma reconstructLoop_step {pos : V → ℕ} {nx : ℕ → ℕ → Option V} {v x u' : V}
    {fuel : ℕ} (hxv : x ≠ v) (hnx : nx (pos x) (pos v) = some u') (path : List V) :
    reconstructLoop pos nx v (fuel + 1) x path
      = reconstructLoop pos nx v fuel u' (path ++ [u']) := by
  show (if x = v then some path
    else match fuel + 1 with
      | 0 => none
      | fuel' + 1 =>
        match nx (pos x) (pos v) with
        | none => none
        | some u2 => reconstructLoop pos nx v fuel' u2 (path ++ [u2])) = _
  rw [if_neg hxv, hnx]

lemma reconstructLoop_of_trail {vertices : List V} {σ : FWState V} {v : V} :
    ∀ (mid : List V) (x : V) (acc : List V) (fuel : ℕ),
      mid.length < fuel →
      (∀ y ∈ mid, y ≠ v) → x ≠ v →
      NxTrail σ (posOf vertices) (posOf vertices v) x (mid ++ [v]) →
      reconstructLoop (posOf vertices) σ.nx v fuel x acc = some ((acc ++ mid) ++ [v]) := by
  intro mid
  induction mid with
  | nil =>
    intro x acc fuel hfuel hmem hxv htr
    obtain ⟨hstep, _⟩ := htr
    cases fuel with
    | zero => exact (Nat.not_lt_zero _ hfuel).elim
    | succ fuel =>
      rw [reconstructLoop_step hxv hstep, reconstructLoop_self]
      simp
  | cons y mid ih =>
    intro x acc fuel hfuel hmem hxv htr
    obtain ⟨hstep, htr'⟩ := htr
    cases fuel with
    | zero => exact (Nat.not_lt_zero _ hfuel).elim
    | succ fuel =>
      rw [reconstructLoop_step hxv hstep]
      have hyv : y ≠ v := hmem y (List.mem_cons_self _ _)
      have hrec := ih y (acc ++ [y]) fuel
        (by simp only [List.length_cons] at hfuel; omega)
        (fun z hz => hmem z (List.mem_cons_of_mem _ hz)) hyv htr'
      rw [hrec]
      simp

/-- C5: on a graph without negative cycles, for every ordered pair of graph
vertices whose Floyd-Warshall distance entry is finite, `reconstruct_path`
(run with enough fuel for its unguarded `while` loop, `|V|` steps always
sufficing) returns a vertex sequence that starts at `u`, ends at `v`, and
whose total weight — the sum over consecutive pairs of the minimum direct
edge weight used by the matrices — equals the distance entry. -/
theorem reconstruct_path_shortest {vertices : List V} {edges : List (V × V × ℤ)}
    {u v : V} (hnd : vertices.Nodup) (hnn : NoNegCycle edges)
    (hend : ∀ e ∈ edges, e.1 ∈ vertices ∧ e.2.1 ∈ vertices)
    (hu : u ∈ vertices) (hv : v ∈ vertices)
    (hfin : (floyd_warshall vertices edges).1 (posOf vertices u) (posOf vertices v) ≠ ⊤)
    {fuel : ℕ} (hfuel : vertices.length ≤ fuel) :
    ∃ rest, reconstruct_path u v vertices (floyd_warshall vertices edges).2.1
        (floyd_warshall vertices edges).2.2 fuel = some (u :: rest) ∧
      rest.getLastD u = v ∧
      chainWeight edges u rest
        = (floyd_warshall vertices edges).1 (posOf vertices u) (posOf vertices v) := by
  have hcons := fw_consistent vertices edges
  have hC := fw_final_entryC hnd hnn hend
  have hNC := fw_final_noCycle hnd hnn hend
  have hinv := fw_final_inv1 hnd hnn hend
  simp only [floyd_warshall] at hfin ⊢
  by_cases huv : u = v
  · subst huv
    have hnx : (fwRun vertices.length (fwInit vertices edges)).nx
        (posOf vertices u) (posOf vertices u) ≠ none := by
      intro hc
      exact hfin ((hcons _ _).mp hc)
    refine ⟨[], ?_, rfl, ?_⟩
    · unfold reconstruct_path
      rw [if_neg hnx]
      exact reconstructLoop_self _ _ _ _ _
    · have hdz := hinv.2.2 u hu
      rw [hdz]
      rfl
  · have hnx : (fwRun vertices.length (fwInit vertices edges)).nx
        (posOf vertices u) (posOf vertices v) ≠ none := by
      intro hc
      exact hfin ((hcons _ _).mp hc)
    obtain ⟨mid, hmtr, hmmem, hmlen⟩ := nx_chain_build hnd hcons hC hNC hv
      vertices.length u u []
      (by simp) hu huv hu huv (fun y hy => absurd hy (List.not_mem_nil _))
      True.intro rfl (List.nodup_singleton _) hfin
    have hmlen' : mid.length + 1 ≤ vertices.length := by simpa using hmlen
    have hres : reconstructLoop (posOf vertices)
        (fwRun vertices.length (fwInit vertices edges)).nx v fuel u [u]
        = some (([u] ++ mid) ++ [v]) :=
      reconstructLoop_of_trail mid u [u] fuel (by omega)
        (fun y hy => (hmmem y hy).2) huv hmtr
    refine ⟨mid ++ [v], ?_, List.getLastD_concat _ _ _, ?_⟩
    · unfold reconstruct_path
      rw [if_neg hnx, hres]
      simp
    · have hdelta := fw_dist_eq_delta hnd hnn hend hu hv
      have hdrop : ∀ z ∈ (u :: (mid ++ [v])).dropLast, z ≠ v := by
        rw [show u :: (mid ++ [v]) = (u :: mid) ++ [v] from rfl, List.dropLast_concat]
        intro z hz
        rcases List.mem_cons.mp hz with rfl | hzm
        · exact huv
        · exact (hmmem z hzm).2
      have htele := nxTrail_chain_ge hC hv (mid ++ [v]) u hu
        (fun y hy => by
          rcases List.mem_append.mp hy with h | h
          · exact (hmmem y h).1
          · rw [List.mem_singleton.mp h]
            exact hv) hdrop hmtr
      rw [List.getLastD_concat] at htele
      have hdzv := hinv.2.2 v hv
      rw [hdzv, add_zero] at htele
      have hcwfin : chainWeight edges u (mid ++ [v]) ≠ ⊤ := ne_top_of_le_ne_top hfin htele
      obtain ⟨p, hwalk, hpweq, _⟩ := chain_to_walk (mid ++ [v]) u hcwfin
      rw [List.getLastD_concat] at hwalk
      have hle2 : (fwRun vertices.length (fwInit vertices edges)).dist
          (posOf vertices u) (posOf vertices v) ≤ chainWeight edges u (mid ++ [v]) := by
        rw [hdelta, ← hpweq]
        exact deltaW_le_walk hnn hend hu hwalk
      exact le_antisymm htele hle2

set_option maxRecDepth 20000

/-- Witness for C5 on the concrete scenario of the specification. -/
theorem reconstruct_path_shortest_witness :
    (["A", "B", "C"] : List String).Nodup ∧
    (∀ e ∈ ([("A", "B", 1), ("B", "A", 1), ("B", "C", 2), ("C", "B", 2),
        ("A", "C", 4), ("C", "A", 4)] : List (String × String × ℤ)),
      e.1 ∈ ["A", "B", "C"] ∧ e.2.1 ∈ ["A", "B", "C"]) ∧
    ((floyd_warshall ["A", "B", "C"]
        [("A", "B", 1), ("B", "A", 1), ("B", "C", 2), ("C", "B", 2),
          ("A", "C", 4), ("C", "A", 4)]).1
      (posOf ["A", "B", "C"] "A") (posOf ["A", "B", "C"] "C") ≠ ⊤) ∧
    (∃ rest, reconstruct_path "A" "C" ["A", "B", "C"]
        (floyd_warshall ["A", "B", "C"]
          [("A", "B", 1), ("B", "A", 1), ("B", "C", 2), ("C", "B", 2),
            ("A", "C", 4), ("C", "A", 4)]).2.1
        (floyd_warshall ["A", "B", "C"]
          [("A", "B", 1), ("B", "A", 1), ("B", "C", 2), ("C", "B", 2),
            ("A", "C", 4), ("C", "A", 4)]).2.2 3 = some ("A" :: rest) ∧
      rest.getLastD "A" = "C" ∧
      chainWeight [("A", "B", 1), ("B", "A", 1), ("B", "C", 2), ("C", "B", 2),
          ("A", "C", 4), ("C", "A", 4)] "A" rest
        = (floyd_warshall ["A", "B", "C"]
            [("A", "B", 1), ("B", "A", 1), ("B", "C", 2), ("C", "B", 2),
              ("A", "C", 4), ("C", "A", 4)]).1
          (posOf ["A", "B", "C"] "A") (posOf ["A", "B", "C"] "C")) :=
  ⟨by decide, by decide, by decide,
    reconstruct_path_shortest (by decide)
      (fun z c hc hne => walkWeight_nonneg (by decide) hc)
      (by decide) (by decide) (by decide) (by decide) (by decide)⟩

lemma reaches_single {E : List (V × V × ℤ)} {e : V × V × ℤ} (he : e ∈ E) :
    Reaches E e.1 e.2.1 :=
  ⟨[e], he, rfl, rfl⟩

lemma walk_transport {E F : List (V × V × ℤ)} :
    ∀ {p : List (V × V × ℤ)} {x y : V}, IsWalkFrom E x y p → (∀ h ∈ p, h ∈ F) →
      IsWalkFrom F x y p := by
  intro p
  induction p with
  | nil =>
    intro x y hw _
    exact hw
  | cons e q ih =>
    intro x y hw hmem
    obtain ⟨he, hx, hw'⟩ := hw
    exact ⟨hmem e (List.mem_cons_self _ _), hx,
      ih hw' (fun h hh => hmem h (List.mem_cons_of_mem _ hh))⟩

lemma reaches_mono_endpoints {E F : List (V × V × ℤ)}
    (hall : ∀ e ∈ E, Reaches F e.1 e.2.1) :
    ∀ {x y : V}, Reaches E x y → Reaches F x y := by
  intro x y hr
  obtain ⟨p, hp⟩ := hr
  induction p generalizing x with
  | nil => exact hp ▸ reaches_self
  | cons e q ih =>
    obtain ⟨he, hx, hw'⟩ := hp
    refine Reaches.trans ?_ (ih hw')
    have h1 := hall e he
    rw [hx] at h1
    exact h1

lemma swapE_swapE (e : V × V × ℤ) : swapE (swapE e) = e := rfl

lemma mem_symCl_iff {T : List (V × V × ℤ)} {e : V × V × ℤ} :
    e ∈ symCl T ↔ e ∈ T ∨ swapE e ∈ T := by
  unfold symCl
  rw [List.mem_append, List.mem_map]
  constructor
  · rintro (h | ⟨f, hf, rfl⟩)
    · exact Or.inl h
    · refine Or.inr ?_
      rw [swapE_swapE]
      exact hf
  · rintro (h | h)
    · exact Or.inl h
    · exact Or.inr ⟨swapE e, h, swapE_swapE e⟩

lemma symCl_swap_closed {T : List (V × V × ℤ)} {e : V × V × ℤ} (he : e ∈ symCl T) :
    swapE e ∈ symCl T := by
  rcases mem_symCl_iff.mp he with h | h
  · refine mem_symCl_iff.mpr (Or.inr ?_)
    rw [swapE_swapE]
    exact h
  · exact mem_symCl_iff.mpr (Or.inl h)

lemma symCl_mono {A B : List (V × V × ℤ)} (hsub : ∀ e ∈ A, e ∈ B) {h : V × V × ℤ}
    (hh : h ∈ symCl A) : h ∈ symCl B := by
  rcases mem_symCl_iff.mp hh with h1 | h1
  · exact mem_symCl_iff.mpr (Or.inl (hsub _ h1))
  · exact mem_symCl_iff.mpr (Or.inr (hsub _ h1))

lemma symCl_sub_of_memU {A B : List (V × V × ℤ)}
    (hsub : ∀ e ∈ A, e ∈ B ∨ swapE e ∈ B) :
    ∀ h ∈ symCl A, h ∈ symCl B := by
  intro h hh
  rcases mem_symCl_iff.mp hh with h1 | h1
  · rcases hsub _ h1 with h2 | h2
    · exact mem_symCl_iff.mpr (Or.inl h2)
    · exact mem_symCl_iff.mpr (Or.inr h2)
  · rcases hsub _ h1 with h2 | h2
    · exact mem_symCl_iff.mpr (Or.inr h2)
    · refine mem_symCl_iff.mpr (Or.inl ?_)
      rw [swapE_swapE] at h2
      exact h2

lemma reaches_symm_symCl {T : List (V × V × ℤ)} :
    ∀ {x y : V}, Reaches (symCl T) x y → Reaches (symCl T) y x := by
  intro x y hr
  obtain ⟨p, hp⟩ := hr
  induction p generalizing x with
  | nil => exact hp ▸ reaches_self
  | cons e q ih =>
    obtain ⟨he, hx, hw'⟩ := hp
    refine Reaches.trans (ih hw') ?_
    have hsw : swapE e ∈ symCl T := symCl_swap_closed he
    have h1 : Reaches (symCl T) (swapE e).1 (swapE e).2.1 := reaches_single hsw
    rw [show (swapE e).1 = e.2.1 from rfl, show (swapE e).2.1 = e.1 from rfl, hx] at h1
    exact h1

lemma walk_end_mem_targets {E : List (V × V × ℤ)} :
    ∀ {p : List (V × V × ℤ)} {x y : V}, p ≠ [] → IsWalkFrom E x y p →
      y ∈ walkTargets p := by
  intro p
  induction p with
  | nil =>
    intro x y h _
    exact absurd rfl h
  | cons e q ih =>
    intro x y _ hw
    obtain ⟨_, _, hw'⟩ := hw
    cases q with
    | nil =>
      have hy : e.2.1 = y := hw'
      exact List.mem_singleton.mpr hy.symm
    | cons f r =>
      exact List.mem_cons_of_mem _ (ih (by simp) hw')

lemma walkWeight_perm {p q : List (V × V × ℤ)} (h : List.Perm p q) :
    WalkWeight p = WalkWeight q := by
  unfold WalkWeight
  exact (h.map (fun e => e.2.2)).sum_eq

lemma walk_exists_path {E : List (V × V × ℤ)} :
    ∀ (n : ℕ) {x y : V} {p : List (V × V × ℤ)}, p.length ≤ n → IsWalkFrom E x y p →
      ∃ q, IsPathFrom E x y q := by
  intro n
  induction n with
  | zero =>
    intro x y p hlen hw
    have hp : p = [] := List.length_eq_zero.mp (Nat.le_zero.mp hlen)
    subst hp
    exact ⟨[], hw, by simp [walkVerts, walkTargets]⟩
  | succ n ih =>
    intro x y p hlen hw
    by_cases hnd : (walkVerts x p).Nodup
    · exact ⟨p, hw, hnd⟩
    · obtain ⟨a, b, c, z, rfl, hb, hwa, hwb, hwc⟩ := walk_cut hnd hw
      have hw' : IsWalkFrom E x y (a ++ c) := hwa.append hwc
      have hlen' : (a ++ c).length ≤ n := by
        have hb1 : 1 ≤ b.length := by
          cases b with
          | nil => exact absurd rfl hb
          | cons _ _ => simp
        simp only [List.length_append] at hlen ⊢
        omega
      exact ih hlen' hw'

lemma crossing_split {E : List (V × V × ℤ)} (S : List V) :
    ∀ (p : List (V × V × ℤ)) (x y : V), IsWalkFrom E x y p → x ∈ S → y ∉ S →
      ∃ p₁ f p₂, p = p₁ ++ f :: p₂ ∧ f.1 ∈ S ∧ f.2.1 ∉ S ∧
        IsWalkFrom E x f.1 p₁ ∧ IsWalkFrom E f.2.1 y p₂ ∧
        (∀ h ∈ p₁, h.1 ∈ S ∧ h.2.1 ∈ S) := by
  intro p
  induction p with
  | nil =>
    intro x y hw hx hy
    exact absurd (hw ▸ hx) hy
  | cons e q ih =>
    intro x y hw hx hy
    obtain ⟨he, hex, hw'⟩ := hw
    by_cases hc : e.2.1 ∈ S
    · obtain ⟨p₁, f, p₂, heq, hf1, hf2, hwp1, hwp2, hmem⟩ := ih e.2.1 y hw' hc hy
      refine ⟨e :: p₁, f, p₂, by rw [heq, List.cons_append], hf1, hf2,
        ⟨he, hex, hwp1⟩, hwp2, ?_⟩
      intro h hh
      rcases List.mem_cons.mp hh with rfl | hh
      · exact ⟨by rw [hex]; exact hx, hc⟩
      · exact hmem h hh
    · exact ⟨[], e, q, rfl, by rw [hex]; exact hx, hc, hex.symm, hw',
        fun h hh => absurd hh (List.not_mem_nil _)⟩

lemma perm_cons_erase_beq {α : Type} [BEq α] [LawfulBEq α] {a : α} {l : List α}
    (h : a ∈ l) : List.Perm l (a :: l.erase a) := by
  induction l with
  | nil => simp at h
  | cons b l ih =>
    rw [List.erase_cons]
    by_cases hb : b = a
    · subst hb
      rw [if_pos (by simp)]
    · rw [if_neg (by simp [hb])]
      rcases List.mem_cons.mp h with h1 | h1
      · exact absurd h1.symm hb
      · exact ((ih h1).cons b).trans (List.Perm.swap a b _)

lemma spanning_perm {vertices : List V} {edges : List (V × V × ℤ)}
    {T₁ T₂ : List (V × V × ℤ)} (hperm : List.Perm T₁ T₂)
    (hsp : IsSpanningTree vertices edges T₁) : IsSpanningTree vertices edges T₂ := by
  obtain ⟨hmem, hlen, hconn⟩ := hsp
  refine ⟨fun e he => hmem e (hperm.mem_iff.mpr he),
    by rw [← hperm.length_eq]; exact hlen, ?_⟩
  intro u hu v hv
  refine reaches_mono_endpoints ?_ (hconn u hu v hv)
  intro e he
  exact reaches_single (symCl_sub_of_memU (fun f hf => Or.inl (hperm.mem_iff.mp hf)) e he)

lemma spanning_exchange {vertices : List V} {edges : List (V × V × ℤ)}
    (hsym : ∀ e ∈ edges, swapE e ∈ edges)
    {T' : List (V × V × ℤ)} (hsp : IsSpanningTree vertices edges T')
    {S : List V} {g : V × V × ℤ} (hg : g ∈ edges) (hgS : g.1 ∈ S) (hgS' : g.2.1 ∉ S)
    (hgv : g.1 ∈ vertices) (hgv' : g.2.1 ∈ vertices)
    (hmin : ∀ f ∈ edges, f.1 ∈ S → f.2.1 ∉ S → g.2.2 ≤ f.2.2) :
    ∃ el, el ∈ T' ∧ ((el.1 ∈ S ∧ el.2.1 ∉ S) ∨ (el.2.1 ∈ S ∧ el.1 ∉ S)) ∧
      IsSpanningTree vertices edges (g :: T'.erase el) ∧
      WalkWeight (g :: T'.erase el) ≤ WalkWeight T' := by
  obtain ⟨hTmem, hTlen, hTconn⟩ := hsp
  obtain ⟨q0, hq0⟩ := hTconn g.1 hgv g.2.1 hgv'
  obtain ⟨q, hqw, hqnd⟩ := walk_exists_path q0.length (le_refl _) hq0
  obtain ⟨p₁, fs, p₂, hsplit, hfs1, hfs2, hw1, hw2, hp1S⟩ :=
    crossing_split S q g.1 g.2.1 hqw hgS hgS'
  have hfsym : fs ∈ symCl T' :=
    walk_elems_mem hqw fs
      (by rw [hsplit]; exact List.mem_append_right _ (List.mem_cons_self _ _))
  have hp1_ne : ∀ h ∈ p₁, h ≠ fs ∧ h ≠ swapE fs := by
    intro h hh
    obtain ⟨hS1, hS2⟩ := hp1S h hh
    constructor
    · intro hc
      rw [hc] at hS2
      exact hfs2 hS2
    · intro hc
      rw [hc] at hS1
      exact hfs2 hS1
  have hverts : walkVerts g.1 q = g.1 :: (walkTargets p₁ ++ fs.2.1 :: walkTargets p₂) := by
    rw [hsplit]
    unfold walkVerts walkTargets
    simp
  have hnd2 : (walkTargets p₁ ++ fs.2.1 :: walkTargets p₂).Nodup ∧
      g.1 ∉ walkTargets p₁ ++ fs.2.1 :: walkTargets p₂ := by
    rw [hverts] at hqnd
    exact ⟨(List.nodup_cons.mp hqnd).2, (List.nodup_cons.mp hqnd).1⟩
  have hp2_ne : ∀ h ∈ p₂, h ≠ fs ∧ h ≠ swapE fs := by
    intro h hh
    have hht : h.2.1 ∈ walkTargets p₂ := List.mem_map.mpr ⟨h, hh, rfl⟩
    constructor
    · intro hc
      rw [hc] at hht
      have hnd3 := (List.nodup_append.mp hnd2.1).2.1
      rw [List.nodup_cons] at hnd3
      exact hnd3.1 hht
    · intro hc
      rw [hc] at hht
      have hfs1loc : fs.1 = g.1 ∨ fs.1 ∈ walkTargets p₁ := by
        cases p₁ with
        | nil =>
          have hxy : g.1 = fs.1 := hw1
          exact Or.inl hxy.symm
        | cons a b =>
          exact Or.inr (walk_end_mem_targets (by simp) hw1)
      rcases hfs1loc with h1 | h1
      · apply hnd2.2
        rw [← h1]
        exact List.mem_append_right _ (List.mem_cons_of_mem _ hht)
      · have hdisj := (List.nodup_append.mp hnd2.1).2.2
        exact hdisj h1 (List.mem_cons_of_mem _ hht)
  obtain ⟨el, helT, helor⟩ : ∃ el, el ∈ T' ∧ (el = fs ∨ el = swapE fs) := by
    rcases mem_symCl_iff.mp hfsym with h | h
    · exact ⟨fs, h, Or.inl rfl⟩
    · exact ⟨swapE fs, h, Or.inr rfl⟩
  have hel_w : el.2.2 = fs.2.2 := by
    rcases helor with rfl | rfl
    · rfl
    · rfl
  have hcrossflag : (el.1 ∈ S ∧ el.2.1 ∉ S) ∨ (el.2.1 ∈ S ∧ el.1 ∉ S) := by
    rcases helor with rfl | rfl
    · exact Or.inl ⟨hfs1, hfs2⟩
    · exact Or.inr ⟨hfs1, hfs2⟩
  have hfs_or : fs = el ∨ fs = swapE el := by
    rcases helor with rfl | rfl
    · exact Or.inl rfl
    · exact Or.inr (swapE_swapE fs).symm
  have hmem_erase : ∀ h, h ∈ symCl T' → h ≠ fs → h ≠ swapE fs →
      h ∈ symCl (T'.erase el) := by
    intro h hh h1 h2
    have hne1 : h ≠ el := by
      rcases helor with rfl | rfl
      · exact h1
      · exact h2
    have hne2 : swapE h ≠ el := by
      intro hc
      rcases helor with rfl | rfl
      · apply h2
        rw [← hc, swapE_swapE]
      · apply h1
        have h4 := congrArg swapE hc
        rwa [swapE_swapE, swapE_swapE] at h4
    rcases mem_symCl_iff.mp hh with h3 | h3
    · exact mem_symCl_iff.mpr (Or.inl ((List.mem_erase_of_ne hne1).mpr h3))
    · exact mem_symCl_iff.mpr (Or.inr ((List.mem_erase_of_ne hne2).mpr h3))
  have hw1' : IsWalkFrom (symCl (T'.erase el)) g.1 fs.1 p₁ := by
    refine walk_transport hw1 ?_
    intro h hh
    exact hmem_erase h (walk_elems_mem hqw h (by rw [hsplit]; exact List.mem_append_left _ hh))
      (hp1_ne h hh).1 (hp1_ne h hh).2
  have hw2' : IsWalkFrom (symCl (T'.erase el)) fs.2.1 g.2.1 p₂ := by
    refine walk_transport hw2 ?_
    intro h hh
    refine hmem_erase h (walk_elems_mem hqw h ?_) (hp2_ne h hh).1 (hp2_ne h hh).2
    rw [hsplit]
    exact List.mem_append_right _ (List.mem_cons_of_mem _ hh)
  have hsub12 : ∀ h ∈ symCl (T'.erase el), h ∈ symCl (g :: T'.erase el) :=
    fun h hh => symCl_mono (fun e he => List.mem_cons_of_mem _ he) hh
  have hreach1 : Reaches (symCl (g :: T'.erase el)) fs.1 fs.2.1 := by
    have r1 : Reaches (symCl (T'.erase el)) g.1 fs.1 := ⟨p₁, hw1'⟩
    have r1' : Reaches (symCl (g :: T'.erase el)) fs.1 g.1 := by
      refine reaches_symm_symCl ?_
      exact reaches_mono_endpoints (fun e he => reaches_single (hsub12 e he)) r1
    have r2 : Reaches (symCl (g :: T'.erase el)) g.1 g.2.1 :=
      reaches_single (mem_symCl_iff.mpr (Or.inl (List.mem_cons_self _ _)))
    have r3 : Reaches (symCl (T'.erase el)) fs.2.1 g.2.1 := ⟨p₂, hw2'⟩
    have r3' : Reaches (symCl (g :: T'.erase el)) g.2.1 fs.2.1 := by
      refine reaches_symm_symCl ?_
      exact reaches_mono_endpoints (fun e he => reaches_single (hsub12 e he)) r3
    exact (r1'.trans r2).trans r3'
  have hreach2 : Reaches (symCl (g :: T'.erase el)) fs.2.1 fs.1 := reaches_symm_symCl hreach1
  have hconn2 : ConnectsAll vertices (g :: T'.erase el) := by
    intro u hu v hv
    refine reaches_mono_endpoints ?_ (hTconn u hu v hv)
    intro e he
    by_cases he1 : e = fs
    · rw [he1]
      exact hreach1
    · by_cases he2 : e = swapE fs
      · rw [he2]
        exact hreach2
      · exact reaches_single (hsub12 e (hmem_erase e he he1 he2))
  have hwperm : List.Perm T' (el :: T'.erase el) := perm_cons_erase_beq helT
  have hwT : WalkWeight T' = el.2.2 + WalkWeight (T'.erase el) := by
    rw [walkWeight_perm hwperm, walkWeight_cons]
  have hgle : g.2.2 ≤ el.2.2 := by
    rw [hel_w]
    have hfsE : fs ∈ edges := by
      have helE : el ∈ edges := hTmem el helT
      rcases hfs_or with h | h
      · rw [h]
        exact helE
      · rw [h]
        exact hsym el helE
    exact hmin fs hfsE hfs1 hfs2
  have hwle : WalkWeight (g :: T'.erase el) ≤ WalkWeight T' := by
    rw [walkWeight_cons, hwT]
    exact add_le_add_right hgle (WalkWeight (T'.erase el))
  have hlen2 : (g :: T'.erase el).length = vertices.length - 1 := by
    have h1 : (T'.erase el).length = T'.length - 1 := List.length_erase_of_mem helT
    have h2 : 1 ≤ T'.length := by
      cases T' with
      | nil => exact absurd helT (List.not_mem_nil _)
      | cons _ _ => simp
    simp only [List.length_cons, h1]
    omega
  refine ⟨el, helT, hcrossflag, ⟨?_, hlen2, hconn2⟩, hwle⟩
  intro e he
  rcases List.mem_cons.mp he with rfl | he
  · exact hg
  · exact hTmem e (List.erase_subset _ _ he)

lemma updF_mem_append {f : V → List (V × ℤ)} {a u : V} {x vw : V × ℤ} :
    vw ∈ (updF f a (f a ++ [x])) u ↔ (vw ∈ f u ∨ (u = a ∧ vw = x)) := by
  unfold updF
  by_cases h : u = a
  · subst h
    rw [if_pos rfl]
    simp
  · rw [if_neg h]
    simp [h]

lemma adjStep_mem (f : V → List (V × ℤ)) (e : V × V × ℤ) (u : V) (vw : V × ℤ) :
    vw ∈ (updF (updF f e.1 (f e.1 ++ [(e.2.1, e.2.2)])) e.2.1
        ((updF f e.1 (f e.1 ++ [(e.2.1, e.2.2)])) e.2.1 ++ [(e.1, e.2.2)])) u ↔
      (vw ∈ f u ∨ (u, vw.1, vw.2) = e ∨ (vw.1, u, vw.2) = e) := by
  rw [updF_mem_append, updF_mem_append]
  constructor
  · rintro ((h | ⟨h1, h2⟩) | ⟨h1, h2⟩)
    · exact Or.inl h
    · refine Or.inr (Or.inl ?_)
      rw [h1, h2]
    · refine Or.inr (Or.inr ?_)
      rw [h1, h2]
  · rintro (h | h | h)
    · exact Or.inl (Or.inl h)
    · refine Or.inl (Or.inr ⟨?_, ?_⟩)
      · rw [← h]
      · rw [← h]
    · refine Or.inr ⟨?_, ?_⟩
      · rw [← h]
      · rw [← h]

lemma adjFold_mem :
    ∀ (l : List (V × V × ℤ)) (f0 : V → List (V × ℤ)) (u : V) (vw : V × ℤ),
      vw ∈ (l.foldl (fun f e =>
          let f1 := updF f e.1 (f e.1 ++ [(e.2.1, e.2.2)])
          updF f1 e.2.1 (f1 e.2.1 ++ [(e.1, e.2.2)])) f0) u ↔
      (vw ∈ f0 u ∨ (u, vw.1, vw.2) ∈ l ∨ (vw.1, u, vw.2) ∈ l) := by
  intro l
  induction l with
  | nil =>
    intro f0 u vw
    simp
  | cons e l ih =>
    intro f0 u vw
    rw [List.foldl_cons, ih]
    have hstep := adjStep_mem f0 e u vw
    constructor
    · rintro (h | h | h)
      · rcases hstep.mp h with h' | h' | h'
        · exact Or.inl h'
        · refine Or.inr (Or.inl ?_)
          rw [h']
          exact List.mem_cons_self _ _
        · refine Or.inr (Or.inr ?_)
          rw [h']
          exact List.mem_cons_self _ _
      · exact Or.inr (Or.inl (List.mem_cons_of_mem _ h))
      · exact Or.inr (Or.inr (List.mem_cons_of_mem _ h))
    · rintro (h | h | h)
      · exact Or.inl (hstep.mpr (Or.inl h))
      · rcases List.mem_cons.mp h with h' | h'
        · exact Or.inl (hstep.mpr (Or.inr (Or.inl h')))
        · exact Or.inr (Or.inl h')
      · rcases List.mem_cons.mp h with h' | h'
        · exact Or.inl (hstep.mpr (Or.inr (Or.inr h')))
        · exact Or.inr (Or.inr h')

lemma adjOf_mem {edges : List (V × V × ℤ)} {u : V} {vw : V × ℤ} :
    vw ∈ adjOf edges u ↔ ((u, vw.1, vw.2) ∈ edges ∨ (vw.1, u, vw.2) ∈ edges) := by
  unfold adjOf
  rw [adjFold_mem]
  simp

lemma pqLe_refl (a : ℤ × V) : pqLe a a := Or.inr ⟨rfl, le_refl _⟩

lemma pqLe_total (a b : ℤ × V) : pqLe a b ∨ pqLe b a := by
  unfold pqLe
  rcases lt_trichotomy a.1 b.1 with h | h | h
  · exact Or.inl (Or.inl h)
  · rcases le_total a.2 b.2 with h2 | h2
    · exact Or.inl (Or.inr ⟨h, h2⟩)
    · exact Or.inr (Or.inr ⟨h.symm, h2⟩)
  · exact Or.inr (Or.inl h)

lemma pqLe_trans {a b c : ℤ × V} (h1 : pqLe a b) (h2 : pqLe b c) : pqLe a c := by
  unfold pqLe at h1 h2 ⊢
  rcases h1 with h1 | ⟨h1, h1'⟩ <;> rcases h2 with h2 | ⟨h2, h2'⟩
  · exact Or.inl (lt_trans h1 h2)
  · exact Or.inl (h2 ▸ h1)
  · exact Or.inl (h1 ▸ h2)
  · exact Or.inr ⟨h1.trans h2, le_trans h1' h2'⟩

lemma pqFold_le : ∀ (l : List (ℤ × V)) (e : ℤ × V),
    (pqLe (l.foldl (fun acc x => if pqLe acc x then acc else x) e) e ∧
      (∀ a ∈ l, pqLe (l.foldl (fun acc x => if pqLe acc x then acc else x) e) a)) ∧
    (l.foldl (fun acc x => if pqLe acc x then acc else x) e) ∈ e :: l := by
  intro l
  induction l with
  | nil =>
    intro e
    exact ⟨⟨pqLe_refl e, fun a ha => absurd ha (List.not_mem_nil _)⟩,
      List.mem_singleton.mpr rfl⟩
  | cons x l ih =>
    intro e
    rw [List.foldl_cons]
    by_cases hc : pqLe e x
    · rw [if_pos hc]
      obtain ⟨⟨hle, hall⟩, hmem⟩ := ih e
      refine ⟨⟨hle, ?_⟩, ?_⟩
      · intro a ha
        rcases List.mem_cons.mp ha with rfl | ha
        · exact pqLe_trans hle hc
        · exact hall a ha
      · rcases List.mem_cons.mp hmem with h | h
        · rw [h]
          exact List.mem_cons_self _ _
        · exact List.mem_cons_of_mem _ (List.mem_cons_of_mem _ h)
    · rw [if_neg hc]
      have hxe : pqLe x e := (pqLe_total e x).resolve_left hc
      obtain ⟨⟨hle, hall⟩, hmem⟩ := ih x
      refine ⟨⟨pqLe_trans hle hxe, ?_⟩, ?_⟩
      · intro a ha
        rcases List.mem_cons.mp ha with rfl | ha
        · exact hle
        · exact hall a ha
      · rcases List.mem_cons.mp hmem with h | h
        · rw [h]
          exact List.mem_cons_of_mem _ (List.mem_cons_self _ _)
        · exact List.mem_cons_of_mem _ (List.mem_cons_of_mem _ h)

lemma popMin_spec {pq : List (ℤ × V)} {m : ℤ × V} {rest : List (ℤ × V)}
    (h : popMin pq = some (m, rest)) :
    m ∈ pq ∧ rest = pq.erase m ∧ ∀ a ∈ pq, pqLe m a := by
  unfold popMin at h
  cases hq : pqMin pq with
  | none =>
    rw [hq] at h
    exact Option.noConfusion h
  | some mm =>
    rw [hq] at h
    have h1 := Option.some.inj h
    have hmm : mm = m := congrArg Prod.fst h1
    have hrest : pq.erase mm = rest := congrArg Prod.snd h1
    subst hmm
    cases pq with
    | nil => exact Option.noConfusion hq
    | cons e l =>
      have hm : l.foldl (fun acc x => if pqLe acc x then acc else x) e = mm := by
        simp only [pqMin] at hq
        exact Option.some.inj hq
      obtain ⟨⟨hle, hall⟩, hmem⟩ := pqFold_le l e
      rw [hm] at hle hall hmem
      refine ⟨hmem, hrest.symm, ?_⟩
      intro a ha
      rcases List.mem_cons.mp ha with rfl | ha
      · exact hle
      · exact hall a ha

lemma popMin_none_iff {pq : List (ℤ × V)} : popMin pq = none ↔ pq = [] := by
  cases pq with
  | nil => simp [popMin, pqMin]
  | cons e l => simp [popMin, pqMin]

lemma primLoop_succ (adj : V → List (V × ℤ)) (fuel : ℕ) (st : PrimState V) :
    primLoop adj (fuel + 1) st =
      match popMin st.pq with
      | none => st
      | some (ku, pq') =>
        if ku.2 ∈ st.intree then primLoop adj fuel { st with pq := pq' }
        else primLoop adj fuel
          (primRelax adj ku.2 { st with pq := pq', intree := st.intree ++ [ku.2] }) := rfl

lemma updF_self {α : Type} (f : V → α) (a : V) (x : α) : updF f a x a = x := if_pos rfl

lemma updF_other {α : Type} (f : V → α) (a : V) (x : α) {v : V} (h : v ≠ a) :
    updF f a x v = f v := if_neg h

lemma primRelax_eq (adj : V → List (V × ℤ)) (u : V) (st : PrimState V) :
    primRelax adj u st = (adj u).foldl (primRelaxStep u) st := rfl

lemma primRelaxStep_intree (u : V) (st : PrimState V) (vw : V × ℤ) :
    (primRelaxStep u st vw).intree = st.intree := by
  unfold primRelaxStep
  split
  · rfl
  · rfl

lemma primRelaxStep_minw_le (u : V) (st : PrimState V) (vw : V × ℤ) (v : V) :
    (primRelaxStep u st vw).minw v ≤ st.minw v := by
  unfold primRelaxStep
  split
  · rename_i h
    show updF st.minw vw.1 ((vw.2 : ℤ) : Weight) v ≤ st.minw v
    by_cases hv : v = vw.1
    · rw [hv, updF_self]
      exact le_of_lt (hv ▸ h.2)
    · rw [updF_other _ _ _ hv]
  · exact le_refl _

lemma primRelaxStep_frozen (u : V) (st : PrimState V) (vw : V × ℤ) {v : V}
    (hv : v ∈ st.intree) :
    (primRelaxStep u st vw).minw v = st.minw v ∧
    (primRelaxStep u st vw).parent v = st.parent v := by
  unfold primRelaxStep
  split
  · rename_i h
    have hne : v ≠ vw.1 := fun hc => h.1 (hc ▸ hv)
    exact ⟨updF_other _ _ _ hne, updF_other _ _ _ hne⟩
  · exact ⟨rfl, rfl⟩

lemma primRelaxStep_pq (u : V) (st : PrimState V) (vw : V × ℤ) :
    (primRelaxStep u st vw).pq = st.pq ∨
    (primRelaxStep u st vw).pq = st.pq ++ [(vw.2, vw.1)] := by
  unfold primRelaxStep
  split
  · exact Or.inr rfl
  · exact Or.inl rfl

lemma relaxFold_intree (u : V) : ∀ (l : List (V × ℤ)) (st : PrimState V),
    (l.foldl (primRelaxStep u) st).intree = st.intree := by
  intro l
  induction l with
  | nil =>
    intro st
    rfl
  | cons vw l ih =>
    intro st
    rw [List.foldl_cons, ih, primRelaxStep_intree]

lemma relaxFold_minw_le (u : V) : ∀ (l : List (V × ℤ)) (st : PrimState V) (v : V),
    (l.foldl (primRelaxStep u) st).minw v ≤ st.minw v := by
  intro l
  induction l with
  | nil =>
    intro st v
    exact le_refl _
  | cons vw l ih =>
    intro st v
    rw [List.foldl_cons]
    exact le_trans (ih _ v) (primRelaxStep_minw_le u st vw v)

lemma relaxFold_frozen (u : V) : ∀ (l : List (V × ℤ)) (st : PrimState V) (v : V),
    v ∈ st.intree →
    (l.foldl (primRelaxStep u) st).minw v = st.minw v ∧
    (l.foldl (primRelaxStep u) st).parent v = st.parent v := by
  intro l
  induction l with
  | nil =>
    intro st v _
    exact ⟨rfl, rfl⟩
  | cons vw l ih =>
    intro st v hv
    rw [List.foldl_cons]
    have hfro := primRelaxStep_frozen u st vw hv
    have hv' : v ∈ (primRelaxStep u st vw).intree := by
      rw [primRelaxStep_intree]
      exact hv
    obtain ⟨h1, h2⟩ := ih _ v hv'
    exact ⟨h1.trans hfro.1, h2.trans hfro.2⟩

lemma relaxFold_pq_ext (u : V) : ∀ (l : List (V × ℤ)) (st : PrimState V),
    ∃ ext : List (ℤ × V), (l.foldl (primRelaxStep u) st).pq = st.pq ++ ext ∧
      ext.length ≤ l.length := by
  intro l
  induction l with
  | nil =>
    intro st
    exact ⟨[], by simp, by simp⟩
  | cons vw l ih =>
    intro st
    rw [List.foldl_cons]
    obtain ⟨ext, hext, hlen⟩ := ih (primRelaxStep u st vw)
    rcases primRelaxStep_pq u st vw with h | h
    · refine ⟨ext, ?_, ?_⟩
      · rw [hext, h]
      · simp only [List.length_cons]
        omega
    · refine ⟨(vw.2, vw.1) :: ext, ?_, ?_⟩
      · rw [hext, h, List.append_assoc]
        rfl
      · simp only [List.length_cons]
        omega

lemma relaxFold_processed (u : V) :
    ∀ (l : List (V × ℤ)) (st : PrimState V) (vw : V × ℤ), vw ∈ l → vw.1 ∉ st.intree →
      (l.foldl (primRelaxStep u) st).minw vw.1 ≤ ((vw.2 : ℤ) : Weight) := by
  intro l
  induction l with
  | nil =>
    intro st vw h
    simp at h
  | cons x l ih =>
    intro st vw hmem hnot
    rw [List.foldl_cons]
    rcases List.mem_cons.mp hmem with rfl | hmem
    · have hstep : (primRelaxStep u st vw).minw vw.1 ≤ ((vw.2 : ℤ) : Weight) := by
        unfold primRelaxStep
        split
        · show updF st.minw vw.1 ((vw.2 : ℤ) : Weight) vw.1 ≤ ((vw.2 : ℤ) : Weight)
          rw [updF_self]
        · rename_i h
          rcases not_and_or.mp h with h1 | h1
          · exact absurd hnot h1
          · exact not_lt.mp h1
      exact le_trans (relaxFold_minw_le u l _ vw.1) hstep
    · refine ih _ vw hmem ?_
      rw [primRelaxStep_intree]
      exact hnot

lemma treeEdges_congr {st st' : PrimState V} (hin : st'.intree = st.intree)
    (hpar : ∀ v ∈ st.intree, st'.parent v = st.parent v)
    (hmw : ∀ v ∈ st.intree, st'.minw v = st.minw v) :
    treeEdges st' = treeEdges st := by
  unfold treeEdges
  rw [hin]
  refine List.filterMap_congr ?_
  intro v hv
  rw [hpar v hv, hmw v hv]

lemma relaxStep_base {vertices : List V} {edges : List (V × V × ℤ)} {root u : V}
    (hend : ∀ e ∈ edges, e.1 ∈ vertices ∧ e.2.1 ∈ vertices)
    {st : PrimState V} (hu : u ∈ st.intree) {vw : V × ℤ}
    (hvw : (u, vw.1, vw.2) ∈ edges)
    (hbase : PrimBase vertices edges root st) (hfr : PrimFrontier edges st [u]) :
    PrimBase vertices edges root (primRelaxStep u st vw) ∧
    PrimFrontier edges (primRelaxStep u st vw) [u] := by
  unfold primRelaxStep
  by_cases hcond : vw.1 ∉ st.intree ∧ (vw.2 : Weight) < st.minw vw.1
  swap
  · rw [if_neg hcond]
    exact ⟨hbase, hfr⟩
  rw [if_pos hcond]
  obtain ⟨hnotin, hlt⟩ := hcond
  obtain ⟨hroot, hnodup, hsub, hrp, hrm, hts, hos, hpqb, hpqw, hconn⟩ := hbase
  have hminw_le : ∀ z, updF st.minw vw.1 ((vw.2 : ℤ) : Weight) z ≤ st.minw z := by
    intro z
    by_cases hz : z = vw.1
    · rw [hz, updF_self]
      exact le_of_lt hlt
    · rw [updF_other _ _ _ hz]
  have hintree_ne : ∀ z ∈ st.intree, z ≠ vw.1 := fun z hz hc => hnotin (hc ▸ hz)
  constructor
  · refine ⟨hroot, hnodup, hsub, ?_, ?_, ?_, ?_, ?_, ?_, ?_⟩
    · show updF st.parent vw.1 (some u) root = none
      rw [updF_other _ _ _ (hintree_ne root hroot)]
      exact hrp
    · show updF st.minw vw.1 ((vw.2 : ℤ) : Weight) root = 0
      rw [updF_other _ _ _ (hintree_ne root hroot)]
      exact hrm
    · intro v hv hvne
      obtain ⟨p, w, hp, hpin, he, hmw⟩ := hts v hv hvne
      refine ⟨p, w, ?_, hpin, he, ?_⟩
      · show updF st.parent vw.1 (some u) v = some p
        rw [updF_other _ _ _ (hintree_ne v hv)]
        exact hp
      · show updF st.minw vw.1 ((vw.2 : ℤ) : Weight) v = ((w : ℤ) : Weight)
        rw [updF_other _ _ _ (hintree_ne v hv)]
        exact hmw
    · intro v hv hvne
      by_cases hveq : v = vw.1
      · refine Or.inr ⟨u, vw.2, ?_, hu, ?_, ?_⟩
        · show updF st.parent vw.1 (some u) v = some u
          rw [hveq, updF_self]
        · rw [hveq]
          exact hvw
        · show updF st.minw vw.1 ((vw.2 : ℤ) : Weight) v = ((vw.2 : ℤ) : Weight)
          rw [hveq, updF_self]
      · rcases hos v hv hvne with ⟨h1, h2⟩ | ⟨p, w, hp, hpin, he, hmw⟩
        · refine Or.inl ⟨?_, ?_⟩
          · show updF st.minw vw.1 ((vw.2 : ℤ) : Weight) v = ⊤
            rw [updF_other _ _ _ hveq]
            exact h1
          · show updF st.parent vw.1 (some u) v = none
            rw [updF_other _ _ _ hveq]
            exact h2
        · refine Or.inr ⟨p, w, ?_, hpin, he, ?_⟩
          · show updF st.parent vw.1 (some u) v = some p
            rw [updF_other _ _ _ hveq]
            exact hp
          · show updF st.minw vw.1 ((vw.2 : ℤ) : Weight) v = ((w : ℤ) : Weight)
            rw [updF_other _ _ _ hveq]
            exact hmw
    · intro kv hkv
      rcases List.mem_append.mp hkv with hold | hnew
      · exact ⟨(hpqb kv hold).1, le_trans (hminw_le kv.2) (hpqb kv hold).2⟩
      · have hkve : kv = (vw.2, vw.1) := List.mem_singleton.mp hnew
        subst hkve
        refine ⟨(hend _ hvw).2, ?_⟩
        show updF st.minw vw.1 ((vw.2 : ℤ) : Weight) vw.1 ≤ ((vw.2 : ℤ) : Weight)
        rw [updF_self]
    · intro v hv hne0
      by_cases hveq : v = vw.1
      · refine ⟨vw.2, ?_, ?_⟩
        · show updF st.minw vw.1 ((vw.2 : ℤ) : Weight) v = ((vw.2 : ℤ) : Weight)
          rw [hveq, updF_self]
        · rw [hveq]
          exact List.mem_append_right _ (List.mem_singleton.mpr rfl)
      · have hne0' : st.minw v ≠ ⊤ := by
          intro hc
          apply hne0
          show updF st.minw vw.1 ((vw.2 : ℤ) : Weight) v = ⊤
          rw [updF_other _ _ _ hveq]
          exact hc
        obtain ⟨w, hmw, hpqmem⟩ := hpqw v hv hne0'
        refine ⟨w, ?_, List.mem_append_left _ hpqmem⟩
        show updF st.minw vw.1 ((vw.2 : ℤ) : Weight) v = ((w : ℤ) : Weight)
        rw [updF_other _ _ _ hveq]
        exact hmw
    · have hteq : treeEdges { st with
          minw := updF st.minw vw.1 ((vw.2 : ℤ) : Weight),
          parent := updF st.parent vw.1 (some u),
          pq := st.pq ++ [(vw.2, vw.1)] } = treeEdges st := by
        refine treeEdges_congr rfl ?_ ?_
        · intro v hv
          exact updF_other _ _ _ (hintree_ne v hv)
        · intro v hv
          exact updF_other _ _ _ (hintree_ne v hv)
      intro v hv
      rw [hteq]
      exact hconn v hv
  · intro v hv x hx hxu w hxe
    exact le_trans (hminw_le v) (hfr v hv x hx hxu w hxe)

lemma relaxFold_base {vertices : List V} {edges : List (V × V × ℤ)} {root u : V}
    (hend : ∀ e ∈ edges, e.1 ∈ vertices ∧ e.2.1 ∈ vertices) :
    ∀ (l : List (V × ℤ)) (st : PrimState V), u ∈ st.intree →
      (∀ vw ∈ l, (u, vw.1, vw.2) ∈ edges) →
      PrimBase vertices edges root st → PrimFrontier edges st [u] →
      PrimBase vertices edges root (l.foldl (primRelaxStep u) st) ∧
      PrimFrontier edges (l.foldl (primRelaxStep u) st) [u] := by
  intro l
  induction l with
  | nil =>
    intro st _ _ hbase hfr
    exact ⟨hbase, hfr⟩
  | cons vw l ih =>
    intro st hu hl hbase hfr
    rw [List.foldl_cons]
    have hstep := relaxStep_base hend hu (hl vw (List.mem_cons_self _ _)) hbase hfr
    refine ih _ ?_ (fun x hx => hl x (List.mem_cons_of_mem _ hx)) hstep.1 hstep.2
    rw [primRelaxStep_intree]
    exact hu

lemma primRelax_inv {vertices : List V} {edges : List (V × V × ℤ)} {root u : V}
    (hsym : ∀ e ∈ edges, swapE e ∈ edges)
    (hend : ∀ e ∈ edges, e.1 ∈ vertices ∧ e.2.1 ∈ vertices)
    {st : PrimState V} (hu : u ∈ st.intree)
    (hbase : PrimBase vertices edges root st) (hfr : PrimFrontier edges st [u]) :
    PrimInv vertices edges root (primRelax (adjOf edges) u st) := by
  rw [primRelax_eq]
  have hl : ∀ vw ∈ adjOf edges u, (u, vw.1, vw.2) ∈ edges := by
    intro vw hvw
    rcases adjOf_mem.mp hvw with h | h
    · exact h
    · exact hsym _ h
  obtain ⟨hbase', hfr'⟩ := relaxFold_base hend (adjOf edges u) st hu hl hbase hfr
  refine ⟨hbase', ?_⟩
  intro v hv x hx _ w hxe
  by_cases hxu : x = u
  · subst hxu
    have hmem : ((v, w) : V × ℤ) ∈ adjOf edges x := adjOf_mem.mpr (Or.inl hxe)
    have hnotin : v ∉ st.intree := by
      rw [relaxFold_intree] at hv
      exact hv
    exact relaxFold_processed x (adjOf edges x) st (v, w) hmem hnotin
  · refine hfr' v hv x hx ?_ w hxe
    intro hc
    exact hxu (List.mem_singleton.mp hc)

lemma mem_treeEdges {st : PrimState V} {e : V × V × ℤ} :
    e ∈ treeEdges st ↔ ∃ v ∈ st.intree, st.parent v = some e.1 ∧ v = e.2.1 ∧
      (st.minw v).untop' 0 = e.2.2 := by
  unfold treeEdges
  rw [List.mem_filterMap]
  constructor
  · rintro ⟨v, hv, hfv⟩
    cases hp : st.parent v with
    | none =>
      rw [hp] at hfv
      exact Option.noConfusion hfv
    | some p =>
      rw [hp] at hfv
      have he := Option.some.inj hfv
      refine ⟨v, hv, ?_, ?_, ?_⟩
      · rw [hp, ← he]
      · rw [← he]
      · rw [← he]
  · rintro ⟨v, hv, hp, hv2, hw⟩
    refine ⟨v, hv, ?_⟩
    subst hv2
    rw [hp]
    show some (e.1, e.2.1, (st.minw e.2.1).untop' 0) = some e
    rw [hw]

lemma length_filterMap_all_some {α β : Type} (f : α → Option β) :
    ∀ l : List α, (∀ v ∈ l, f v ≠ none) → (l.filterMap f).length = l.length := by
  intro l
  induction l with
  | nil =>
    intro _
    rfl
  | cons a l ih =>
    intro h
    cases hfa : f a with
    | none => exact absurd hfa (h a (List.mem_cons_self _ _))
    | some b =>
      simp only [List.filterMap_cons, hfa, List.length_cons]
      rw [ih (fun v hv => h v (List.mem_cons_of_mem _ hv))]

lemma length_filterMap_parent {α : Type} (parent : V → Option V) (g : V → V → α)
    (root : V) :
    ∀ l : List V, l.Nodup → root ∈ l → (∀ v ∈ l, parent v = none ↔ v = root) →
      (l.filterMap (fun v => (parent v).map (fun p => g p v))).length = l.length - 1 := by
  intro l
  induction l with
  | nil =>
    intro _ h
    simp at h
  | cons a l ih =>
    intro hnd hroot hiff
    rcases List.mem_cons.mp hroot with rfl | hroot'
    · have hpa : parent root = none := (hiff root (List.mem_cons_self _ _)).mpr rfl
      rw [List.filterMap_cons, hpa]
      show (List.filterMap (fun v => (parent v).map (fun p => g p v)) l).length
        = (root :: l).length - 1
      rw [List.length_cons, Nat.add_sub_cancel]
      refine length_filterMap_all_some _ l ?_
      intro v hv
      intro hc
      have hc2 : parent v = none := Option.map_eq_none'.mp hc
      have hva : v = root := (hiff v (List.mem_cons_of_mem _ hv)).mp hc2
      exact (List.nodup_cons.mp hnd).1 (hva ▸ hv)
    · have hane : parent a ≠ none := by
        intro hc
        have haa : a = root := (hiff a (List.mem_cons_self _ _)).mp hc
        exact (List.nodup_cons.mp hnd).1 (haa ▸ hroot')
      cases hpa : parent a with
      | none => exact absurd hpa hane
      | some p =>
        have hlpos : 0 < l.length := List.length_pos_of_mem hroot'
        have hrec := ih (List.nodup_cons.mp hnd).2 hroot'
          (fun v hv => hiff v (List.mem_cons_of_mem _ hv))
        rw [List.filterMap_cons, hpa]
        show (g p a :: List.filterMap (fun v => (parent v).map (fun q => g q v)) l).length
          = (a :: l).length - 1
        rw [List.length_cons, List.length_cons]
        omega

lemma primBase_parent_none_iff {vertices : List V} {edges : List (V × V × ℤ)}
    {root : V} {st : PrimState V} (hb : PrimBase vertices edges root st) :
    ∀ v ∈ st.intree, (st.parent v = none ↔ v = root) := by
  intro v hv
  constructor
  · intro hn
    by_contra hne
    obtain ⟨p, w, hp, _, _, _⟩ := hb.treeSound v hv hne
    rw [hp] at hn
    exact Option.noConfusion hn
  · intro h
    rw [h]
    exact hb.rootPar

lemma treeEdges_length {vertices : List V} {edges : List (V × V × ℤ)}
    {root : V} {st : PrimState V} (hb : PrimBase vertices edges root st) :
    (treeEdges st).length = st.intree.length - 1 := by
  unfold treeEdges
  exact length_filterMap_parent st.parent (fun p v => (p, v, (st.minw v).untop' 0)) root
    st.intree hb.nodup hb.rootIn (primBase_parent_none_iff hb)

lemma treeEdges_facts {vertices : List V} {edges : List (V × V × ℤ)}
    {root : V} {st : PrimState V} (hb : PrimBase vertices edges root st) :
    ∀ e ∈ treeEdges st, e ∈ edges ∧ e.1 ∈ st.intree ∧ e.2.1 ∈ st.intree ∧
      st.minw e.2.1 = ((e.2.2 : ℤ) : Weight) := by
  intro e he
  obtain ⟨v, hv, hp, hv2, hw⟩ := mem_treeEdges.mp he
  subst hv2
  have hvroot : e.2.1 ≠ root := by
    intro hc
    rw [hc, hb.rootPar] at hp
    exact Option.noConfusion hp
  obtain ⟨p, w, hp', hpin, hew, hmw⟩ := hb.treeSound e.2.1 hv hvroot
  have hpe : p = e.1 := Option.some.inj (hp'.symm.trans hp)
  have hwe : w = e.2.2 := by
    rw [hmw, WithTop.untop'_coe] at hw
    exact hw
  have heq : e = (e.1, e.2.1, e.2.2) := rfl
  refine ⟨?_, ?_, hv, ?_⟩
  · rw [heq, ← hpe, ← hwe]
    exact hew
  · rw [← hpe]
    exact hpin
  · rw [← hwe]
    exact hmw

lemma sum_map_add (l : List V) (f g : V → ℕ) :
    (l.map (fun v => f v + g v)).sum = (l.map f).sum + (l.map g).sum := by
  induction l with
  | nil => rfl
  | cons a l ih =>
    rw [List.map_cons, List.map_cons, List.map_cons, List.sum_cons, List.sum_cons,
      List.sum_cons, ih]
    omega

lemma sum_indicator_le_one (a : V) :
    ∀ (l : List V), l.Nodup → (l.map (fun v => if v = a then (1 : ℕ) else 0)).sum ≤ 1 := by
  intro l
  induction l with
  | nil =>
    intro _
    simp
  | cons b l ih =>
    intro hnd
    rw [List.map_cons, List.sum_cons]
    by_cases hb : b = a
    · have hza : a ∉ l := hb ▸ (List.nodup_cons.mp hnd).1
      have hz : (l.map (fun v => if v = a then (1 : ℕ) else 0)).sum = 0 := by
        refine List.sum_eq_zero ?_
        intro x hx
        obtain ⟨v, hv, hvx⟩ := List.mem_map.mp hx
        have hne : v ≠ a := fun hc => hza (hc ▸ hv)
        rw [← hvx, if_neg hne]
      rw [if_pos hb, hz]
    · rw [if_neg hb]
      have := ih (List.nodup_cons.mp hnd).2
      omega

lemma adjStep_length_le (f : V → List (V × ℤ)) (e : V × V × ℤ) (v : V) :
    ((updF (updF f e.1 (f e.1 ++ [(e.2.1, e.2.2)])) e.2.1
        ((updF f e.1 (f e.1 ++ [(e.2.1, e.2.2)])) e.2.1 ++ [(e.1, e.2.2)])) v).length ≤
      (f v).length + ((if v = e.1 then 1 else 0) + (if v = e.2.1 then 1 else 0)) := by
  by_cases h2 : v = e.2.1
  · rw [h2, updF_self, List.length_append]
    by_cases h1 : e.2.1 = e.1
    · rw [h1, updF_self, List.length_append]
      simp
    · rw [updF_other _ _ _ h1]
      simp [h1]
  · rw [updF_other _ _ _ h2]
    by_cases h1 : v = e.1
    · have h3 : ¬ (e.1 = e.2.1) := fun hc => h2 (h1.trans hc)
      rw [h1, updF_self, List.length_append]
      simp [h3]
    · rw [updF_other _ _ _ h1]
      simp [h1, h2]

lemma adjStep_sum_le (vertices : List V) (hnd : vertices.Nodup)
    (f0 : V → List (V × ℤ)) (e : V × V × ℤ) :
    (vertices.map (fun v => ((updF (updF f0 e.1 (f0 e.1 ++ [(e.2.1, e.2.2)])) e.2.1
        ((updF f0 e.1 (f0 e.1 ++ [(e.2.1, e.2.2)])) e.2.1 ++ [(e.1, e.2.2)]))
        v).length)).sum
      ≤ (vertices.map (fun v => (f0 v).length)).sum + 2 := by
  have hsum1 : (vertices.map (fun v =>
        ((updF (updF f0 e.1 (f0 e.1 ++ [(e.2.1, e.2.2)])) e.2.1
          ((updF f0 e.1 (f0 e.1 ++ [(e.2.1, e.2.2)])) e.2.1 ++ [(e.1, e.2.2)]))
          v).length)).sum
      ≤ (vertices.map (fun v => (f0 v).length +
          ((if v = e.1 then 1 else 0) + (if v = e.2.1 then 1 else 0)))).sum :=
    List.sum_le_sum (fun v _ => adjStep_length_le f0 e v)
  have hsum2 := sum_map_add vertices (fun v => (f0 v).length)
    (fun v => (if v = e.1 then 1 else 0) + (if v = e.2.1 then 1 else 0))
  have hsum3 := sum_map_add vertices (fun v => if v = e.1 then (1 : ℕ) else 0)
    (fun v => if v = e.2.1 then (1 : ℕ) else 0)
  have hi1 := sum_indicator_le_one e.1 vertices hnd
  have hi2 := sum_indicator_le_one e.2.1 vertices hnd
  omega

lemma adjFold_sum_le (vertices : List V) (hnd : vertices.Nodup) :
    ∀ (l : List (V × V × ℤ)) (f0 : V → List (V × ℤ)),
      (vertices.map (fun v => ((l.foldl (fun f e =>
          let f1 := updF f e.1 (f e.1 ++ [(e.2.1, e.2.2)])
          updF f1 e.2.1 (f1 e.2.1 ++ [(e.1, e.2.2)])) f0) v).length)).sum ≤
        (vertices.map (fun v => (f0 v).length)).sum + 2 * l.length := by
  intro l
  induction l with
  | nil =>
    intro f0
    simp
  | cons e l ih =>
    intro f0
    rw [List.foldl_cons]
    refine le_trans (ih _) ?_
    have hstep := adjStep_sum_le vertices hnd f0 e
    simp only [List.length_cons]
    omega

lemma adjOf_sum_le (vertices : List V) (hnd : vertices.Nodup)
    (edges : List (V × V × ℤ)) :
    (vertices.map (fun v => (adjOf edges v).length)).sum ≤ 2 * edges.length := by
  have h := adjFold_sum_le vertices hnd edges (fun _ => [])
  simpa using h

lemma sum_filter_le (f : V → ℕ) (p : V → Bool) (l : List V) :
    ((l.filter p).map f).sum ≤ (l.map f).sum :=
  ((List.filter_sublist l).map f).sum_le_sum (fun _ _ => Nat.zero_le _)

lemma filter_sum_drop (f : V → ℕ) :
    ∀ (vertices : List V), vertices.Nodup → ∀ (u : V) (intree : List V),
      u ∈ vertices → u ∉ intree →
      ((vertices.filter (fun v => decide (v ∉ intree ++ [u]))).map f).sum + f u
        = ((vertices.filter (fun v => decide (v ∉ intree))).map f).sum := by
  intro vertices
  induction vertices with
  | nil =>
    intro _ u intree h
    simp at h
  | cons a l ih =>
    intro hnd u intree hu hnotin
    rcases List.mem_cons.mp hu with rfl | hu'
    · have hul : u ∉ l := (List.nodup_cons.mp hnd).1
      rw [List.filter_cons, List.filter_cons]
      have h1 : (decide (u ∉ intree ++ [u])) = false := by simp
      have h2 : (decide (u ∉ intree)) = true := by simp [hnotin]
      rw [h1, h2]
      have hcong : l.filter (fun v => decide (v ∉ intree ++ [u]))
          = l.filter (fun v => decide (v ∉ intree)) := by
        refine List.filter_congr ?_
        intro v hv
        have hvu : v ≠ u := fun hc => hul (hc ▸ hv)
        rw [decide_eq_decide]
        simp [List.mem_append, hvu]
      rw [hcong]
      simp only [if_false, if_true, List.map_cons, List.sum_cons, Bool.false_eq_true]
      omega
    · have hau : a ≠ u := fun hc => (List.nodup_cons.mp hnd).1 (hc ▸ hu')
      have hnd' := (List.nodup_cons.mp hnd).2
      have hrec := ih hnd' u intree hu' hnotin
      rw [List.filter_cons, List.filter_cons]
      by_cases ha : a ∈ intree
      · have h1 : (decide (a ∉ intree ++ [u])) = false := by
          simp [List.mem_append, ha]
        have h2 : (decide (a ∉ intree)) = false := by simp [ha]
        rw [h1, h2]
        simpa using hrec
      · have h1 : (decide (a ∉ intree ++ [u])) = true := by
          simp [List.mem_append, ha, hau]
        have h2 : (decide (a ∉ intree)) = true := by simp [ha]
        rw [h1, h2]
        simp only [if_true, List.map_cons, List.sum_cons]
        omega

lemma primXInv_step {vertices : List V} {edges : List (V × V × ℤ)} {root : V}
    (hsym : ∀ e ∈ edges, swapE e ∈ edges)
    {st : PrimState V} (hb : PrimBase vertices edges root st)
    {g : V × V × ℤ} (hg : g ∈ edges) (hgS : g.1 ∈ st.intree) (hgS' : g.2.1 ∉ st.intree)
    (hgv : g.1 ∈ vertices) (hgv' : g.2.1 ∈ vertices)
    (hmin : ∀ f ∈ edges, f.1 ∈ st.intree → f.2.1 ∉ st.intree → g.2.2 ≤ f.2.2)
    (hX : PrimXInv vertices edges st) :
    ∀ T, IsSpanningTree vertices edges T →
      ∃ R, IsSpanningTree vertices edges ((treeEdges st ++ [g]) ++ R) ∧
        WalkWeight ((treeEdges st ++ [g]) ++ R) ≤ WalkWeight T := by
  intro T hT
  obtain ⟨R, hRsp, hRw⟩ := hX T hT
  by_cases hgR : g ∈ R
  · have hshape : treeEdges st ++ (g :: R.erase g) = (treeEdges st ++ [g]) ++ R.erase g := by
      simp
    have hperm : List.Perm (treeEdges st ++ R) ((treeEdges st ++ [g]) ++ R.erase g) := by
      rw [← hshape]
      exact List.Perm.append_left _ (perm_cons_erase_beq hgR)
    refine ⟨R.erase g, spanning_perm hperm hRsp, ?_⟩
    rw [← walkWeight_perm hperm]
    exact hRw
  · by_cases hgR' : swapE g ∈ R
    · refine ⟨R.erase (swapE g), ?_, ?_⟩
      · obtain ⟨hm, hl, hc⟩ := hRsp
        refine ⟨?_, ?_, ?_⟩
        · intro e he
          rcases List.mem_append.mp he with h1 | h1
          · rcases List.mem_append.mp h1 with h2 | h2
            · exact hm e (List.mem_append_left _ h2)
            · rw [List.mem_singleton.mp h2]
              exact hg
          · exact hm e (List.mem_append_right _ (List.erase_subset _ _ h1))
        · have hel : (R.erase (swapE g)).length = R.length - 1 :=
            List.length_erase_of_mem hgR'
          have hRpos : 0 < R.length := List.length_pos_of_mem hgR'
          simp only [List.length_append, List.length_singleton] at hl ⊢
          omega
        · intro u hu v hv
          refine reaches_mono_endpoints ?_ (hc u hu v hv)
          intro e he
          refine reaches_single (symCl_sub_of_memU ?_ e he)
          intro x hx
          rcases List.mem_append.mp hx with h1 | h1
          · exact Or.inl (List.mem_append_left _ (List.mem_append_left _ h1))
          · by_cases hxg : x = swapE g
            · refine Or.inr ?_
              rw [hxg, swapE_swapE]
              exact List.mem_append_left _
                (List.mem_append_right _ (List.mem_singleton.mpr rfl))
            · exact Or.inl (List.mem_append_right _ ((List.mem_erase_of_ne hxg).mpr h1))
      · have hperm : List.Perm R (swapE g :: R.erase (swapE g)) := perm_cons_erase_beq hgR'
        have hw1 : WalkWeight R = (swapE g).2.2 + WalkWeight (R.erase (swapE g)) := by
          rw [walkWeight_perm hperm, walkWeight_cons]
        have hw2 : WalkWeight ((treeEdges st ++ [g]) ++ R.erase (swapE g))
            = WalkWeight (treeEdges st) + g.2.2 + WalkWeight (R.erase (swapE g)) := by
          rw [walkWeight_append, walkWeight_append, walkWeight_cons, walkWeight_nil]
          ring
        have hw3 : WalkWeight (treeEdges st ++ R)
            = WalkWeight (treeEdges st) + WalkWeight R := walkWeight_append _ _
        have hsw : (swapE g).2.2 = g.2.2 := rfl
        omega
    · obtain ⟨el, helT, hflag, hsp2, hwle⟩ :=
        spanning_exchange hsym hRsp hg hgS hgS' hgv hgv' hmin
      have helnotTree : el ∉ treeEdges st := by
        intro hc
        obtain ⟨_, he1, he2, _⟩ := treeEdges_facts hb el hc
        rcases hflag with ⟨_, hb2⟩ | ⟨_, hb2⟩
        · exact hb2 he2
        · exact hb2 he1
      have helR : el ∈ R := by
        rcases List.mem_append.mp helT with h1 | h1
        · exact absurd h1 helnotTree
        · exact h1
      have herase : (treeEdges st ++ R).erase el = treeEdges st ++ R.erase el :=
        List.erase_append_right _ helnotTree
      have heq : (treeEdges st ++ [g]) ++ R.erase el = treeEdges st ++ g :: R.erase el := by
        simp
      have hperm3 : List.Perm (g :: ((treeEdges st ++ R).erase el))
          ((treeEdges st ++ [g]) ++ R.erase el) := by
        rw [herase, heq]
        exact (@List.perm_middle _ g (treeEdges st) (R.erase el)).symm
      refine ⟨R.erase el, spanning_perm hperm3 hsp2, ?_⟩
      rw [← walkWeight_perm hperm3]
      exact le_trans hwle hRw

lemma primLoop_master {vertices : List V} {edges : List (V × V × ℤ)} {root : V}
    (hnd : vertices.Nodup)
    (hend : ∀ e ∈ edges, e.1 ∈ vertices ∧ e.2.1 ∈ vertices)
    (hsym : ∀ e ∈ edges, swapE e ∈ edges) :
    ∀ (fuel : ℕ) (st : PrimState V),
      PrimInv vertices edges root st → PrimXInv vertices edges st →
      primPot (adjOf edges) vertices st ≤ fuel →
      PrimInv vertices edges root (primLoop (adjOf edges) fuel st) ∧
      PrimXInv vertices edges (primLoop (adjOf edges) fuel st) ∧
      (primLoop (adjOf edges) fuel st).pq = [] := by
  intro fuel
  induction fuel with
  | zero =>
    intro st hinv hX hpot
    have hpq : st.pq = [] := by
      unfold primPot at hpot
      have h0 : st.pq.length = 0 := by omega
      exact List.length_eq_zero.mp h0
    exact ⟨hinv, hX, hpq⟩
  | succ fuel ih =>
    intro st hinv hX hpot
    obtain ⟨hbase, hfr⟩ := hinv
    cases hpop : popMin st.pq with
    | none =>
      have hpq : st.pq = [] := popMin_none_iff.mp hpop
      have hid : primLoop (adjOf edges) (fuel + 1) st = st := by
        rw [primLoop_succ, hpop]
      rw [hid]
      exact ⟨⟨hbase, hfr⟩, hX, hpq⟩
    | some mrest =>
      obtain ⟨m, rest⟩ := mrest
      obtain ⟨hmmem, hrest, hmle⟩ := popMin_spec hpop
      subst hrest
      have hstep : primLoop (adjOf edges) (fuel + 1) st =
          (if m.2 ∈ st.intree then
            primLoop (adjOf edges) fuel { st with pq := st.pq.erase m }
           else primLoop (adjOf edges) fuel
             (primRelax (adjOf edges) m.2
               { st with pq := st.pq.erase m, intree := st.intree ++ [m.2] })) := by
        rw [primLoop_succ, hpop]
      rw [hstep]
      by_cases hstale : m.2 ∈ st.intree
      · rw [if_pos hstale]
        refine ih { st with pq := st.pq.erase m } ⟨?_, hfr⟩ hX ?_
        · refine ⟨hbase.rootIn, hbase.nodup, hbase.sub, hbase.rootPar, hbase.rootMinw,
            hbase.treeSound, hbase.outSound, ?_, ?_, hbase.treeConn⟩
          · intro kv hkv
            exact hbase.pqBound kv (List.erase_subset _ _ hkv)
          · intro v hv hne
            obtain ⟨w, hw, hmem⟩ := hbase.pqWitness v hv hne
            refine ⟨w, hw, ?_⟩
            have hneq : (w, v) ≠ m := by
              intro hc
              apply hv
              rw [show v = m.2 from congrArg Prod.snd hc]
              exact hstale
            exact (List.mem_erase_of_ne hneq).mpr hmem
        · unfold primPot at hpot ⊢
          have h1 : (st.pq.erase m).length = st.pq.length - 1 :=
            List.length_erase_of_mem hmmem
          have h2 : 0 < st.pq.length := List.length_pos_of_mem hmmem
          show (st.pq.erase m).length +
              ((vertices.filter (fun v => decide (v ∉ st.intree))).map
                (fun v => (adjOf edges v).length)).sum ≤ fuel
          omega
      · rw [if_neg hstale]
        have humem : m.2 ∈ vertices := (hbase.pqBound m hmmem).1
        have hune : m.2 ≠ root := fun hc => hstale (by rw [hc]; exact hbase.rootIn)
        have hminle : st.minw m.2 ≤ ((m.1 : ℤ) : Weight) := (hbase.pqBound m hmmem).2
        have hminfin : st.minw m.2 ≠ ⊤ := by
          intro hc
          rw [hc] at hminle
          exact WithTop.coe_ne_top (top_le_iff.mp hminle)
        obtain ⟨w0, hw0, hw0mem⟩ := hbase.pqWitness m.2 hstale hminfin
        have hm1w0 : m.1 ≤ w0 := by
          rcases hmle (w0, m.2) hw0mem with h | ⟨h, _⟩
          · exact le_of_lt h
          · exact le_of_eq h
        have hminw_eq : st.minw m.2 = ((m.1 : ℤ) : Weight) := by
          refine le_antisymm hminle ?_
          rw [hw0]
          exact_mod_cast hm1w0
        rcases hbase.outSound m.2 hstale hune with ⟨htop, _⟩ | ⟨p, w, hp, hpin, hpe, hmw⟩
        · exact absurd htop hminfin
        have hwm1 : w = m.1 := by
          rw [hminw_eq] at hmw
          exact_mod_cast hmw.symm
        subst hwm1
        have hgreedy : ∀ f ∈ edges, f.1 ∈ st.intree → f.2.1 ∉ st.intree → m.1 ≤ f.2.2 := by
          intro f hf hf1 hf2
          have htriple : (f.1, f.2.1, f.2.2) ∈ edges := hf
          have hfr' := hfr f.2.1 hf2 f.1 hf1 (List.not_mem_nil _) f.2.2 htriple
          have hffin : st.minw f.2.1 ≠ ⊤ := by
            intro hc
            rw [hc] at hfr'
            exact WithTop.coe_ne_top (top_le_iff.mp hfr')
          obtain ⟨wf, hwf, hwfmem⟩ := hbase.pqWitness f.2.1 hf2 hffin
          have hm1wf : m.1 ≤ wf := by
            rcases hmle (wf, f.2.1) hwfmem with h | ⟨h, _⟩
            · exact le_of_lt h
            · exact le_of_eq h
          have hwff : ((wf : ℤ) : Weight) ≤ ((f.2.2 : ℤ) : Weight) := by
            rw [← hwf]
            exact hfr'
          have hwf2 : wf ≤ f.2.2 := by exact_mod_cast hwff
          omega
        have htmid : treeEdges { st with pq := st.pq.erase m, intree := st.intree ++ [m.2] }
            = treeEdges st ++ [(p, m.2, m.1)] := by
          show (st.intree ++ [m.2]).filterMap
              (fun v => (st.parent v).map (fun q => (q, v, (st.minw v).untop' 0)))
            = treeEdges st ++ [(p, m.2, m.1)]
          rw [List.filterMap_append]
          congr 1
          have hf : (st.parent m.2).map (fun q => (q, m.2, (st.minw m.2).untop' 0))
              = some (p, m.2, m.1) := by
            rw [hp, hminw_eq]
            simp [WithTop.untop'_coe]
          simp only [List.filterMap_cons, hf, List.filterMap_nil]
        have hmidnodup : (st.intree ++ [m.2]).Nodup := by
          rw [List.nodup_append]
          exact ⟨hbase.nodup, List.nodup_singleton _,
            fun x hx hx2 => hstale (by rwa [List.mem_singleton.mp hx2] at hx)⟩
        have hmidbase : PrimBase vertices edges root
            { st with pq := st.pq.erase m, intree := st.intree ++ [m.2] } := by
          refine ⟨List.mem_append_left _ hbase.rootIn, hmidnodup, ?_, hbase.rootPar,
            hbase.rootMinw, ?_, ?_, ?_, ?_, ?_⟩
          · intro v hv
            rcases List.mem_append.mp hv with h | h
            · exact hbase.sub v h
            · rw [List.mem_singleton.mp h]
              exact humem
          · intro v hv hvroot
            rcases List.mem_append.mp hv with h | h
            · obtain ⟨q, w', hq, hqin, hqe, hqw⟩ := hbase.treeSound v h hvroot
              exact ⟨q, w', hq, List.mem_append_left _ hqin, hqe, hqw⟩
            · rw [List.mem_singleton.mp h]
              exact ⟨p, m.1, hp, List.mem_append_left _ hpin, hpe, hminw_eq⟩
          · intro v hv hvroot
            have hvold : v ∉ st.intree := fun hc => hv (List.mem_append_left _ hc)
            rcases hbase.outSound v hvold hvroot with h | ⟨q, w', hq, hqin, hqe, hqw⟩
            · exact Or.inl h
            · exact Or.inr ⟨q, w', hq, List.mem_append_left _ hqin, hqe, hqw⟩
          · intro kv hkv
            exact hbase.pqBound kv (List.erase_subset _ _ hkv)
          · intro v hv hfin
            have hvold : v ∉ st.intree := fun hc => hv (List.mem_append_left _ hc)
            have hvne : v ≠ m.2 := fun hc =>
              hv (List.mem_append_right _ (by rw [hc]; exact List.mem_singleton.mpr rfl))
            obtain ⟨w', hw', hwmem⟩ := hbase.pqWitness v hvold hfin
            refine ⟨w', hw', ?_⟩
            have hneq : (w', v) ≠ m := fun hc => hvne (congrArg Prod.snd hc)
            exact (List.mem_erase_of_ne hneq).mpr hwmem
          · intro v hv
            show Reaches (symCl (treeEdges
              { st with pq := st.pq.erase m, intree := st.intree ++ [m.2] })) v root
            rw [htmid]
            rcases List.mem_append.mp hv with h | h
            · refine reaches_mono_endpoints ?_ (hbase.treeConn v h)
              intro e he
              exact reaches_single (symCl_mono (fun x hx => List.mem_append_left _ hx) he)
            · rw [List.mem_singleton.mp h]
              have hmem0 : ((p, m.2, m.1) : V × V × ℤ)
                  ∈ symCl (treeEdges st ++ [(p, m.2, m.1)]) :=
                mem_symCl_iff.mpr
                  (Or.inl (List.mem_append_right _ (List.mem_singleton.mpr rfl)))
              have hstep2 : Reaches (symCl (treeEdges st ++ [(p, m.2, m.1)])) m.2 p :=
                reaches_single (symCl_swap_closed hmem0)
              refine hstep2.trans ?_
              refine reaches_mono_endpoints ?_ (hbase.treeConn p hpin)
              intro e he
              exact reaches_single (symCl_mono (fun x hx => List.mem_append_left _ hx) he)
        have hmidfr : PrimFrontier edges
            { st with pq := st.pq.erase m, intree := st.intree ++ [m.2] } [m.2] := by
          intro v hv x hx hxne w hxw
          have hvold : v ∉ st.intree := fun hc => hv (List.mem_append_left _ hc)
          have hxold : x ∈ st.intree := by
            rcases List.mem_append.mp hx with h | h
            · exact h
            · exact absurd h hxne
          exact hfr v hvold x hxold (List.not_mem_nil _) w hxw
        have humid : m.2 ∈
            ({ st with pq := st.pq.erase m, intree := st.intree ++ [m.2] } : PrimState V).intree :=
          List.mem_append_right _ (List.mem_singleton.mpr rfl)
        have hinv2 : PrimInv vertices edges root
            (primRelax (adjOf edges) m.2
              { st with pq := st.pq.erase m, intree := st.intree ++ [m.2] }) :=
          primRelax_inv hsym hend humid hmidbase hmidfr
        have htfix : treeEdges (primRelax (adjOf edges) m.2
              { st with pq := st.pq.erase m, intree := st.intree ++ [m.2] })
            = treeEdges { st with pq := st.pq.erase m, intree := st.intree ++ [m.2] } := by
          rw [primRelax_eq]
          refine treeEdges_congr (relaxFold_intree _ _ _) ?_ ?_
          · intro v hv
            exact (relaxFold_frozen m.2 (adjOf edges m.2) _ v hv).2
          · intro v hv
            exact (relaxFold_frozen m.2 (adjOf edges m.2) _ v hv).1
        have hXstep := primXInv_step hsym hbase hpe hpin hstale
          (hbase.sub p hpin) humem hgreedy hX
        have hX2 : PrimXInv vertices edges
            (primRelax (adjOf edges) m.2
              { st with pq := st.pq.erase m, intree := st.intree ++ [m.2] }) := by
          intro T hT
          obtain ⟨R, h1, h2⟩ := hXstep T hT
          refine ⟨R, ?_, ?_⟩
          · rw [htfix, htmid]
            exact h1
          · rw [htfix, htmid]
            exact h2
        have hpot2 : primPot (adjOf edges) vertices
            (primRelax (adjOf edges) m.2
              { st with pq := st.pq.erase m, intree := st.intree ++ [m.2] }) ≤ fuel := by
          obtain ⟨ext, hext, hextlen⟩ :=
            relaxFold_pq_ext m.2 (adjOf edges m.2)
              { st with pq := st.pq.erase m, intree := st.intree ++ [m.2] }
          have hit : (primRelax (adjOf edges) m.2
              { st with pq := st.pq.erase m, intree := st.intree ++ [m.2] }).intree
              = st.intree ++ [m.2] :=
            relaxFold_intree m.2 (adjOf edges m.2) _
          have hpq2 : (primRelax (adjOf edges) m.2
              { st with pq := st.pq.erase m, intree := st.intree ++ [m.2] }).pq
              = st.pq.erase m ++ ext := hext
          have hdrop : ((vertices.filter (fun v => decide (v ∉ st.intree ++ [m.2]))).map
                (fun v => (adjOf edges v).length)).sum + (adjOf edges m.2).length
              = ((vertices.filter (fun v => decide (v ∉ st.intree))).map
                (fun v => (adjOf edges v).length)).sum :=
            filter_sum_drop (fun v => (adjOf edges v).length) vertices hnd m.2 st.intree
              humem hstale
          have hL1 : (st.pq.erase m).length = st.pq.length - 1 :=
            List.length_erase_of_mem hmmem
          have hL2 : 0 < st.pq.length := List.length_pos_of_mem hmmem
          unfold primPot at hpot ⊢
          rw [hpq2, hit, List.length_append]
          omega
        exact ih _ hinv2 hX2 hpot2

lemma weight_sum_untop (parent : V → Option V) (minw : V → Weight) :
    ∀ l : List V, (∀ v ∈ l, parent v ≠ none → minw v ≠ ⊤) →
      (l.filterMap (fun v => (parent v).map (fun _ => minw v))).sum
        = ((((l.filterMap (fun v => (parent v).map
            (fun p => (p, v, (minw v).untop' 0)))).map (fun e => e.2.2)).sum : ℤ) : Weight) := by
  intro l
  induction l with
  | nil =>
    intro _
    rfl
  | cons a l ih =>
    intro h
    have htail := fun v hv => h v (List.mem_cons_of_mem _ hv)
    cases hp : parent a with
    | none =>
      simp only [List.filterMap_cons, hp, Option.map_none']
      exact ih htail
    | some p =>
      have hfin : minw a ≠ ⊤ := h a (List.mem_cons_self _ _) (by rw [hp]; simp)
      obtain ⟨z, hz⟩ : ∃ z : ℤ, minw a = ((z : ℤ) : Weight) := by
        cases hq : minw a with
        | none => exact absurd hq hfin
        | some z => exact ⟨z, rfl⟩
      simp only [List.filterMap_cons, hp, Option.map_some', List.map_cons, List.sum_cons]
      rw [ih htail, hz, WithTop.untop'_coe, ← WithTop.coe_add]

lemma prim_initial {rest : List V} {edges : List (V × V × ℤ)} {root : V}
    (hnd : (root :: rest).Nodup)
    (hend : ∀ e ∈ edges, e.1 ∈ root :: rest ∧ e.2.1 ∈ root :: rest)
    (hsym : ∀ e ∈ edges, swapE e ∈ edges) :
    PrimInv (root :: rest) edges root
      (primRelax (adjOf edges) root
        { minw := updF (fun _ => (⊤ : Weight)) root 0, parent := fun _ => none,
          pq := ([] : List (ℤ × V)), intree := [] ++ [root] }) ∧
    PrimXInv (root :: rest) edges
      (primRelax (adjOf edges) root
        { minw := updF (fun _ => (⊤ : Weight)) root 0, parent := fun _ => none,
          pq := ([] : List (ℤ × V)), intree := [] ++ [root] }) ∧
    primPot (adjOf edges) (root :: rest)
      (primRelax (adjOf edges) root
        { minw := updF (fun _ => (⊤ : Weight)) root 0, parent := fun _ => none,
          pq := ([] : List (ℤ × V)), intree := [] ++ [root] }) ≤ 2 * edges.length := by
  have hrootin : root ∈ ([] ++ [root] : List V) :=
    List.mem_append_right _ (List.mem_singleton.mpr rfl)
  have hbaseM : PrimBase (root :: rest) edges root
      { minw := updF (fun _ => (⊤ : Weight)) root 0, parent := fun _ => none,
        pq := ([] : List (ℤ × V)), intree := [] ++ [root] } := by
    refine ⟨hrootin, by simp, ?_, rfl,
      updF_self (fun _ => (⊤ : Weight)) root 0, ?_, ?_, ?_, ?_, ?_⟩
    · intro v hv
      have hv' : v = root := by simpa using hv
      rw [hv']
      exact List.mem_cons_self _ _
    · intro v hv hvr
      have hv' : v = root := by simpa using hv
      exact absurd hv' hvr
    · intro v hv hvr
      exact Or.inl ⟨updF_other (fun _ => (⊤ : Weight)) root 0 hvr, rfl⟩
    · intro kv hkv
      exact absurd hkv (List.not_mem_nil _)
    · intro v hv hfin
      exfalso
      apply hfin
      have hvr : v ≠ root := fun hc => hv (by rw [hc]; exact hrootin)
      exact updF_other (fun _ => (⊤ : Weight)) root 0 hvr
    · intro v hv
      have hv' : v = root := by simpa using hv
      rw [hv']
      exact reaches_self
  have hfrM : PrimFrontier edges
      { minw := updF (fun _ => (⊤ : Weight)) root 0, parent := fun _ => none,
        pq := ([] : List (ℤ × V)), intree := [] ++ [root] } [root] := by
    intro v hv x hx hxe w hxw
    exfalso
    apply hxe
    have hx' : x = root := by simpa using hx
    rw [hx']
    exact List.mem_singleton.mpr rfl
  refine ⟨primRelax_inv hsym hend hrootin hbaseM hfrM, ?_, ?_⟩
  · have h1 : (primRelax (adjOf edges) root
        { minw := updF (fun _ => (⊤ : Weight)) root 0, parent := fun _ => none,
          pq := ([] : List (ℤ × V)), intree := [] ++ [root] }).intree = [root] :=
      relaxFold_intree root (adjOf edges root) _
    have h2 : (primRelax (adjOf edges) root
        { minw := updF (fun _ => (⊤ : Weight)) root 0, parent := fun _ => none,
          pq := ([] : List (ℤ × V)), intree := [] ++ [root] }).parent root = none :=
      (relaxFold_frozen root (adjOf edges root) _ root hrootin).2
    have htE1 : treeEdges (primRelax (adjOf edges) root
        { minw := updF (fun _ => (⊤ : Weight)) root 0, parent := fun _ => none,
          pq := ([] : List (ℤ × V)), intree := [] ++ [root] }) = [] := by
      unfold treeEdges
      rw [h1]
      simp only [List.filterMap_cons, h2, Option.map_none', List.filterMap_nil]
    intro T hT
    refine ⟨T, ?_, ?_⟩
    · rw [htE1, List.nil_append]
      exact hT
    · rw [htE1, List.nil_append]
  · obtain ⟨ext, hext, hextlen⟩ := relaxFold_pq_ext root (adjOf edges root)
      { minw := updF (fun _ => (⊤ : Weight)) root 0, parent := fun _ => none,
        pq := ([] : List (ℤ × V)), intree := [] ++ [root] }
    have hpq1 : (primRelax (adjOf edges) root
        { minw := updF (fun _ => (⊤ : Weight)) root 0, parent := fun _ => none,
          pq := ([] : List (ℤ × V)), intree := [] ++ [root] }).pq = [] ++ ext := hext
    have hit : (primRelax (adjOf edges) root
        { minw := updF (fun _ => (⊤ : Weight)) root 0, parent := fun _ => none,
          pq := ([] : List (ℤ × V)), intree := [] ++ [root] }).intree = [] ++ [root] :=
      relaxFold_intree root (adjOf edges root) _
    have hdrop : (((root :: rest).filter (fun v => decide (v ∉ ([] : List V) ++ [root]))).map
          (fun v => (adjOf edges v).length)).sum + (adjOf edges root).length
        = (((root :: rest).filter (fun v => decide (v ∉ ([] : List V)))).map
          (fun v => (adjOf edges v).length)).sum :=
      filter_sum_drop (fun v => (adjOf edges v).length) (root :: rest) hnd root []
        (List.mem_cons_self _ _) (List.not_mem_nil _)
    have hall : (((root :: rest).filter (fun v => decide (v ∉ ([] : List V)))).map
          (fun v => (adjOf edges v).length)).sum
        ≤ ((root :: rest).map (fun v => (adjOf edges v).length)).sum :=
      sum_filter_le _ _ _
    have h2E := adjOf_sum_le (root :: rest) hnd edges
    unfold primPot
    rw [hpq1, List.nil_append, hit]
    omega

lemma prim_final {vertices : List V} {edges : List (V × V × ℤ)} {root : V}
    (hnd : vertices.Nodup) (hroot : root ∈ vertices)
    (hsym : ∀ e ∈ edges, swapE e ∈ edges)
    (hconn : ∀ u ∈ vertices, ∀ v ∈ vertices, Reaches (symCl edges) u v)
    {F : PrimState V} (hbaseF : PrimBase vertices edges root F)
    (hfrF : PrimFrontier edges F []) (hXF : PrimXInv vertices edges F)
    (hpqF : F.pq = []) :
    (vertices.filterMap (fun v => (F.parent v).map (fun p => (p, v, F.minw v)))).length
      = vertices.length - 1 ∧
    ((vertices.filterMap (fun v => (F.parent v).map (fun p => (p, v, F.minw v)))).map
        (fun e => e.2.2)).sum
      = (vertices.filterMap (fun v => (F.parent v).map (fun _ => F.minw v))).sum ∧
    IsMinSpanningWeight vertices edges
      ((vertices.filterMap (fun v => (F.parent v).map (fun _ => F.minw v))).sum) := by
  have hallin : ∀ v ∈ vertices, v ∈ F.intree := by
    intro v hv
    by_contra hvout
    obtain ⟨q, hq⟩ := hconn root hroot v hv
    obtain ⟨p₁, fs, p₂, hsplit, hfs1, hfs2, _, _, _⟩ :=
      crossing_split F.intree q root v hq hbaseF.rootIn hvout
    have hfsE : fs ∈ symCl edges :=
      walk_elems_mem hq fs
        (by rw [hsplit]; exact List.mem_append_right _ (List.mem_cons_self _ _))
    have hfsedges : (fs.1, fs.2.1, fs.2.2) ∈ edges := by
      rcases mem_symCl_iff.mp hfsE with h | h
      · exact h
      · have h2 := hsym _ h
        rw [swapE_swapE] at h2
        exact h2
    have hle := hfrF fs.2.1 hfs2 fs.1 hfs1 (List.not_mem_nil _) fs.2.2 hfsedges
    have hfin2 : F.minw fs.2.1 ≠ ⊤ := by
      intro hc
      rw [hc] at hle
      exact WithTop.coe_ne_top (top_le_iff.mp hle)
    obtain ⟨w, _, hwmem⟩ := hbaseF.pqWitness fs.2.1 hfs2 hfin2
    rw [hpqF] at hwmem
    exact absurd hwmem (List.not_mem_nil _)
  have hperm : List.Perm F.intree vertices :=
    (List.subperm_of_subset hbaseF.nodup (fun v hv => hbaseF.sub v hv)).antisymm
      (List.subperm_of_subset hnd (fun v hv => hallin v hv))
  have hiff : ∀ v ∈ vertices, (F.parent v = none ↔ v = root) :=
    fun v hv => primBase_parent_none_iff hbaseF v (hallin v hv)
  have hlen : (vertices.filterMap
        (fun v => (F.parent v).map (fun p => (p, v, F.minw v)))).length
      = vertices.length - 1 :=
    length_filterMap_parent F.parent (fun p v => (p, v, F.minw v)) root vertices hnd
      hroot hiff
  have hsum2 : ((vertices.filterMap
        (fun v => (F.parent v).map (fun p => (p, v, F.minw v)))).map
        (fun e => e.2.2)).sum
      = (vertices.filterMap (fun v => (F.parent v).map (fun _ => F.minw v))).sum := by
    rw [List.map_filterMap]
    refine congrArg List.sum ?_
    refine List.filterMap_congr ?_
    intro v _
    cases hp : F.parent v with
    | none => simp
    | some p => simp
  have hspanF : IsSpanningTree vertices edges (treeEdges F) := by
    refine ⟨fun e he => (treeEdges_facts hbaseF e he).1, ?_, ?_⟩
    · rw [treeEdges_length hbaseF, hperm.length_eq]
    · intro u hu v hv
      exact (hbaseF.treeConn u (hallin u hu)).trans
        (reaches_symm_symCl (hbaseF.treeConn v (hallin v hv)))
  have hminF : ∀ T, IsSpanningTree vertices edges T →
      WalkWeight (treeEdges F) ≤ WalkWeight T := by
    intro T hT
    obtain ⟨R, hRsp, hRw⟩ := hXF T hT
    have hl1 := hRsp.2.1
    have hl2 : (treeEdges F).length = vertices.length - 1 := by
      rw [treeEdges_length hbaseF, hperm.length_eq]
    rw [List.length_append] at hl1
    have hR0 : R.length = 0 := by omega
    rw [List.length_eq_zero.mp hR0, List.append_nil] at hRw
    exact hRw
  have hnetop : ∀ v ∈ F.intree, F.parent v ≠ none → F.minw v ≠ ⊤ := by
    intro v hv hpar
    have hvr : v ≠ root := by
      intro hc
      apply hpar
      rw [hc]
      exact hbaseF.rootPar
    obtain ⟨p, w, _, _, _, hmw⟩ := hbaseF.treeSound v hv hvr
    rw [hmw]
    exact WithTop.coe_ne_top
  have hweq : (vertices.filterMap (fun v => (F.parent v).map (fun _ => F.minw v))).sum
      = ((WalkWeight (treeEdges F) : ℤ) : Weight) := by
    have hpermf : List.Perm
        (vertices.filterMap (fun v => (F.parent v).map (fun _ => F.minw v)))
        (F.intree.filterMap (fun v => (F.parent v).map (fun _ => F.minw v))) :=
      (hperm.filterMap _).symm
    rw [hpermf.sum_eq]
    exact weight_sum_untop F.parent F.minw F.intree hnetop
  refine ⟨hlen, hsum2, ⟨treeEdges F, hspanF, hweq.symm⟩, ?_⟩
  intro T hT
  rw [hweq]
  exact_mod_cast hminF T hT

/-- C1: for every connected undirected graph — given as a duplicate-free
nonempty vertex list and an already-expanded symmetric edge list joining
graph vertices — `prim` returns a result pair whose edge list has exactly
`|V| - 1` edges and whose reported total weight, which is the sum of the
weights of the returned edges, equals the minimum total weight over all
spanning trees of the graph. -/
theorem prim_minimum_spanning_tree {vertices : List V} {edges : List (V × V × ℤ)}
    (hnd : vertices.Nodup) (hne : vertices ≠ [])
    (hend : ∀ e ∈ edges, e.1 ∈ vertices ∧ e.2.1 ∈ vertices)
    (hsym : ∀ e ∈ edges, swapE e ∈ edges)
    (hconn : ∀ u ∈ vertices, ∀ v ∈ vertices, Reaches (symCl edges) u v) :
    ∃ es t, prim vertices edges = PrimResult.res es t ∧
      es.length = vertices.length - 1 ∧
      (es.map (fun e => e.2.2)).sum = t ∧
      IsMinSpanningWeight vertices edges t := by
  obtain ⟨root, rest, rfl⟩ : ∃ a l, vertices = a :: l := by
    cases vertices with
    | nil => exact absurd rfl hne
    | cons a l => exact ⟨a, l, rfl⟩
  obtain ⟨hinv1, hX1, hpot1⟩ := prim_initial hnd hend hsym
  obtain ⟨hinvF, hXF, hpqF⟩ :=
    primLoop_master hnd hend hsym (2 * edges.length) _ hinv1 hX1 hpot1
  obtain ⟨hbaseF, hfrF⟩ := hinvF
  have hpop0 : popMin
      ({ minw := updF (fun _ => (⊤ : Weight)) root 0, parent := fun _ => none,
         pq := [((0 : ℤ), root)],
         intree := ([] : List V) } : PrimState V).pq = some ((0, root), []) := by
    show some ((0, root), [((0 : ℤ), root)].erase (0, root)) = some ((0, root), [])
    rw [List.erase_cons_head]
  have hrun : primLoop (adjOf edges) (1 + 2 * edges.length)
      { minw := updF (fun _ => (⊤ : Weight)) root 0, parent := fun _ => none,
        pq := [((0 : ℤ), root)], intree := ([] : List V) }
      = primLoop (adjOf edges) (2 * edges.length)
        (primRelax (adjOf edges) root
          { minw := updF (fun _ => (⊤ : Weight)) root 0, parent := fun _ => none,
            pq := ([] : List (ℤ × V)), intree := [] ++ [root] }) := by
    rw [Nat.add_comm, primLoop_succ, hpop0]
    rfl
  have hprim : prim (root :: rest) edges = PrimResult.res
      ((root :: rest).filterMap (fun v =>
        ((primLoop (adjOf edges) (1 + 2 * edges.length)
          { minw := updF (fun _ => (⊤ : Weight)) root 0, parent := fun _ => none,
            pq := [((0 : ℤ), root)], intree := ([] : List V) }).parent v).map (fun p =>
          (p, v, (primLoop (adjOf edges) (1 + 2 * edges.length)
            { minw := updF (fun _ => (⊤ : Weight)) root 0, parent := fun _ => none,
              pq := [((0 : ℤ), root)], intree := ([] : List V) }).minw v))))
      (((root :: rest).filterMap (fun v =>
        ((primLoop (adjOf edges) (1 + 2 * edges.length)
          { minw := updF (fun _ => (⊤ : Weight)) root 0, parent := fun _ => none,
            pq := [((0 : ℤ), root)], intree := ([] : List V) }).parent v).map (fun _ =>
          (primLoop (adjOf edges) (1 + 2 * edges.length)
            { minw := updF (fun _ => (⊤ : Weight)) root 0, parent := fun _ => none,
              pq := [((0 : ℤ), root)], intree := ([] : List V) }).minw v))).sum) := rfl
  rw [hrun] at hprim
  obtain ⟨hlenF, hsumF, hminSW⟩ :=
    prim_final hnd (List.mem_cons_self _ _) hsym hconn hbaseF hfrF hXF hpqF
  exact ⟨_, _, hprim, hlenF, hsumF, hminSW⟩

/-- Witness for the Prim correctness theorem: the two-vertex graph with one
undirected edge of weight 5 is connected, and all side conditions hold. -/
theorem prim_minimum_spanning_tree_witness :
    ∃ es t, prim [0, 1] [((0 : ℕ), 1, (5 : ℤ)), (1, 0, 5)] = PrimResult.res es t ∧
      es.length = ([0, 1] : List ℕ).length - 1 ∧
      (es.map (fun e => e.2.2)).sum = t ∧
      IsMinSpanningWeight [0, 1] [((0 : ℕ), 1, (5 : ℤ)), (1, 0, 5)] t := by
  refine prim_minimum_spanning_tree (by decide) (by decide) (by decide) (by decide) ?_
  intro u hu v hv
  have h01 : Reaches (symCl [((0 : ℕ), 1, (5 : ℤ)), (1, 0, 5)]) 0 1 :=
    ⟨[(0, 1, 5)], by decide, rfl, rfl⟩
  have h10 : Reaches (symCl [((0 : ℕ), 1, (5 : ℤ)), (1, 0, 5)]) 1 0 :=
    ⟨[(1, 0, 5)], by decide, rfl, rfl⟩
  rcases List.mem_cons.mp hu with rfl | hu'
  · rcases List.mem_cons.mp hv with rfl | hv'
    · exact reaches_self
    · have hv2 : v = 1 := by simpa using hv'
      rw [hv2]
      exact h01
  · have hu2 : u = 1 := by simpa using hu'
    rcases List.mem_cons.mp hv with rfl | hv'
    · rw [hu2]
      exact h10
    · have hv2 : v = 1 := by simpa using hv'
      rw [hv2, hu2]
      exact reaches_self

end Theorems

end GraphAlgos
